import Mathlib

/-!
A shallow embedding of the fine-grained reactivity runtime (signals, deriveds,
effects, forks) of the pawpal web app, together with proofs about its
documented behaviour.

Modelling conventions:
* JS objects for sources / deriveds / effects are uniform `Node` records stored
  in a heap (`List Node`); object identity becomes the heap index.
* User closures (the `fn` of a derived or effect, teardown callbacks) are terms
  of a small program type `Prog` interpreted by a fuel-indexed interpreter;
  every runtime function below is a direct transcription of the corresponding
  JS function.
* JS exceptions are `Except Err`; running out of fuel is `Option.none` (the JS
  code can diverge, e.g. a derived whose fn reads itself).
* `Object.is` becomes decidable equality on `Val` (the NaN / signed-zero fine
  structure of same-value equality is not needed by any claim).
* `queueMicrotask` scheduling is represented by running `drain` explicitly
  after a synchronous batch, as the spec's testing note suggests (`flush()`).
-/

namespace Penpals

/-- Programs: the fragment of JS used by user closures handed to the runtime
(`fn` bodies of deriveds and effects, teardown callbacks).  `getN` / `setN`
read and write a node by heap index, `effectP` is a nested `effect(fn)` call,
`untrackP` is `untrack(fn)`, `fnLit` evaluates to a function value (so that an
effect body can return a cleanup callback), `throwP` throws a user error. -/
inductive Prog where
  | lit (n : Int)
  | nullL
  | undefL
  | fnLit (body : Prog)
  | seq (a b : Prog)
  | ifP (c t e : Prog)
  | getN (x : Nat)
  | setN (x : Nat) (arg : Prog)
  | untrackP (body : Prog)
  | throwP
  | effectP (body : Prog)
deriving DecidableEq, Repr

/-- Runtime values: numbers, `null`, `undefined` and function values. -/
inductive Val where
  | int (n : Int)
  | vnull
  | undef
  | fnv (body : Prog)
deriving DecidableEq, Repr

/-- JS truthiness for the values of `Val`. -/
def truthy : Val → Bool
  | .int n => n ≠ 0
  | .vnull => false
  | .undef => false
  | .fnv _ => true

/-- The flag bits `DIRTY`, `MAYBE_DIRTY`, `DERIVED`, `UNINITIALIZED`, `ROOT`,
`DISCONNECTED_EFFECT` of the source, as named booleans. -/
structure Flags where
  dirty : Bool := false
  maybeDirty : Bool := false
  derivedF : Bool := false
  uninit : Bool := false
  rootF : Bool := false
  disconnected : Bool := false
deriving DecidableEq, Repr

/-- A uniform node record: sources use `v`/`reactions`, deriveds additionally
`deps`/`fn`/`effects`, effects use `fn`/`teardown`/`deps` and the tree links
`parent`/`prev`/`next`/`head`/`tail`/`root_index`.  Absent JS fields /
`null`-valued fields are `none`; a JS field holding an empty array is
`some []` (the runtime distinguishes `null` from `[]`). -/
structure Node where
  v : Val := .undef
  reactions : Option (List Nat) := none
  deps : Option (List Nat) := none
  f : Flags := {}
  fn : Option Prog := none
  effects : Option (List Nat) := none
  teardown : Option Prog := none
  parent : Option Nat := none
  next : Option Nat := none
  prev : Option Nat := none
  head : Option Nat := none
  tail : Option Nat := none
  root_index : Option Nat := none
deriving DecidableEq, Repr

/-- Trace events recording each invocation of a node's `fn` and each
invocation of a teardown callback (used to count (re-)executions). -/
inductive Evt where
  | fnRun (i : Nat)
  | teardownRun (i : Nat)
deriving DecidableEq, Repr

/-- Errors: `state_unsafe_mutation`, a user exception thrown by a closure, and
`fault` for accesses the JS code would crash on (never reached from the
well-formed states used in the theorems). -/
inductive Err where
  | unsafeMutation
  | userErr
  | fault
deriving DecidableEq, Repr

deriving instance DecidableEq for Except

/-- The process-global state of the runtime: the node heap, the reaction
stack (head = top, `none` entries are the tracking-disabling sentinel), the
pending-effect FIFO, the `tracking` toggle, the two fork maps and the
`root_index` counter, plus the event trace. -/
structure St where
  heap : List Node := []
  reaction_stack : List (Option Nat) := []
  queue : List Nat := []
  tracking : Bool := true
  active_fork : Option (List (Nat × Val)) := none
  applying_fork : Option (List (Nat × Val)) := none
  root_index : Nat := 0
  trace : List Evt := []
deriving DecidableEq, Repr

/-- Heap lookup by node id. -/
def lookupN (s : St) (i : Nat) : Option Node := s.heap[i]?

/-- Replace node `i` in the heap (no-op when absent, as all call sites check
presence first). -/
def updN (s : St) (i : Nat) (g : Node → Node) : St :=
  match s.heap[i]? with
  | none => s
  | some nd => { s with heap := s.heap.set i (g nd) }

/-- Model of `arr.splice(arr.indexOf(x), 1)`: removes the first occurrence of
`x`; when `x` is absent, `indexOf` yields `-1` and `splice(-1, 1)` removes the
LAST element of the array. -/
def jsRemove (l : List Nat) (x : Nat) : List Nat :=
  if x ∈ l then l.erase x else l.dropLast

/-- `Map.prototype.get`, as an option (absent key = `undefined`). -/
def assocGet (m : List (Nat × Val)) (k : Nat) : Option Val :=
  (m.find? (fun p => p.1 = k)).map (·.2)

/-- `Map.prototype.set`: update in place preserving insertion order, append
when absent. -/
def assocSet (m : List (Nat × Val)) (k : Nat) (v : Val) : List (Nat × Val) :=
  if (m.find? (fun p => p.1 = k)).isSome then
    m.map (fun p => if p.1 = k then (k, v) else p)
  else m ++ [(k, v)]

/-- Step 1 of `get(source)`: when `tracking` is on, the top of the reaction
stack is a non-null reaction `r`, `r` is not already registered in
`source.reactions`, is not the node itself and is not a `ROOT` effect, push
the edge into both `source.reactions` and `r.deps` (`??=` allocates the
arrays). -/
def trackRead (s : St) (x : Nat) : St :=
  if s.tracking then
    match s.reaction_stack.head? with
    | some (some r) =>
      match lookupN s x, lookupN s r with
      | some nd, some rn =>
        if ¬ (nd.reactions.getD []).contains r ∧ x ≠ r ∧ rn.f.rootF = false then
          let s₁ := updN s x
            (fun y => { y with reactions := some ((y.reactions.getD []) ++ [r]) })
          updN s₁ r (fun y => { y with deps := some ((y.deps.getD []) ++ [x]) })
        else s
      | _, _ => s
    | _ => s
  else s

/-- The shared `while ((dep = R.deps.shift())) dep.reactions.splice(...)`
loop of `update_derived` and `teardown_effect`: unlink `r` from the
back-references of each of its deps, then null out `r.deps`.  The JS loop
mutates `r.deps` as it shifts, but nothing reads `r.deps` in between, so a
fold over the snapshot is equivalent. -/
def removeDepsFrom (s : St) (r : Nat) : St :=
  match lookupN s r with
  | none => s
  | some nd =>
    match nd.deps with
    | none => s
    | some xs =>
      let s₁ := xs.foldl
        (fun acc d => updN acc d
          (fun dn => { dn with reactions := dn.reactions.map (fun l => jsRemove l r) }))
        s
      updN s₁ r (fun rn => { rn with deps := none })

/-- Depth of a node in the effect tree (`get_effect_depth`): number of
`parent` steps above it, computed with a fuel bound (parent chains in
reachable heaps are acyclic). -/
def depthWalk (s : St) : Nat → Option Nat → Nat
  | 0, _ => 0
  | _, none => 0
  | k + 1, some c => 1 + depthWalk s k ((lookupN s c).bind (·.parent))

/-- `get_effect_depth(effect)` from `sort_effects`. -/
def get_effect_depth (s : St) (e : Nat) : Nat :=
  depthWalk s (s.heap.length + 1) ((lookupN s e).bind (·.parent))

/-- Walk a sibling chain (`head` / `next` pointers) looking for `a` or `b`;
returns whichever occurs first, `none` if neither is found. -/
def chainPick (s : St) : Nat → Option Nat → Nat → Nat → Option Nat
  | 0, _, _, _ => none
  | _, none, _, _ => none
  | k + 1, some c, a, b =>
    if c = a then some a
    else if c = b then some b
    else chainPick s k ((lookupN s c).bind (·.next)) a b

/-- The lock-step ancestor walk of the inner comparator of `sort_effects`.
When the common ancestor's child list contains neither previous node the JS
loop never advances (an infinite loop in the source); the fuel-exhaustion
branch returns `a`, matching the documented "disjoint trees return `a`"
fallback. -/
def lockstep (s : St) : Nat → Nat → Nat → Nat → Nat → Option Nat → Option Nat → Nat
  | 0, a, _, _, _, _, _ => a
  | k + 1, a, b, pa, pb, some x, some y =>
    if x = y then
      match chainPick s (s.heap.length + 1) ((lookupN s x).bind (·.head)) pa pb with
      | some c => if c = pa then a else b
      | none => lockstep s k a b pa pb (some x) (some y)
    else lockstep s k a b x y ((lookupN s x).bind (·.parent)) ((lookupN s y).bind (·.parent))
  | _ + 1, a, _, _, _, _, _ => a

/-- `indexOf` as an integer (`-1` when absent). -/
def idxOfI (l : List Nat) (x : Nat) : Int :=
  match l.findIdx? (· = x) with
  | some i => (i : Int)
  | none => -1

/-- The binary helper `sort_effects(a, b)` nested inside `sort_effects`:
returns whichever of the two effects comes first in the effect tree. -/
def pairPick (s : St) (a b : Nat) : Nat :=
  let pa := (lookupN s a).bind (·.parent)
  let pb := (lookupN s b).bind (·.parent)
  let fromSame : Option Nat :=
    match pa, pb with
    | some p, some q =>
      if p = q then
        match lookupN s p with
        | none => none
        | some pn =>
          if pn.f.derivedF then
            let l := pn.effects.getD []
            some (if idxOfI l a < idxOfI l b then a else b)
          else chainPick s (s.heap.length + 1) pn.head a b
      else none
    | _, _ => none
  match fromSame with
  | some c => c
  | none => lockstep s (s.heap.length + 1) a b a b pa pb

/-- Stable insertion step: place `x` before the first element it is not
strictly preceded by. -/
def insertBy (lt : Nat → Nat → Bool) (x : Nat) : List Nat → List Nat
  | [] => [x]
  | y :: ys => if lt y x then y :: insertBy lt x ys else x :: y :: ys

/-- Stable sort by a strict precedence predicate, modelling
`Array.prototype.toSorted` (ECMAScript only fixes sort stability, not the
algorithm; for the runtime's comparators this coincides). -/
def sortByLt (lt : Nat → Nat → Bool) : List Nat → List Nat
  | [] => []
  | x :: xs => insertBy lt x (sortByLt lt xs)

/-- `sort_effects(effects)`: group by tree depth, order layers by ascending
depth, sort depth 0 by `root_index ?? 0` and deeper layers by the pairwise
tree-order comparator. -/
def sort_effects (s : St) (effects : List Nat) : List Nat :=
  let depths := effects.map (fun e => (e, get_effect_depth s e))
  let keys := sortByLt (fun a b => a < b) ((depths.map (·.2)).dedup)
  keys.foldl
    (fun acc d =>
      let layer := (depths.filter (fun p => p.2 = d)).map (·.1)
      if d = 0 then
        acc ++ sortByLt
          (fun a b =>
            (((lookupN s a).bind (·.root_index)).getD 0 : Nat) <
              (((lookupN s b).bind (·.root_index)).getD 0 : Nat))
          layer
      else acc ++ sortByLt (fun a b => pairPick s a b = a) layer)
    []

/-- The upward walk of `filter_effects`: does some non-derived strict ancestor
of the effect occur in the candidate set?  The walk stops at a `DERIVED`
boundary. -/
def ancestorIn (s : St) (l : List Nat) : Nat → Option Nat → Bool
  | _, none => false
  | 0, some _ => false
  | k + 1, some c =>
    match lookupN s c with
    | none => false
    | some cn =>
      if cn.f.derivedF then false
      else if l.contains c then true
      else ancestorIn s l k cn.parent

/-- `filter_effects(effects)`: drop every effect one of whose non-derived
ancestors is also a candidate. -/
def filter_effects (s : St) (l : List Nat) : List Nat :=
  l.filter (fun e => ¬ ancestorIn s l (s.heap.length + 1) ((lookupN s e).bind (·.parent)))

/-- The queueing loop at the end of `mark_dirty`: append each effect that is
not yet `DIRTY` to the scheduler queue, marking it `DIRTY`. -/
def pushEffects : List Nat → St → St
  | [], s => s
  | e :: rest, s =>
    match lookupN s e with
    | none => pushEffects rest s
    | some nd =>
      if nd.f.dirty then pushEffects rest s
      else
        pushEffects rest
          { updN s e (fun x => { x with f := { x.f with dirty := true } }) with
              queue := s.queue ++ [e] }

/-- The effective prior value used by `set`:
`active_fork?.get(source) ?? source.v`.  Because of the `??`, a fork shadow
entry holding `null` or `undefined` falls back to `source.v` (unlike the
`has`-based lookups of `get` and `update_derived`). -/
def effectivePrev (s : St) (x : Nat) (nd : Node) : Val :=
  match s.active_fork with
  | none => nd.v
  | some m =>
    match assocGet m x with
    | none => nd.v
    | some w => if w = .vnull ∨ w = .undef then nd.v else w

/-- The partition loop of `mark_dirty` over `source.reactions`: collect
queued deriveds (deriveds with non-`null` `reactions`) and effects to check
(non-`DIRTY` effects, skipped entirely under an active fork), flag
reader-less deriveds `MAYBE_DIRTY` in place, and skip deriveds already
implied by an applying fork. -/
def partitionReactions (src : Nat) :
    List Nat → St → List Nat → List Nat → St × List Nat × List Nat
  | [], s, qd, tc => (s, qd, tc)
  | r :: rest, s, qd, tc =>
    match lookupN s r with
    | none => partitionReactions src rest s qd tc
    | some rn =>
      if rn.f.derivedF then
        if s.applying_fork.isSome ∧
            (assocGet (s.applying_fork.getD []) src).isSome ∧
            (assocGet (s.applying_fork.getD []) r).isSome then
          partitionReactions src rest s qd tc
        else if rn.reactions ≠ none then
          partitionReactions src rest s (qd ++ [r]) tc
        else
          partitionReactions src rest
            (updN s r (fun x => { x with f := { x.f with maybeDirty := true } })) qd tc
      else if rn.f.dirty = false then
        if s.active_fork.isSome then partitionReactions src rest s qd tc
        else partitionReactions src rest s qd (tc ++ [r])
      else partitionReactions src rest s qd tc

/-- The dep-unlinking step of `teardown_effect`: `if (effect.deps)` (any
array, even empty, is truthy) run the shared unlink loop. -/
def depsStep (s : St) (e : Nat) : St :=
  match (lookupN s e).bind (·.deps) with
  | some _ => removeDepsFrom s e
  | none => s

/-- The sibling/parent unlink branch of `teardown_effect` (translated
verbatim: note that the `prev`-only case clears the effect's OWN `prev`
pointer, and an absent `parent.effects` entry splices out the last
element — both paths are dead in reachable states since `create_effect`
never links). -/
def unlinkStep (s : St) (e : Nat) : St :=
  match lookupN s e with
  | none => s
  | some nd₂ =>
    match nd₂.next with
    | some nx => updN s nx (fun x => { x with prev := nd₂.prev })
    | none =>
      match nd₂.prev with
      | some _ => updN s e (fun x => { x with prev := none })
      | none =>
        match nd₂.parent with
        | none => s
        | some p =>
          match lookupN s p with
          | none => s
          | some pn =>
            if pn.f.derivedF then
              updN s p
                (fun x => { x with effects := x.effects.map (fun l => jsRemove l e) })
            else updN s p (fun x => { x with head := none, tail := none })

/-- The linking tail of `create_effect`'s `finally` block, translated
verbatim.  The first guard returns for every non-disconnected effect and a
disconnected effect has a `null` parent, so the linking code below the
guards is unreachable. -/
def linkReaction (disconnected : Bool) (id : Nat) (s : St) : St :=
  if ¬ disconnected then s
  else
    match lookupN s id with
    | none => s
    | some nd =>
      if nd.teardown = none ∧ nd.deps = none ∧ nd.head = none then s
      else
        match nd.parent with
        | none => s
        | some pr =>
          match lookupN s pr with
          | none => s
          | some pn =>
            if pn.f.derivedF then
              updN s pr
                (fun x => { x with effects := some ((x.effects.getD []) ++ [id]) })
            else
              match pn.head with
              | none =>
                updN s pr (fun x => { x with head := some id, tail := some id })
              | some _ =>
                let s₆ :=
                  match pn.tail with
                  | some tl => updN s tl (fun x => { x with next := some id })
                  | none => s
                let s₇ := updN s₆ id (fun x => { x with prev := pn.tail })
                updN s₇ pr (fun x => { x with tail := some id })

mutual

/-- Interpreter for user programs.  Each constructor mirrors the JS construct
it names; `seq` discards the first value, `ifP` branches on truthiness,
`effectP` is `effect(fn)` (which returns `undefined`). -/
def evalProg : Nat → Prog → St → Option (St × Except Err Val)
  | 0, _, _ => none
  | n + 1, p, s =>
    match p with
    | .lit k => some (s, .ok (.int k))
    | .nullL => some (s, .ok .vnull)
    | .undefL => some (s, .ok .undef)
    | .fnLit b => some (s, .ok (.fnv b))
    | .seq a b =>
      match evalProg n a s with
      | none => none
      | some (s₁, .error e) => some (s₁, .error e)
      | some (s₁, .ok _) => evalProg n b s₁
    | .ifP c t e =>
      match evalProg n c s with
      | none => none
      | some (s₁, .error er) => some (s₁, .error er)
      | some (s₁, .ok v) => if truthy v then evalProg n t s₁ else evalProg n e s₁
    | .getN x => get n x s
    | .setN x a =>
      match evalProg n a s with
      | none => none
      | some (s₁, .error e) => some (s₁, .error e)
      | some (s₁, .ok v) => set n x v s₁
    | .untrackP b =>
      match evalProg n b { s with tracking := false } with
      | none => none
      | some (s₁, r) => some ({ s₁ with tracking := s.tracking }, r)
    | .throwP => some (s, .error .userErr)
    | .effectP b =>
      match create_effect n b {} s with
      | none => none
      | some (s₁, _) => some (s₁, .ok .undef)

termination_by structural n _ _ => n
/-- `get(source)`: register the dependency edge, prefer the active fork's
shadow value, refresh a stale derived (clearing `UNINITIALIZED` and
`MAYBE_DIRTY`), return the stored value. -/
def get : Nat → Nat → St → Option (St × Except Err Val)
  | 0, _, _ => none
  | n + 1, x, s =>
    match lookupN s x with
    | none => some (s, .error .fault)
    | some _ =>
      let s₁ := trackRead s x
      match lookupN s₁ x with
      | none => some (s₁, .error .fault)
      | some nd =>
        match s₁.active_fork.bind (fun m => assocGet m x) with
        | some w => some (s₁, .ok w)
        | none =>
          if nd.f.derivedF then
            if nd.f.uninit || nd.f.maybeDirty then
              match update_derived n x s₁ with
              | none => none
              | some (s₂, .error e) => some (s₂, .error e)
              | some (s₂, .ok _) =>
                let s₃ := updN s₂ x
                  (fun y => { y with f := { y.f with uninit := false, maybeDirty := false } })
                some (s₃, .ok (((lookupN s₃ x).map (·.v)).getD .undef))
            else
              let s₃ := updN s₁ x
                (fun y => { y with f := { y.f with uninit := false, maybeDirty := false } })
              some (s₃, .ok nd.v)
          else some (s₁, .ok nd.v)

termination_by structural n _ _ => n
/-- `set(source, value)`: throw `state_unsafe_mutation` when the innermost
reaction is a derived, else defer to the comparison / write / propagation
path. -/
def set : Nat → Nat → Val → St → Option (St × Except Err Val)
  | 0, _, _, _ => none
  | n + 1, x, v, s =>
    match s.reaction_stack.head? with
    | some (some r) =>
      match lookupN s r with
      | none => some (s, .error .fault)
      | some rn =>
        if rn.f.derivedF then some (s, .error .unsafeMutation)
        else setCore n x v s
    | _ => setCore n x v s

termination_by structural n _ _ _ => n
/-- The body of `set` past the guard: compute the effective prior value as
`active_fork?.get(source) ?? source.v` (note the `??`: a `null` or
`undefined` shadow entry falls back to `source.v`), no-op when same-value
equal, else store (into the fork when active) and `mark_dirty`. -/
def setCore : Nat → Nat → Val → St → Option (St × Except Err Val)
  | 0, _, _, _ => none
  | n + 1, x, v, s =>
    match lookupN s x with
    | none => some (s, .error .fault)
    | some nd =>
      let prev : Val := effectivePrev s x nd
      if prev = v then some (s, .ok v)
      else
        let s₁ :=
          match s.active_fork with
          | some m => { s with active_fork := some (assocSet m x v) }
          | none => updN s x (fun y => { y with v := v })
        match mark_dirty n x s₁ with
        | none => none
        | some (s₂, .error e) => some (s₂, .error e)
        | some (s₂, .ok _) => some (s₂, .ok v)

termination_by structural n _ _ _ => n
/-- `mark_dirty(source)`: set `DIRTY`, partition the reactions, update the
queued deriveds (recursing into `mark_dirty` when one changed), filter, sort
and enqueue the candidate effects, then clear `DIRTY`.  The `queueMicrotask`
registration is represented by running `drain` explicitly later. -/
def mark_dirty : Nat → Nat → St → Option (St × Except Err Unit)
  | 0, _, _ => none
  | n + 1, src, s =>
    match lookupN s src with
    | none => some (s, .error .fault)
    | some _ =>
      let s₁ := updN s src (fun x => { x with f := { x.f with dirty := true } })
      match (lookupN s₁ src).bind (·.reactions) with
      | none =>
        some (updN s₁ src (fun x => { x with f := { x.f with dirty := false } }), .ok ())
      | some rs =>
        match partitionReactions src rs s₁ [] [] with
        | (s₂, qd, tc) =>
          match runQueuedDeriveds n qd s₂ with
          | none => none
          | some (s₃, .error e) => some (s₃, .error e)
          | some (s₃, .ok _) =>
            let filtered := sort_effects s₃ (filter_effects s₃ tc)
            let s₄ := pushEffects filtered s₃
            some (updN s₄ src (fun x => { x with f := { x.f with dirty := false } }), .ok ())

termination_by structural n _ _ => n
/-- The loop of `mark_dirty` over the queued deriveds: `update_derived` each,
recursing into `mark_dirty` when the value changed. -/
def runQueuedDeriveds : Nat → List Nat → St → Option (St × Except Err Unit)
  | 0, _, _ => none
  | _ + 1, [], s => some (s, .ok ())
  | n + 1, d :: rest, s =>
    match update_derived n d s with
    | none => none
    | some (s₁, .error e) => some (s₁, .error e)
    | some (s₁, .ok changed) =>
      if changed then
        match mark_dirty n d s₁ with
        | none => none
        | some (s₂, .error e) => some (s₂, .error e)
        | some (s₂, .ok _) => runQueuedDeriveds n rest s₂
      else runQueuedDeriveds n rest s₁

termination_by structural n _ _ => n
/-- `update_derived(derived)`: tear down the child effects, unlink from the
deps, capture the effective previous value (fork shadow via `has`, else the
stored value), run the body on the reaction stack, and on normal completion
store the result (into the fork when active) when it differs by same-value
equality or `UNINITIALIZED` was set, returning whether the value changed.
On an exception the sentinel check skips the store and the error
propagates after the stack pop. -/
def update_derived : Nat → Nat → St → Option (St × Except Err Bool)
  | 0, _, _ => none
  | n + 1, d, s =>
    match lookupN s d with
    | none => some (s, .error .fault)
    | some nd =>
      match teardownDerivedEffects n d s with
      | none => none
      | some (s₁, .error e) => some (s₁, .error e)
      | some (s₁, .ok _) =>
        let s₂ := removeDepsFrom s₁ d
        let prev : Val :=
          match s₂.active_fork with
          | some m =>
            match assocGet m d with
            | some w => w
            | none => ((lookupN s₂ d).map (·.v)).getD .undef
          | none => ((lookupN s₂ d).map (·.v)).getD .undef
        match nd.fn with
        | none => some (s₂, .error .fault)
        | some p =>
          let s₃ := { s₂ with
            reaction_stack := some d :: s₂.reaction_stack,
            trace := s₂.trace ++ [.fnRun d] }
          match evalProg n p s₃ with
          | none => none
          | some (s₄, .error e) =>
            some ({ s₄ with reaction_stack := s₄.reaction_stack.drop 1 }, .error e)
          | some (s₄, .ok next) =>
            let s₅ := { s₄ with reaction_stack := s₄.reaction_stack.drop 1 }
            let uninitSet := (((lookupN s₅ d).map (·.f.uninit)).getD false)
            if next ≠ prev ∨ uninitSet then
              match s₅.active_fork with
              | some m =>
                some ({ s₅ with active_fork := some (assocSet m d next) }, .ok true)
              | none => some (updN s₅ d (fun y => { y with v := next }), .ok true)
            else some (s₅, .ok false)

termination_by structural n _ _ => n
/-- The `while ((effect = derived.effects.shift())) teardown_effect(effect)`
loop of `update_derived`, shifting from the live list (a child's own unlink
step may splice the same array), then nulling `derived.effects`. -/
def teardownDerivedEffects : Nat → Nat → St → Option (St × Except Err Unit)
  | 0, _, _ => none
  | n + 1, d, s =>
    match lookupN s d with
    | none => some (s, .error .fault)
    | some nd =>
      match nd.effects with
      | none => some (s, .ok ())
      | some [] => some (updN s d (fun x => { x with effects := none }), .ok ())
      | some (e :: rest) =>
        let s₁ := updN s d (fun x => { x with effects := some rest })
        match teardown_effect n e s₁ with
        | none => none
        | some (s₂, .error er) => some (s₂, .error er)
        | some (s₂, .ok _) => teardownDerivedEffects n d s₂

termination_by structural n _ _ => n
/-- `teardown_effect(effect)`: recursively tear down the children chain,
unlink from the deps, run the sibling/parent unlink branch, then invoke the
stored teardown under a `null` stack sentinel.  Note that `teardown` is never
cleared. -/
def teardown_effect : Nat → Nat → St → Option (St × Except Err Unit)
  | 0, _, _ => none
  | n + 1, e, s =>
    match lookupN s e with
    | none => some (s, .error .fault)
    | some nd =>
      match teardownChain n nd.head s with
      | none => none
      | some (s₁, .error er) => some (s₁, .error er)
      | some (s₁, .ok _) =>
        let s₃ := unlinkStep (depsStep s₁ e) e
        match (lookupN s₃ e).bind (·.teardown) with
        | none => some (s₃, .ok ())
        | some td =>
          let s₄ := { s₃ with
            reaction_stack := none :: s₃.reaction_stack,
            trace := s₃.trace ++ [.teardownRun e] }
          match evalProg n td s₄ with
          | none => none
          | some (s₅, r) =>
            some ({ s₅ with reaction_stack := s₅.reaction_stack.drop 1 },
              match r with
              | .ok _ => .ok ()
              | .error er => .error er)

termination_by structural n _ _ => n
/-- The `let curr = effect.head; while (curr) { teardown_effect(curr);
curr = curr.next; }` loop, reading `next` from the live heap after each
recursive teardown. -/
def teardownChain : Nat → Option Nat → St → Option (St × Except Err Unit)
  | 0, _, _ => none
  | _ + 1, none, s => some (s, .ok ())
  | n + 1, some c, s =>
    match teardown_effect n c s with
    | none => none
    | some (s₁, .error er) => some (s₁, .error er)
    | some (s₁, .ok _) => teardownChain n ((lookupN s₁ c).bind (·.next)) s₁

termination_by structural n _ _ => n
/-- `create_effect(fn, flags)`: allocate the node (parent = top of stack
unless `DISCONNECTED`, `root_index` assigned only when the stack is empty),
push it, run `fn`, pop, store a returned callable as `teardown`.  The
`finally` block `return`s before the linking code for every non-disconnected
effect (and a disconnected effect has no parent), so the parent's child links
are never updated; a `return` inside `finally` also swallows any exception
thrown by `fn`. -/
def create_effect : Nat → Prog → Flags → St → Option (St × Nat)
  | 0, _, _, _ => none
  | n + 1, body, flags, s =>
    let disconnected := flags.disconnected
    let id := s.heap.length
    let node : Node := {
      f := flags
      fn := some body
      parent := if disconnected then none else (s.reaction_stack.head?).getD none
      root_index := if s.reaction_stack.length > 0 then none else some s.root_index }
    let s₁ := { s with
      heap := s.heap ++ [node]
      root_index := if s.reaction_stack.length > 0 then s.root_index else s.root_index + 1 }
    let s₂ := { s₁ with
      reaction_stack := some id :: s₁.reaction_stack,
      trace := s₁.trace ++ [.fnRun id] }
    match evalProg n body s₂ with
    | none => none
    | some (s₃, res) =>
      let s₄ := { s₃ with reaction_stack := s₃.reaction_stack.drop 1 }
      let s₅ :=
        match res with
        | .ok (.fnv b) => updN s₄ id (fun x => { x with teardown := some b })
        | _ => s₄
      some (linkReaction disconnected id s₅, id)

termination_by structural n _ _ _ => n
/-- The microtask drain: repeatedly shift an effect off the queue, clear its
`DIRTY` bit, tear it down, re-run its `fn` on the reaction stack and store a
returned callable as the new teardown.  An exception from a teardown or a
body stops the loop and propagates. -/
def drain : Nat → St → Option (St × Except Err Unit)
  | 0, _ => none
  | n + 1, s =>
    match s.queue with
    | [] => some (s, .ok ())
    | e :: rest =>
      let s₁ := updN { s with queue := rest } e
        (fun x => { x with f := { x.f with dirty := false } })
      match teardown_effect n e s₁ with
      | none => none
      | some (s₂, .error er) => some (s₂, .error er)
      | some (s₂, .ok _) =>
        match (lookupN s₂ e).bind (·.fn) with
        | none => some (s₂, .error .fault)
        | some p =>
          let s₃ := { s₂ with
            reaction_stack := some e :: s₂.reaction_stack,
            trace := s₂.trace ++ [.fnRun e] }
          match evalProg n p s₃ with
          | none => none
          | some (s₄, .error er) =>
            some ({ s₄ with reaction_stack := s₄.reaction_stack.drop 1 }, .error er)
          | some (s₄, .ok res) =>
            let s₅ := { s₄ with reaction_stack := s₄.reaction_stack.drop 1 }
            let s₆ :=
              match res with
              | .fnv b => updN s₅ e (fun x => { x with teardown := some b })
              | _ => s₅
            drain n s₆

termination_by structural n _ => n
end

/-- `fork(fn)` (synchronous path): save `active_fork`, install a fresh empty
map, run `fn` (writes land in the map, reads prefer it), restore, and return
the filled map — the handle's captured state.  On an exception the source has
no `finally`: `active_fork` is left unrestored and the error propagates. -/
def runFork (n : Nat) (body : Prog) (s : St) :
    Option (St × Except Err (List (Nat × Val))) :=
  let prev := s.active_fork
  match evalProg n body { s with active_fork := some [] } with
  | none => none
  | some (s₁, .error e) => some (s₁, .error e)
  | some (s₁, .ok _) =>
    some ({ s₁ with active_fork := prev }, .ok (s₁.active_fork.getD []))

/-- The entry loop of `ForkHandle.apply`: `set(source, value)` for each map
entry in insertion order. -/
def applyLoop : Nat → List (Nat × Val) → St → Option (St × Except Err Unit)
  | _, [], s => some (s, .ok ())
  | n, (x, v) :: rest, s =>
    match set n x v s with
    | none => none
    | some (s₁, .error e) => some (s₁, .error e)
    | some (s₁, .ok _) => applyLoop n rest s₁

/-- `ForkHandle.apply()`: install the map as `applying_fork`, replay every
entry through `set` (normal propagation, with `mark_dirty` skipping deriveds
already implied by the fork), restore `applying_fork`. -/
def forkApply (n : Nat) (m : List (Nat × Val)) (s : St) :
    Option (St × Except Err Unit) :=
  let prev := s.applying_fork
  match applyLoop n m { s with applying_fork := some m } with
  | none => none
  | some (s₁, .error e) => some (s₁, .error e)
  | some (s₁, .ok _) => some ({ s₁ with applying_fork := prev }, .ok ())

/-- `ForkHandle.with(g)`: run `g` with `active_fork` set to a clone of the map
(so `g`'s writes do not pollute the original), restoring `active_fork` even on
an exception. -/
def forkWith (n : Nat) (m : List (Nat × Val)) (g : Prog) (s : St) :
    Option (St × Except Err Val) :=
  let prev := s.active_fork
  match evalProg n g { s with active_fork := some m } with
  | none => none
  | some (s₁, r) => some ({ s₁ with active_fork := prev }, r)

/-- `root(fn)`: a `ROOT | DISCONNECTED_EFFECT` effect; the returned disposer
is `() => teardown_effect(effect)` — modelled by calling `teardown_effect`
on the returned id. -/
def root (n : Nat) (body : Prog) (s : St) : Option (St × Nat) :=
  create_effect n body { rootF := true, disconnected := true } s

/-- `source(initial)`: a fresh source cell (its `parent` is the current
top-of-stack reaction). -/
def mkSource (initial : Val) (s : St) : St × Nat :=
  ({ s with heap := s.heap ++ [{ v := initial
                                 reactions := none
                                 f := {}
                                 parent := (s.reaction_stack.head?).getD none }] },
    s.heap.length)

/-- `derived_source(fn)`: a fresh derived, flagged
`UNINITIALIZED | DERIVED`. -/
def mkDerived (fnp : Prog) (s : St) : St × Nat :=
  ({ s with heap := s.heap ++ [{ v := .vnull
                                 reactions := none
                                 deps := none
                                 f := { uninit := true, derivedF := true }
                                 fn := some fnp
                                 effects := none
                                 parent := (s.reaction_stack.head?).getD none
                                 root_index := none }] },
    s.heap.length)

/-- A top-level runtime operation, as issued by consumer code: run a program
(reads, writes, effect creation, untrack), create a source or a derived,
flush the microtask queue, create a root, dispose (tear down) an effect by
id, or run a whole fork interaction (body, optional `with`, optional
`apply`). -/
inductive TopOp where
  | run (p : Prog)
  | newSource (v : Val)
  | newDerived (fnp : Prog)
  | drainQ
  | rootOp (body : Prog)
  | disposeOp (e : Nat)
  | forkOp (body : Prog) (g : Option Prog) (applyIt : Bool)
deriving DecidableEq, Repr

/-- Execute one top-level operation.  A JS exception escaping an operation is
caught by the host; the state is kept and the next operation proceeds. -/
def runOp (n : Nat) (op : TopOp) (s : St) : Option St :=
  match op with
  | .run p => (evalProg n p s).map (·.1)
  | .newSource v => some (mkSource v s).1
  | .newDerived fnp => some (mkDerived fnp s).1
  | .drainQ => (drain n s).map (·.1)
  | .rootOp body => (root n body s).map (·.1)
  | .disposeOp e => (teardown_effect n e s).map (·.1)
  | .forkOp body g applyIt =>
    match runFork n body s with
    | none => none
    | some (s₁, .error _) => some s₁
    | some (s₁, .ok m) =>
      match g with
      | some gp =>
        match forkWith n m gp s₁ with
        | none => none
        | some (s₂, _) =>
          if applyIt then (forkApply n m s₂).map (·.1) else some s₂
      | none => if applyIt then (forkApply n m s₁).map (·.1) else some s₁

/-- Execute a sequence of top-level operations. -/
def runOps (n : Nat) : List TopOp → St → Option St
  | [], s => some s
  | op :: rest, s =>
    match runOp n op s with
    | none => none
    | some s₁ => runOps n rest s₁

/-- Number of invocations of node `i`'s `fn` recorded in a trace. -/
def countFn (i : Nat) (tr : List Evt) : Nat := tr.count (.fnRun i)

/-- Number of invocations of node `i`'s teardown recorded in a trace. -/
def countTd (i : Nat) (tr : List Evt) : Nat := tr.count (.teardownRun i)

/-- The `reactions` back-reference list of node `i` (empty when `null` or the
node is absent). -/
def reactionsOf (s : St) (i : Nat) : List Nat :=
  ((lookupN s i).bind (·.reactions)).getD []

/-- The `deps` list of node `i` (empty when `null` or the node is absent). -/
def depsOf (s : St) (i : Nat) : List Nat :=
  ((lookupN s i).bind (·.deps)).getD []

/-- The stored value of node `i`. -/
def vOf (s : St) (i : Nat) : Option Val := (lookupN s i).map (·.v)

/-- The `DIRTY` bit of node `i`. -/
def dirtyOf (s : St) (i : Nat) : Bool := ((lookupN s i).map (·.f.dirty)).getD false

/-- The `DERIVED` bit of node `i`. -/
def derivedOf (s : St) (i : Nat) : Bool :=
  ((lookupN s i).map (·.f.derivedF)).getD false

/-- Every dependency edge references a node inside the heap. -/
def EdgesBounded (s : St) : Prop :=
  ∀ i < s.heap.length,
    (∀ j ∈ reactionsOf s i, j < s.heap.length) ∧ (∀ j ∈ depsOf s i, j < s.heap.length)

/-- Bidirectional consistency of the dependency graph: `S ∈ R.deps` iff
`R ∈ S.reactions`, for all nodes of the heap. -/
def EdgeConsistent (s : St) : Prop :=
  ∀ i < s.heap.length, ∀ j < s.heap.length, (i ∈ depsOf s j ↔ j ∈ reactionsOf s i)

/-- Each edge appears at most once on each side. -/
def EdgeNodup (s : St) : Prop :=
  ∀ i < s.heap.length, (reactionsOf s i).Nodup ∧ (depsOf s i).Nodup

/-- The dependency-graph invariant of the spec (§8 invariant 1), together
with the in-heap boundedness of edges needed to state it over a growing
heap. -/
def GraphInv (s : St) : Prop := EdgesBounded s ∧ EdgeConsistent s ∧ EdgeNodup s

/-- Scheduler-queue invariant: the queue holds no duplicates and every queued
effect is a heap node with its `DIRTY` bit set. -/
def QueueInv (s : St) : Prop :=
  s.queue.Nodup ∧ ∀ e ∈ s.queue, e < s.heap.length ∧ dirtyOf s e = true

/-- No dependency edge is ever added going from `s` to `s'` (both directions
of the edge store only shrink). -/
def edgeShrink (s s' : St) : Prop :=
  ∀ i j, (j ∈ reactionsOf s' i → j ∈ reactionsOf s i) ∧
    (i ∈ depsOf s' j → i ∈ depsOf s j)

/-- Programs that never call `set` (directly or in any nested closure /
effect body). -/
def SetFree : Prog → Bool
  | .lit _ => true
  | .nullL => true
  | .undefL => true
  | .fnLit b => SetFree b
  | .seq a b => SetFree a && SetFree b
  | .ifP c t e => SetFree c && SetFree t && SetFree e
  | .getN _ => true
  | .setN _ _ => false
  | .untrackP b => SetFree b
  | .throwP => true
  | .effectP b => SetFree b

/-- A value that carries no `set`-performing closure. -/
def ValSetFree : Val → Bool
  | .fnv b => SetFree b
  | _ => true

/-- A node all of whose stored programs and values are `set`-free. -/
def NodeSetFree (nd : Node) : Prop :=
  (∀ p, nd.fn = some p → SetFree p = true) ∧
  (∀ p, nd.teardown = some p → SetFree p = true) ∧
  ValSetFree nd.v = true

/-- A state whose heap and active fork carry only `set`-free programs and
values: running any `set`-free program from such a state can never reach
`set` / `mark_dirty`. -/
def HeapSetFree (s : St) : Prop :=
  (∀ nd ∈ s.heap, NodeSetFree nd) ∧
  (∀ p ∈ s.active_fork.getD [], ValSetFree p.2 = true)

/-- The state components untouched by the pure bookkeeping helpers
(`trackRead`, `removeDepsFrom`, `partitionReactions`, …): heap length, every
stored value, both fork maps, the queue, the trace, the stack and the
tracking flag. -/
def PurePres (s s' : St) : Prop :=
  s'.heap.length = s.heap.length ∧ (∀ i, vOf s' i = vOf s i) ∧
  s'.active_fork = s.active_fork ∧ s'.applying_fork = s.applying_fork ∧
  s'.queue = s.queue ∧ s'.trace = s.trace ∧
  s'.reaction_stack = s.reaction_stack ∧ s'.tracking = s.tracking

/-- Fork-isolation transfer relation: the heap only grows, the presence of an
active fork is unchanged, and while a fork is active no pre-existing stored
value and no queue entry changes (speculative writes land only in the fork
map; effects are never scheduled). -/
def ForkPres (s s' : St) : Prop :=
  s.heap.length ≤ s'.heap.length ∧
  s'.active_fork.isSome = s.active_fork.isSome ∧
  (s.active_fork.isSome = true →
    (∀ i, i < s.heap.length → vOf s' i = vOf s i) ∧ s'.queue = s.queue)

/-- Untracked-execution transfer relation: once `tracking` is off it stays
off, and no dependency edge is registered (both edge stores only shrink). -/
def TrackPres (s s' : St) : Prop :=
  s.tracking = false → s'.tracking = false ∧ edgeShrink s s'

/-- Both edge stores coincide pointwise (helpers that only touch flags,
queues or tree pointers). -/
def edgesEq (s s' : St) : Prop :=
  ∀ i, reactionsOf s' i = reactionsOf s i ∧ depsOf s' i = depsOf s i

/-- Graph-invariant preservation between two states. -/
def GPres (s s' : St) : Prop := GraphInv s → GraphInv s'

/-- Effect-execution bookkeeping: the heap only grows, `DERIVED` flags of
existing nodes are stable, and the `fn` of an existing non-derived node (an
effect) is never invoked by the reactive-graph functions — only the
microtask drain runs effect bodies. -/
def QuietPres (s s' : St) : Prop :=
  s.heap.length ≤ s'.heap.length ∧
  (∀ i, i < s.heap.length → derivedOf s' i = derivedOf s i) ∧
  (∀ i, i < s.heap.length → derivedOf s i = false →
    countFn i s'.trace = countFn i s.trace)

/-- Transfer relation for `set`-free execution: from a `set`-free state, the
heap stays `set`-free and the scheduler queue is untouched (nothing ever
reaches `mark_dirty`, the only producer of queue entries). -/
def SetFreePres (s s' : St) : Prop :=
  HeapSetFree s → HeapSetFree s' ∧ s'.queue = s.queue

/-- Concrete heap for the C5 counterexample: a source `flag` (0) holding 1, a
source `s` (1) holding 0, a derived `d` (2) reading `s`, and a derived `d2`
(3) reading `d` only while `flag` is truthy. -/
def c5St : St := { heap := [
  { v := .int 1 },
  { v := .int 0 },
  { v := .vnull, f := { uninit := true, derivedF := true }, fn := some (.getN 1) },
  { v := .vnull, f := { uninit := true, derivedF := true },
    fn := some (.ifP (.getN 0) (.getN 2) (.lit 0)) } ] }

/-- `c5St` after `d2()` (a top-level read of node 3): both deriveds are
initialised, `d.reactions = [d2]`, `d2.deps = [flag, d]`. -/
def c5H1 : List Node := [
  { v := .int 1, reactions := some [3] },
  { v := .int 0, reactions := some [2] },
  { v := .int 0, reactions := some [3], deps := some [1],
    f := { derivedF := true }, fn := some (.getN 1) },
  { v := .int 0, deps := some [0, 2], f := { derivedF := true },
    fn := some (.ifP (.getN 0) (.getN 2) (.lit 0)) } ]

def c5S1 : St := { heap := c5H1, trace := [.fnRun 3, .fnRun 2] }

/-- `c5S1` after `set_flag(0)`: `d2` (no readers) is merely flagged
`MAYBE_DIRTY`. -/
def c5H2 : List Node := [
  { v := .int 0, reactions := some [3] },
  { v := .int 0, reactions := some [2] },
  { v := .int 0, reactions := some [3], deps := some [1],
    f := { derivedF := true }, fn := some (.getN 1) },
  { v := .int 0, deps := some [0, 2], f := { derivedF := true, maybeDirty := true },
    fn := some (.ifP (.getN 0) (.getN 2) (.lit 0)) } ]

def c5S2 : St := { heap := c5H2, trace := [.fnRun 3, .fnRun 2] }

/-- `c5S2` after re-reading `d2()`: `d2` recomputed without reading `d`, so
`d` is unlinked and left with `reactions = []` — an EMPTY but allocated list,
no readers. -/
def c5H3 : List Node := [
  { v := .int 0, reactions := some [3] },
  { v := .int 0, reactions := some [2] },
  { v := .int 0, reactions := some [], deps := some [1],
    f := { derivedF := true }, fn := some (.getN 1) },
  { v := .int 0, deps := some [0], f := { derivedF := true },
    fn := some (.ifP (.getN 0) (.getN 2) (.lit 0)) } ]

def c5S3 : St := { heap := c5H3, trace := [.fnRun 3, .fnRun 2, .fnRun 3] }

/-- `c5S3` after `set_s(5)`: because `d.reactions` is `[]` rather than
`null`, `mark_dirty` queues `d` and `update_derived` runs `d.fn` eagerly
(the fourth trace event), although `d` has no readers. -/
def c5H4 : List Node := [
  { v := .int 0, reactions := some [3] },
  { v := .int 5, reactions := some [2] },
  { v := .int 5, reactions := some [], deps := some [1],
    f := { derivedF := true }, fn := some (.getN 1) },
  { v := .int 0, deps := some [0], f := { derivedF := true },
    fn := some (.ifP (.getN 0) (.getN 2) (.lit 0)) } ]

def c5S4 : St := { heap := c5H4, trace := [.fnRun 3, .fnRun 2, .fnRun 3, .fnRun 2] }

/-- A source (node 0, value 1, subscriber list [1]) and a derived (node 1,
`fn = get 0`, already initialized to 1, `reactions = none`: no reader ever
subscribed to it). -/
def c5AmSt : St := { heap := [
  { v := .int 1, reactions := some [1] },
  { v := .int 1, reactions := none, deps := some [0], f := { derivedF := true }, fn := some (.getN 0) }] }

/-- `c5AmSt` after `set 0 5`: the derived is only flagged `maybeDirty`, its
stored value and the trace are untouched. -/
def c5AmS1 : St := { heap := [
  { v := .int 5, reactions := some [1] },
  { v := .int 1, reactions := none, deps := some [0], f := { maybeDirty := true, derivedF := true }, fn := some (.getN 0) }] }

/-- Two dirty effect nodes (bodies `() => 0`) sitting in the scheduler
queue: the state right after a batch queued both. -/
def c4St : St := { heap := [{ fn := some (.lit 0), f := { dirty := true } }, { fn := some (.lit 0), f := { dirty := true } }], queue := [0, 1] }

/-- `c4St` after the drain: queue empty, each effect ran exactly once. -/
def c4S1 : St := { heap := [{ fn := some (.lit 0) }, { fn := some (.lit 0) }], trace := [.fnRun 0, .fnRun 1] }

/-- `c5AmS1` after `get 1`: the derived recomputed (one `fnRun 1` event) and
holds 5, flags clean again. -/
def c5AmS2 : St :=
  { heap := [{ v := .int 5, reactions := some [1] }, { v := .int 5, reactions := none, deps := some [0], f := { derivedF := true }, fn := some (.getN 0) }]
    trace := [.fnRun 1] }

/-- C1: the claim says `create_effect` without `DISCONNECTED`, run while a
parent reaction is on the stack, links the new effect into the parent
(child_effects / sibling list).  The code never does: the `return` inside the
`finally` block exits before the linking code (which is unreachable for every
flag combination).  Evaluating the model at the failing input — an effect
created while effect 0 is on the stack — shows the parent's `head`, `tail`
and `effects` all still `null` and only the child's `parent` pointer set. -/
theorem c1_create_effect_never_links :
    (create_effect 3 (.lit 0) {}
        { heap := [{ fn := some (.lit 0) }], reaction_stack := [some 0] }).map
          (fun r => r.2) = some 1 ∧
    (create_effect 3 (.lit 0) {}
        { heap := [{ fn := some (.lit 0) }], reaction_stack := [some 0] }).map
          (fun r => ((lookupN r.1 0).map (fun nd => nd.head),
            (lookupN r.1 0).map (fun nd => nd.tail),
            (lookupN r.1 0).map (fun nd => nd.effects))) =
      some (some none, some none, some none) ∧
    (create_effect 3 (.lit 0) {}
        { heap := [{ fn := some (.lit 0) }], reaction_stack := [some 0] }).map
          (fun r => (lookupN r.1 1).map (fun nd => nd.parent)) =
      some (some (some 0)) :=
  ⟨by decide, by decide, by decide⟩

set_option maxHeartbeats 4000000 in
/-- C9 counterexample: the disposer of `root(fn)` is NOT idempotent.  For a
root whose `fn` returned a cleanup, the first `teardown_effect` runs the
teardown once, and a second call runs it AGAIN (the `teardown` field is never
cleared), so the second call has a further observable effect. -/
theorem c9_counterexample :
    ((root 5 (.fnLit (.lit 0)) {}).bind (fun r =>
      (teardown_effect 5 r.2 r.1).bind (fun r1 =>
        (teardown_effect 5 r.2 r1.1).map (fun r2 =>
          (countTd r.2 r1.1.trace, countTd r.2 r2.1.trace))))) = some (1, 2) := by decide

/-- C6 counterexample: `set` does not compare against the fork shadow entry
whenever the fork contains the source.  Here the active fork maps source 0 to
`null` (the claim's effective prior value), the written value is `null` — so
by the claim the call must be a no-op — yet the code compares against
`source.v = 1` (the `??` fallback), takes the write path, and recomputes the
subscribed derived 1 (one `fnRun 1` event): not a no-op. -/
theorem c6_counterexample :
    (set 9 0 .vnull
        { heap := [{ v := .int 1, reactions := some [1] },
                   { f := { derivedF := true, uninit := true }, reactions := some [],
                     fn := some (.lit 0) }],
          active_fork := some [(0, .vnull)] }).map
        (fun r => (r.2, countFn 1 r.1.trace)) = some (.ok .vnull, 1) := by decide

/-- C5 counterexample: a derived `d` (node 2) with NO readers —
`d.reactions` is the empty list after its last reader unlinked — still has
its `fn` invoked by a plain write to its dependency `s` (node 1): the
runtime's laziness test is `reactions !== null`, not emptiness.  The chain
replays: read `d2`, write `flag := 0`, re-read `d2` (unlinking `d`), then
write `s := 5`, which runs `d.fn` (the `countFn` step from 1 to 2). -/
theorem c5_counterexample :
    get 9 3 c5St = some (c5S1, .ok (.int 0)) ∧
    set 9 0 (.int 0) c5S1 = some (c5S2, .ok (.int 0)) ∧
    get 9 3 c5S2 = some (c5S3, .ok (.int 0)) ∧
    set 9 1 (.int 5) c5S3 = some (c5S4, .ok (.int 5)) ∧
    (lookupN c5S3 2).map (·.reactions) = some (some []) ∧
    countFn 2 c5S3.trace = 1 ∧ countFn 2 c5S4.trace = 2 :=
  ⟨by decide, by decide, by decide, by decide, by decide, by decide, by decide⟩

/-- C2: for every source `x` and value `v`, `set(x, v)` while the innermost
(top-of-stack) reaction is a derived raises `UnsafeMutation` and leaves the
whole state — in particular `x`'s value — unchanged (first conjunct); in
particular a top-level read of an invalidated derived whose `fn` calls `set`
raises `UnsafeMutation`, leaving every stored value unchanged (only the trace
records the body invocation; second conjunct). -/
theorem c2_unsafe_mutation :
    (∀ (n x : Nat) (v : Val) (s : St) (r : Nat) (rn : Node),
      s.reaction_stack.head? = some (some r) → lookupN s r = some rn →
      rn.f.derivedF = true →
      set (n + 1) x v s = some (s, .error .unsafeMutation)) ∧
    (∀ (n : Nat) (s : St) (d src : Nat) (k : Int) (nd : Node),
      lookupN s d = some nd → nd.f.derivedF = true → nd.f.uninit = true →
      nd.effects = none → nd.deps = none → nd.fn = some (.setN src (.lit k)) →
      s.active_fork = none → s.reaction_stack = [] →
      get (n + 4) d s =
        some ({ s with trace := s.trace ++ [.fnRun d] }, .error .unsafeMutation)) := by
  constructor
  · intro n x v s r rn hh hr hd
    simp [set, hh, hr, hd]
  · intro n s d src k nd h hdf hu heff hdeps hfn hfork hstk
    have htr : trackRead s d = s := by
      unfold trackRead
      rw [hstk]
      simp
    simp [get, lookupN, h, htr, hfork, hdf, hu, update_derived, teardownDerivedEffects,
      heff, removeDepsFrom, hdeps, hfn, evalProg, set, hstk] at h ⊢
    simp [get, lookupN, h, htr, hfork, hdf, hu, update_derived, teardownDerivedEffects,
      heff, removeDepsFrom, hdeps, hfn, evalProg, set, hstk]

/-- Witness for C2 at concrete inputs: a write with a derived on top of the
stack throws, and reading the S6 derived (`fn` = `set_s(1)`) throws, leaving
the source at 0. -/
theorem c2_unsafe_mutation_witness :
    set 1 0 (.int 5)
        { heap := [{ v := .int 0 },
                   { f := { derivedF := true, uninit := true }, fn := some (.setN 0 (.lit 1)) }],
          reaction_stack := [some 1] } =
      some ({ heap := [{ v := .int 0 },
                       { f := { derivedF := true, uninit := true }, fn := some (.setN 0 (.lit 1)) }],
              reaction_stack := [some 1] }, .error .unsafeMutation) ∧
    get 4 1
        { heap := [{ v := .int 0 },
                   { f := { derivedF := true, uninit := true }, fn := some (.setN 0 (.lit 1)) }] } =
      some ({ heap := [{ v := .int 0 },
                       { f := { derivedF := true, uninit := true }, fn := some (.setN 0 (.lit 1)) }],
              trace := [.fnRun 1] }, .error .unsafeMutation) :=
  ⟨c2_unsafe_mutation.1 0 0 (.int 5) _ 1 _ rfl rfl rfl,
   c2_unsafe_mutation.2 0 _ 1 0 1 _ rfl rfl rfl rfl rfl rfl rfl rfl⟩

/-- C6 amended: `set(x, v)` compares `v` with
`active_fork?.get(x) ?? x.v` — the fork shadow entry only when the fork holds
a non-`null`, non-`undefined` entry for `x`, else `x.v` (`effectivePrev`) —
and when they are same-value equal the call is a complete no-op: the state
(stored values, fork map, queue, flags, trace) is unchanged and `v` is
returned. -/
theorem c6_same_value_noop (n x : Nat) (v : Val) (s : St) (nd : Node)
    (hs : s.reaction_stack = []) (hx : lookupN s x = some nd)
    (hp : effectivePrev s x nd = v) :
    set (n + 2) x v s = some (s, .ok v) := by
  have hh : s.reaction_stack.head? = none := by rw [hs]; rfl
  simp [set, hh, setCore, hx, hp]

/-- Witness for the amended C6: same-value write to a plain source is a
no-op. -/
theorem c6_same_value_noop_witness :
    set 2 0 (.int 1) { heap := [{ v := .int 1 }] } =
      some ({ heap := [{ v := .int 1 }] }, .ok (.int 1)) :=
  c6_same_value_noop 0 0 (.int 1) _ _ rfl rfl rfl

/-- C7: when a derived's `fn` throws during `update_derived`, the sentinel
check skips the assignment: the result state is exactly the `fn`-exit state
with the derived popped off the reaction stack (no value is written to the
derived or to the active fork after the body ran), and the exception
propagates.  Consequently (second part) whenever the body's run left the
derived's stored value untouched, the previously stored value is
preserved. -/
theorem c7_throw_preserves_value (n : Nat) (d : Nat) (s : St) (nd : Node) (p : Prog)
    (s₄ : St) (e : Err)
    (h : lookupN s d = some nd) (heff : nd.effects = none) (hfn : nd.fn = some p)
    (hev : evalProg (n + 1) p
      (let s₂ := removeDepsFrom s d
       { s₂ with reaction_stack := some d :: s₂.reaction_stack,
                 trace := s₂.trace ++ [.fnRun d] }) = some (s₄, .error e)) :
    update_derived (n + 2) d s =
      some ({ s₄ with reaction_stack := s₄.reaction_stack.drop 1 }, .error e) ∧
    (vOf s₄ d = vOf s d →
      vOf { s₄ with reaction_stack := s₄.reaction_stack.drop 1 } d = vOf s d) := by
  refine ⟨?_, ?_⟩
  · simp [update_derived, h, teardownDerivedEffects, heff, hfn] at hev ⊢
    rw [hev]
  · intro hv
    simpa [vOf, lookupN] using hv

/-- Witness for C7: a `MAYBE_DIRTY` derived holding `7` whose body throws; the
update propagates the user error and `7` is preserved. -/
theorem c7_throw_preserves_value_witness :
    update_derived 2 0
        { heap := [{ v := .int 7, f := { derivedF := true, maybeDirty := true },
                     fn := some .throwP }] } =
      some ({ heap := [{ v := .int 7, f := { derivedF := true, maybeDirty := true },
                         fn := some .throwP }],
              trace := [.fnRun 0] }, .error .userErr) ∧
    vOf { heap := [{ v := .int 7, f := { derivedF := true, maybeDirty := true },
                     fn := some .throwP }],
          trace := [.fnRun 0] } 0 = some (.int 7) :=
  ⟨(c7_throw_preserves_value 0 0
      { heap := [{ v := .int 7, f := { derivedF := true, maybeDirty := true },
                   fn := some .throwP }] }
      { v := .int 7, f := { derivedF := true, maybeDirty := true }, fn := some .throwP }
      .throwP
      { heap := [{ v := .int 7, f := { derivedF := true, maybeDirty := true },
                   fn := some .throwP }],
        reaction_stack := [some 0], trace := [.fnRun 0] }
      .userErr rfl rfl rfl rfl).1, rfl⟩

/-- C9 amended: the disposer of `root(fn)` is idempotent exactly when no
cleanup was stored: for an unlinked effect with no children, deps or
teardown, `teardown_effect` is the identity (hence any repetition of it is
too); when a teardown IS stored, every disposer call re-invokes it (the
`teardown` field is never cleared), appending a fresh `teardownRun` event
each time. -/
theorem c9_dispose_idempotent_amended :
    (∀ (n e : Nat) (s : St) (nd : Node),
      lookupN s e = some nd → nd.head = none → nd.deps = none →
      nd.next = none → nd.prev = none → nd.parent = none → nd.teardown = none →
      teardown_effect (n + 2) e s = some (s, .ok ())) ∧
    (∀ (n e : Nat) (s : St) (nd : Node) (td : Prog) (s₅ : St) (w : Val),
      lookupN s e = some nd → nd.head = none → nd.deps = none →
      nd.next = none → nd.prev = none → nd.parent = none → nd.teardown = some td →
      evalProg (n + 1) td
        { s with reaction_stack := none :: s.reaction_stack,
                 trace := s.trace ++ [.teardownRun e] } = some (s₅, .ok w) →
      teardown_effect (n + 2) e s =
        some ({ s₅ with reaction_stack := s₅.reaction_stack.drop 1 }, .ok ())) := by
  constructor
  · intro n e s nd h hhd hdp hnx hpv hpr htd
    simp [teardown_effect, h, hhd, teardownChain, depsStep, unlinkStep,
      hdp, hnx, hpv, hpr, htd]
  · intro n e s nd td s₅ w h hhd hdp hnx hpv hpr htd hev
    simp [teardown_effect, h, hhd, teardownChain, depsStep, unlinkStep,
      hdp, hnx, hpv, hpr, htd, hev]

/-- Witness for the amended C9: disposing a teardown-less root twice is the
identity both times; disposing a root with a stored cleanup appends one
`teardownRun` per call. -/
theorem c9_dispose_idempotent_amended_witness :
    teardown_effect 2 0
        { heap := [{ f := { rootF := true, disconnected := true }, fn := some (.lit 0) }] } =
      some ({ heap := [{ f := { rootF := true, disconnected := true }, fn := some (.lit 0) }] },
        .ok ()) ∧
    teardown_effect 2 0
        { heap := [{ f := { rootF := true, disconnected := true },
                     fn := some (.fnLit (.lit 0)), teardown := some (.lit 0) }] } =
      some ({ heap := [{ f := { rootF := true, disconnected := true },
                         fn := some (.fnLit (.lit 0)), teardown := some (.lit 0) }],
              trace := [.teardownRun 0] }, .ok ()) :=
  ⟨c9_dispose_idempotent_amended.1 0 0
     { heap := [{ f := { rootF := true, disconnected := true }, fn := some (.lit 0) }] }
     { f := { rootF := true, disconnected := true }, fn := some (.lit 0) }
     rfl rfl rfl rfl rfl rfl rfl,
   c9_dispose_idempotent_amended.2 0 0
     { heap := [{ f := { rootF := true, disconnected := true },
                  fn := some (.fnLit (.lit 0)), teardown := some (.lit 0) }] }
     { f := { rootF := true, disconnected := true },
       fn := some (.fnLit (.lit 0)), teardown := some (.lit 0) }
     (.lit 0)
     { heap := [{ f := { rootF := true, disconnected := true },
                  fn := some (.fnLit (.lit 0)), teardown := some (.lit 0) }],
       reaction_stack := [none], trace := [.teardownRun 0] }
     (.int 0)
     rfl rfl rfl rfl rfl rfl rfl rfl⟩

theorem lookupN_updN (s : St) (i : Nat) (g : Node → Node) (j : Nat) :
    lookupN (updN s i g) j = if i = j then (lookupN s i).map g else lookupN s j := by
  cases hx : s.heap[i]? with
  | none =>
    have h1 : updN s i g = s := by unfold updN; rw [hx]
    rw [h1]
    by_cases hij : i = j
    · subst hij; simp [lookupN, hx]
    · simp [hij]
  | some nd =>
    have hlen : i < s.heap.length := (List.getElem?_eq_some.mp hx).1
    have h1 : updN s i g = { s with heap := s.heap.set i (g nd) } := by
      unfold updN; rw [hx]
    rw [h1]
    by_cases hij : i = j
    · subst hij; simp [lookupN, hx, List.getElem?_set, hlen]
    · simp [lookupN, List.getElem?_set, hij]

theorem updN_heap_length (s : St) (i : Nat) (g : Node → Node) :
    (updN s i g).heap.length = s.heap.length := by
  unfold updN
  cases s.heap[i]? <;> simp

theorem updN_active_fork (s : St) (i : Nat) (g : Node → Node) :
    (updN s i g).active_fork = s.active_fork := by
  unfold updN; cases s.heap[i]? <;> rfl

theorem updN_applying_fork (s : St) (i : Nat) (g : Node → Node) :
    (updN s i g).applying_fork = s.applying_fork := by
  unfold updN; cases s.heap[i]? <;> rfl

theorem updN_queue (s : St) (i : Nat) (g : Node → Node) :
    (updN s i g).queue = s.queue := by
  unfold updN; cases s.heap[i]? <;> rfl

theorem updN_trace (s : St) (i : Nat) (g : Node → Node) :
    (updN s i g).trace = s.trace := by
  unfold updN; cases s.heap[i]? <;> rfl

theorem updN_stack (s : St) (i : Nat) (g : Node → Node) :
    (updN s i g).reaction_stack = s.reaction_stack := by
  unfold updN; cases s.heap[i]? <;> rfl

theorem updN_tracking (s : St) (i : Nat) (g : Node → Node) :
    (updN s i g).tracking = s.tracking := by
  unfold updN; cases s.heap[i]? <;> rfl

theorem vOf_updN (s : St) (i : Nat) (g : Node → Node)
    (hg : ∀ nd, (g nd).v = nd.v) (j : Nat) : vOf (updN s i g) j = vOf s j := by
  unfold vOf
  rw [lookupN_updN]
  split
  · next h =>
    subst h
    cases lookupN s i with
    | none => rfl
    | some nd => simp [hg]
  · rfl

theorem purePres_refl (s : St) : PurePres s s :=
  ⟨rfl, fun _ => rfl, rfl, rfl, rfl, rfl, rfl, rfl⟩

theorem purePres_trans {a b c : St} (h1 : PurePres a b) (h2 : PurePres b c) :
    PurePres a c := by
  obtain ⟨l1, v1, f1, a1, q1, t1, r1, k1⟩ := h1
  obtain ⟨l2, v2, f2, a2, q2, t2, r2, k2⟩ := h2
  exact ⟨l2.trans l1, fun i => (v2 i).trans (v1 i), f2.trans f1, a2.trans a1,
    q2.trans q1, t2.trans t1, r2.trans r1, k2.trans k1⟩

theorem purePres_updN (s : St) (i : Nat) (g : Node → Node)
    (hg : ∀ nd, (g nd).v = nd.v) : PurePres s (updN s i g) :=
  ⟨updN_heap_length s i g, vOf_updN s i g hg, updN_active_fork s i g,
    updN_applying_fork s i g, updN_queue s i g, updN_trace s i g,
    updN_stack s i g, updN_tracking s i g⟩

theorem purePres_trackRead (s : St) (x : Nat) : PurePres s (trackRead s x) := by
  unfold trackRead
  split
  · split
    · split
      · split
        · refine purePres_trans (purePres_updN s x _ ?_) (purePres_updN _ _ _ ?_)
          · intro nd; rfl
          · intro nd; rfl
        · exact purePres_refl s
      · exact purePres_refl s
    · exact purePres_refl s
  · exact purePres_refl s

theorem purePres_removeDepsFrom (s : St) (r : Nat) :
    PurePres s (removeDepsFrom s r) := by
  have hfold : ∀ (xs : List Nat) (t : St), PurePres t (xs.foldl
      (fun acc d => updN acc d
        (fun dn => { dn with reactions := dn.reactions.map (fun l => jsRemove l r) })) t) := by
    intro xs
    induction xs with
    | nil => intro t; exact purePres_refl t
    | cons d rest ih =>
      intro t
      refine purePres_trans (purePres_updN t d _ ?_) (ih _)
      intro nd; rfl
  unfold removeDepsFrom
  split
  · exact purePres_refl s
  · split
    · exact purePres_refl s
    · refine purePres_trans (hfold _ s) (purePres_updN _ r _ ?_)
      intro nd; rfl

theorem purePres_partitionReactions (src : Nat) (rs : List Nat) (s : St)
    (qd tc : List Nat) : PurePres s (partitionReactions src rs s qd tc).1 := by
  induction rs generalizing s qd tc with
  | nil => exact purePres_refl s
  | cons r rest ih =>
    unfold partitionReactions
    split
    · exact ih s qd tc
    · split
      · split
        · exact ih s qd tc
        · split
          · exact ih s _ tc
          · refine purePres_trans (purePres_updN s r _ ?_) (ih _ qd tc)
            intro nd; rfl
      · split
        · split
          · exact ih s qd tc
          · exact ih s qd _
        · exact ih s qd tc

theorem pushEffects_basic (l : List Nat) (s : St) :
    (pushEffects l s).heap.length = s.heap.length ∧
    (∀ i, vOf (pushEffects l s) i = vOf s i) ∧
    (pushEffects l s).active_fork = s.active_fork ∧
    (pushEffects l s).applying_fork = s.applying_fork ∧
    (pushEffects l s).trace = s.trace ∧
    (pushEffects l s).reaction_stack = s.reaction_stack ∧
    (pushEffects l s).tracking = s.tracking := by
  induction l generalizing s with
  | nil => exact ⟨rfl, fun _ => rfl, rfl, rfl, rfl, rfl, rfl⟩
  | cons e rest ih =>
    unfold pushEffects
    split
    · exact ih s
    · split
      · exact ih s
      · obtain ⟨l1, v1, f1, a1, t1, r1, k1⟩ :=
          ih { updN s e (fun x => { x with f := { x.f with dirty := true } }) with
                queue := s.queue ++ [e] }
        have hv := vOf_updN s e
          (fun x => { x with f := { x.f with dirty := true } }) (fun _ => rfl)
        exact ⟨l1.trans (updN_heap_length s e _),
          fun i => (v1 i).trans (hv i),
          f1.trans (updN_active_fork s e _),
          a1.trans (updN_applying_fork s e _),
          t1.trans (updN_trace s e _),
          r1.trans (updN_stack s e _),
          k1.trans (updN_tracking s e _)⟩

theorem filter_effects_nil (s : St) : filter_effects s [] = [] := rfl

theorem sort_effects_nil (s : St) : sort_effects s [] = [] := rfl

theorem partition_active_fork (src : Nat) (rs : List Nat) (s : St) (qd tc : List Nat) :
    (partitionReactions src rs s qd tc).1.active_fork = s.active_fork := by
  have h := purePres_partitionReactions src rs s qd tc
  exact h.2.2.1

theorem partition_tc_of_fork (src : Nat) (rs : List Nat) (s : St) (qd tc : List Nat)
    (h : s.active_fork.isSome = true) :
    (partitionReactions src rs s qd tc).2.2 = tc := by
  induction rs generalizing s qd tc with
  | nil => rfl
  | cons r rest ih =>
    unfold partitionReactions
    split
    · exact ih s qd tc h
    · split
      · split
        · exact ih s qd tc h
        · split
          · exact ih s _ tc h
          · refine ih _ qd tc ?_
            rw [updN_active_fork]
            exact h
      · split
        · exact ih s qd tc h
        · exact ih s qd tc h

theorem forkPres_refl (s : St) : ForkPres s s :=
  ⟨le_refl _, rfl, fun _ => ⟨fun _ _ => rfl, rfl⟩⟩

theorem forkPres_trans {a b c : St} (h1 : ForkPres a b) (h2 : ForkPres b c) :
    ForkPres a c := by
  obtain ⟨l1, f1, v1⟩ := h1
  obtain ⟨l2, f2, v2⟩ := h2
  refine ⟨l1.trans l2, f2.trans f1, fun hs => ?_⟩
  obtain ⟨va, qa⟩ := v1 hs
  have hb : b.active_fork.isSome = true := f1.trans hs
  obtain ⟨vb, qb⟩ := v2 hb
  exact ⟨fun i hi => (vb i (lt_of_lt_of_le hi l1)).trans (va i hi), qb.trans qa⟩

theorem forkPres_of_purePres {a b : St} (h : PurePres a b) : ForkPres a b := by
  obtain ⟨l1, v1, f1, _, q1, _, _, _⟩ := h
  exact ⟨le_of_eq l1.symm, by rw [f1], fun _ => ⟨fun i _ => v1 i, q1⟩⟩

theorem forkPres_same (a b : St) (hh : b.heap = a.heap) (hf : b.active_fork = a.active_fork)
    (hq : b.queue = a.queue) : ForkPres a b := by
  refine ⟨le_of_eq (by rw [hh]), by rw [hf], fun _ => ⟨fun i _ => ?_, hq⟩⟩
  unfold vOf lookupN
  rw [hh]

theorem forkPres_fork_set {s : St} {m : List (Nat × Val)} (hm : s.active_fork = some m)
    (k : Nat) (v : Val) : ForkPres s { s with active_fork := some (assocSet m k v) } :=
  ⟨le_refl _, by simp [hm], fun _ => ⟨fun _ _ => rfl, rfl⟩⟩

theorem forkPres_updN_noFork {s : St} (h : s.active_fork = none) (i : Nat)
    (g : Node → Node) : ForkPres s (updN s i g) := by
  refine ⟨le_of_eq (updN_heap_length s i g).symm, by rw [updN_active_fork], fun hs => ?_⟩
  rw [h] at hs
  cases hs

theorem forkPres_updN_vpres (s : St) (i : Nat) (g : Node → Node)
    (hg : ∀ nd, (g nd).v = nd.v) : ForkPres s (updN s i g) :=
  forkPres_of_purePres (purePres_updN s i g hg)

theorem forkPres_append (s : St) (nd : Node) (ri : Nat) :
    ForkPres s { s with heap := s.heap ++ [nd], root_index := ri } := by
  refine ⟨by simp, rfl, fun _ => ⟨fun i hi => ?_, rfl⟩⟩
  unfold vOf lookupN
  simp only []
  rw [List.getElem?_append, if_pos hi]

theorem pushEffects_nil (s : St) : pushEffects [] s = s := rfl

theorem forkPres_pushEffects (l : List Nat) (s : St)
    (h : s.active_fork.isSome = true → l = []) : ForkPres s (pushEffects l s) := by
  cases hf : s.active_fork.isSome with
  | false =>
    obtain ⟨l1, v1, f1, a1, t1, r1, k1⟩ := pushEffects_basic l s
    refine ⟨le_of_eq l1.symm, by rw [f1], fun hs => ?_⟩
    rw [hf] at hs
    cases hs
  | true =>
    rw [h hf, pushEffects_nil]
    exact forkPres_refl s

theorem purePres_depsStep (s : St) (e : Nat) : PurePres s (depsStep s e) := by
  unfold depsStep
  split
  · exact purePres_removeDepsFrom s e
  · exact purePres_refl s

theorem purePres_unlinkStep (s : St) (e : Nat) : PurePres s (unlinkStep s e) := by
  unfold unlinkStep
  split
  · exact purePres_refl s
  · split
    · refine purePres_updN s _ _ ?_
      intro nd; rfl
    · split
      · refine purePres_updN s _ _ ?_
        intro nd; rfl
      · split
        · exact purePres_refl s
        · split
          · exact purePres_refl s
          · split
            · refine purePres_updN s _ _ ?_
              intro nd; rfl
            · refine purePres_updN s _ _ ?_
              intro nd; rfl

theorem purePres_linkReaction (dc : Bool) (id : Nat) (s : St) :
    PurePres s (linkReaction dc id s) := by
  unfold linkReaction
  split
  · exact purePres_refl s
  · split
    · exact purePres_refl s
    · split
      · exact purePres_refl s
      · split
        · exact purePres_refl s
        · split
          · exact purePres_refl s
          · split
            · refine purePres_updN s _ _ ?_
              intro nd; rfl
            · split
              · refine purePres_updN s _ _ ?_
                intro nd; rfl
              · refine purePres_trans (purePres_trans ?_ (purePres_updN _ id _ ?_))
                  (purePres_updN _ _ _ ?_)
                · split
                  · refine purePres_updN s _ _ ?_
                    intro nd; rfl
                  · exact purePres_refl s
                · intro nd; rfl
                · intro nd; rfl

theorem forkPres_all : ∀ n : Nat,
    (∀ p s out, evalProg n p s = some out → ForkPres s out.1) ∧
    (∀ x s out, get n x s = some out → ForkPres s out.1) ∧
    (∀ x v s out, set n x v s = some out → ForkPres s out.1) ∧
    (∀ x v s out, setCore n x v s = some out → ForkPres s out.1) ∧
    (∀ x s out, mark_dirty n x s = some out → ForkPres s out.1) ∧
    (∀ l s out, runQueuedDeriveds n l s = some out → ForkPres s out.1) ∧
    (∀ d s out, update_derived n d s = some out → ForkPres s out.1) ∧
    (∀ d s out, teardownDerivedEffects n d s = some out → ForkPres s out.1) ∧
    (∀ e s out, teardown_effect n e s = some out → ForkPres s out.1) ∧
    (∀ c s out, teardownChain n c s = some out → ForkPres s out.1) ∧
    (∀ b fl s out, create_effect n b fl s = some out → ForkPres s out.1) := by
  intro n
  induction n with
  | zero =>
    refine ⟨?_, ?_, ?_, ?_, ?_, ?_, ?_, ?_, ?_, ?_, ?_⟩ <;> intros <;> rename_i h <;>
      simp [evalProg, get, set, setCore, mark_dirty,
        runQueuedDeriveds, update_derived, teardownDerivedEffects, teardown_effect,
        teardownChain, create_effect] at h
  | succ n ih =>
    obtain ⟨ihE, ihG, ihS, ihSC, ihM, ihRQ, ihU, ihTDE, ihTE, ihTC, ihCE⟩ := ih
    refine ⟨?_, ?_, ?_, ?_, ?_, ?_, ?_, ?_, ?_, ?_, ?_⟩
    · intro p s out h
      cases p with
      | lit k =>
        simp only [evalProg, Option.some.injEq] at h
        subst h
        exact forkPres_refl s
      | nullL =>
        simp only [evalProg, Option.some.injEq] at h
        subst h
        exact forkPres_refl s
      | undefL =>
        simp only [evalProg, Option.some.injEq] at h
        subst h
        exact forkPres_refl s
      | fnLit b =>
        simp only [evalProg, Option.some.injEq] at h
        subst h
        exact forkPres_refl s
      | throwP =>
        simp only [evalProg, Option.some.injEq] at h
        subst h
        exact forkPres_refl s
      | seq a b =>
        simp only [evalProg] at h
        split at h
        · exact absurd h (by simp)
        · next heq =>
          simp only [Option.some.injEq] at h
          subst h
          exact ihE a _ _ heq
        · next heq =>
          exact forkPres_trans (ihE a _ _ heq) (ihE b _ _ h)
      | ifP c t e =>
        simp only [evalProg] at h
        split at h
        · exact absurd h (by simp)
        · next heq =>
          simp only [Option.some.injEq] at h
          subst h
          exact ihE c _ _ heq
        · next heq =>
          split at h
          · exact forkPres_trans (ihE c _ _ heq) (ihE t _ _ h)
          · exact forkPres_trans (ihE c _ _ heq) (ihE e _ _ h)
      | getN x =>
        simp only [evalProg] at h
        exact ihG x s out h
      | setN x a =>
        simp only [evalProg] at h
        split at h
        · exact absurd h (by simp)
        · next heq =>
          simp only [Option.some.injEq] at h
          subst h
          exact ihE a _ _ heq
        · next heq =>
          exact forkPres_trans (ihE a _ _ heq) (ihS _ _ _ _ h)
      | untrackP b =>
        simp only [evalProg] at h
        split at h
        · exact absurd h (by simp)
        · next s₁ r heq =>
          simp only [Option.some.injEq] at h
          subst h
          refine forkPres_trans (forkPres_trans ?_ (ihE b _ _ heq)) ?_
          · exact forkPres_same _ _ rfl rfl rfl
          · exact forkPres_same _ _ rfl rfl rfl
      | effectP b =>
        simp only [evalProg] at h
        split at h
        · exact absurd h (by simp)
        · next heq =>
          simp only [Option.some.injEq] at h
          subst h
          exact ihCE b _ _ _ heq
    · intro x s out h
      have hpure := forkPres_of_purePres (purePres_trackRead s x)
      simp only [get] at h
      split at h
      · simp only [Option.some.injEq] at h
        subst h
        exact forkPres_refl s
      · split at h
        · simp only [Option.some.injEq] at h
          subst h
          exact hpure
        · split at h
          · simp only [Option.some.injEq] at h
            subst h
            exact hpure
          · split at h
            · split at h
              · split at h
                · exact absurd h (by simp)
                · next heq =>
                  simp only [Option.some.injEq] at h
                  subst h
                  exact forkPres_trans hpure (ihU _ _ _ heq)
                · next heq =>
                  simp only [Option.some.injEq] at h
                  subst h
                  refine forkPres_trans hpure
                    (forkPres_trans (ihU _ _ _ heq) (forkPres_updN_vpres _ _ _ ?_))
                  intro nd; rfl
              · simp only [Option.some.injEq] at h
                subst h
                refine forkPres_trans hpure (forkPres_updN_vpres _ _ _ ?_)
                intro nd; rfl
            · simp only [Option.some.injEq] at h
              subst h
              exact hpure
    · intro x v s out h
      simp only [set] at h
      split at h
      · split at h
        · simp only [Option.some.injEq] at h
          subst h
          exact forkPres_refl s
        · split at h
          · simp only [Option.some.injEq] at h
            subst h
            exact forkPres_refl s
          · exact ihSC _ _ _ _ h
      · exact ihSC _ _ _ _ h
    · intro x v s out h
      simp only [setCore] at h
      split at h
      · simp only [Option.some.injEq] at h
        subst h
        exact forkPres_refl s
      · next nd heq =>
        split at h
        · simp only [Option.some.injEq] at h
          subst h
          exact forkPres_refl s
        · have hstep : ForkPres s
              (match s.active_fork with
                | some m => { s with active_fork := some (assocSet m x v) }
                | none => updN s x (fun y => { y with v := v })) := by
            cases hf : s.active_fork with
            | none => exact forkPres_updN_noFork hf x _
            | some m => exact forkPres_fork_set hf x v
          split at h
          · exact absurd h (by simp)
          · next heq2 =>
            simp only [Option.some.injEq] at h
            subst h
            refine forkPres_trans ?_ (ihM _ _ _ heq2)
            revert hstep
            cases s.active_fork <;> exact fun hstep => hstep
          · next heq2 =>
            simp only [Option.some.injEq] at h
            subst h
            refine forkPres_trans ?_ (ihM _ _ _ heq2)
            revert hstep
            cases s.active_fork <;> exact fun hstep => hstep
    · intro x s out h
      simp only [mark_dirty] at h
      split at h
      · simp only [Option.some.injEq] at h
        subst h
        exact forkPres_refl s
      · split at h
        · simp only [Option.some.injEq] at h
          subst h
          refine forkPres_trans (forkPres_updN_vpres _ _ _ ?_)
            (forkPres_updN_vpres _ _ _ ?_) <;> (intro nd; rfl)
        · rename_i xs hxs
          split at h
          · exact absurd h (by simp)
          · rename_i s₃ er heq2
            simp only [Option.some.injEq] at h
            subst h
            refine forkPres_trans (forkPres_updN_vpres _ _ _ ?_)
              (forkPres_trans
                (forkPres_of_purePres (purePres_partitionReactions x xs _ [] []))
                (ihRQ _ _ _ heq2))
            intro nd; rfl
          · rename_i s₃ u heq2
            simp only [Option.some.injEq] at h
            subst h
            have hq : s₃.active_fork.isSome = true →
                sort_effects s₃ (filter_effects s₃
                  (partitionReactions x xs
                    (updN s x (fun y => { y with f := { y.f with dirty := true } }))
                    [] []).2.2) = [] := by
              intro hs3
              have e32 : s₃.active_fork.isSome =
                  (partitionReactions x xs
                    (updN s x (fun y => { y with f := { y.f with dirty := true } }))
                    [] []).1.active_fork.isSome :=
                (ihRQ _ _ _ heq2).2.1
              have e21 := partition_active_fork x xs
                (updN s x (fun y => { y with f := { y.f with dirty := true } })) [] []
              have h11 : (updN s x
                  (fun y => { y with f := { y.f with dirty := true } })).active_fork.isSome
                  = true := by
                rw [← congrArg Option.isSome e21, ← e32]
                exact hs3
              have htc := partition_tc_of_fork x xs
                (updN s x (fun y => { y with f := { y.f with dirty := true } })) [] [] h11
              rw [htc, filter_effects_nil, sort_effects_nil]
            refine forkPres_trans (forkPres_updN_vpres _ _ _ ?_)
              (forkPres_trans
                (forkPres_of_purePres (purePres_partitionReactions x xs _ [] []))
                (forkPres_trans (ihRQ _ _ _ heq2)
                  (forkPres_trans (forkPres_pushEffects _ _ hq)
                    (forkPres_updN_vpres _ _ _ ?_))))
            · intro nd; rfl
            · intro nd; rfl
    · intro l s out h
      cases l with
      | nil =>
        simp only [runQueuedDeriveds, Option.some.injEq] at h
        subst h
        exact forkPres_refl s
      | cons d rest =>
        simp only [runQueuedDeriveds] at h
        split at h
        · exact absurd h (by simp)
        · next heq =>
          simp only [Option.some.injEq] at h
          subst h
          exact ihU _ _ _ heq
        · next heq =>
          split at h
          · split at h
            · exact absurd h (by simp)
            · next heq2 =>
              simp only [Option.some.injEq] at h
              subst h
              exact forkPres_trans (ihU _ _ _ heq) (ihM _ _ _ heq2)
            · next heq2 =>
              exact forkPres_trans (ihU _ _ _ heq)
                (forkPres_trans (ihM _ _ _ heq2) (ihRQ _ _ _ h))
          · exact forkPres_trans (ihU _ _ _ heq) (ihRQ _ _ _ h)
    · intro d s out h
      simp only [update_derived] at h
      split at h
      · simp only [Option.some.injEq] at h
        subst h
        exact forkPres_refl s
      · split at h
        · exact absurd h (by simp)
        · next heq =>
          simp only [Option.some.injEq] at h
          subst h
          exact ihTDE _ _ _ heq
        · next s₁ u heq =>
          have hrd : ForkPres s₁ (removeDepsFrom s₁ d) :=
            forkPres_of_purePres (purePres_removeDepsFrom s₁ d)
          split at h
          · simp only [Option.some.injEq] at h
            subst h
            exact forkPres_trans (ihTDE _ _ _ heq) hrd
          · next p hfn =>
            split at h
            · exact absurd h (by simp)
            · next s₄ e heq2 =>
              simp only [Option.some.injEq] at h
              subst h
              refine forkPres_trans (ihTDE _ _ _ heq) (forkPres_trans hrd
                (forkPres_trans (forkPres_same _ _ ?_ ?_ ?_)
                  (forkPres_trans (ihE p _ _ heq2)
                    (forkPres_same _ _ ?_ ?_ ?_)))) <;> rfl
            · next s₄ nxt heq2 =>
              have hbase : ForkPres s { s₄ with reaction_stack := s₄.reaction_stack.drop 1 } := by
                refine forkPres_trans (ihTDE _ _ _ heq) (forkPres_trans hrd
                  (forkPres_trans (forkPres_same _ _ ?_ ?_ ?_)
                    (forkPres_trans (ihE p _ _ heq2)
                      (forkPres_same _ _ ?_ ?_ ?_)))) <;> rfl
              split at h
              · split at h
                · next m hm =>
                  simp only [Option.some.injEq] at h
                  subst h
                  exact forkPres_trans hbase
                    (forkPres_fork_set
                      (s := { s₄ with reaction_stack := s₄.reaction_stack.drop 1 }) hm _ _)
                · next hm =>
                  simp only [Option.some.injEq] at h
                  subst h
                  exact forkPres_trans hbase
                    (forkPres_updN_noFork
                      (s := { s₄ with reaction_stack := s₄.reaction_stack.drop 1 }) hm _ _)
              · simp only [Option.some.injEq] at h
                subst h
                exact hbase
    · intro d s out h
      simp only [teardownDerivedEffects] at h
      split at h
      · simp only [Option.some.injEq] at h
        subst h
        exact forkPres_refl s
      · split at h
        · simp only [Option.some.injEq] at h
          subst h
          exact forkPres_refl s
        · simp only [Option.some.injEq] at h
          subst h
          refine forkPres_updN_vpres _ _ _ ?_
          intro nd; rfl
        · split at h
          · exact absurd h (by simp)
          · next heq =>
            simp only [Option.some.injEq] at h
            subst h
            refine forkPres_trans (forkPres_updN_vpres _ _ _ ?_) (ihTE _ _ _ heq)
            intro nd; rfl
          · next heq =>
            refine forkPres_trans (forkPres_updN_vpres _ _ _ ?_)
              (forkPres_trans (ihTE _ _ _ heq) (ihTDE _ _ _ h))
            intro nd; rfl
    · intro e s out h
      simp only [teardown_effect] at h
      split at h
      · simp only [Option.some.injEq] at h
        subst h
        exact forkPres_refl s
      · split at h
        · exact absurd h (by simp)
        · next heq =>
          simp only [Option.some.injEq] at h
          subst h
          exact ihTC _ _ _ heq
        · next s₁ u heq =>
          have hsteps : ForkPres s₁ (unlinkStep (depsStep s₁ e) e) :=
            forkPres_trans (forkPres_of_purePres (purePres_depsStep s₁ e))
              (forkPres_of_purePres (purePres_unlinkStep _ e))
          split at h
          · simp only [Option.some.injEq] at h
            subst h
            exact forkPres_trans (ihTC _ _ _ heq) hsteps
          · next td htd =>
            split at h
            · exact absurd h (by simp)
            · next s₅ r heq2 =>
              simp only [Option.some.injEq] at h
              subst h
              refine forkPres_trans (ihTC _ _ _ heq) (forkPres_trans hsteps
                (forkPres_trans (forkPres_same _ _ ?_ ?_ ?_)
                  (forkPres_trans (ihE td _ _ heq2)
                    (forkPres_same _ _ ?_ ?_ ?_)))) <;> rfl
    · intro c s out h
      cases c with
      | none =>
        simp only [teardownChain, Option.some.injEq] at h
        subst h
        exact forkPres_refl s
      | some cc =>
        simp only [teardownChain] at h
        split at h
        · exact absurd h (by simp)
        · next heq =>
          simp only [Option.some.injEq] at h
          subst h
          exact ihTE _ _ _ heq
        · next heq =>
          exact forkPres_trans (ihTE _ _ _ heq) (ihTC _ _ _ h)
    · intro b fl s out h
      simp only [create_effect] at h
      split at h
      · exact absurd h (by simp)
      · next s₃ res heq =>
        simp only [Option.some.injEq] at h
        subst h
        have hpre : ForkPres s s₃ := by
          refine forkPres_trans
            (forkPres_append s
              { v := Val.undef, reactions := none, deps := none, f := fl, fn := some b,
                effects := none, teardown := none,
                parent := if fl.disconnected = true then none
                  else (s.reaction_stack.head?).getD none,
                next := none, prev := none, head := none, tail := none,
                root_index := if s.reaction_stack.length > 0 then none
                  else some s.root_index }
              (if s.reaction_stack.length > 0 then s.root_index else s.root_index + 1))
            (forkPres_trans (forkPres_same _ _ ?_ ?_ ?_) (ihE b _ _ heq)) <;> rfl
        have hmid : ForkPres s₃ (match res with
            | .ok (.fnv bb) => updN { s₃ with reaction_stack := s₃.reaction_stack.drop 1 }
                s.heap.length (fun x => { x with teardown := some bb })
            | _ => { s₃ with reaction_stack := s₃.reaction_stack.drop 1 }) := by
          have hsame : ForkPres s₃ { s₃ with reaction_stack := s₃.reaction_stack.drop 1 } :=
            forkPres_same _ _ rfl rfl rfl
          split
          · refine forkPres_trans hsame (forkPres_updN_vpres _ _ _ ?_)
            intro nd; rfl
          · exact hsame
        refine forkPres_trans hpre (forkPres_trans ?_
          (forkPres_of_purePres (purePres_linkReaction _ _ _)))
        revert hmid
        cases res with
        | error e => exact fun hmid => hmid
        | ok v =>
          cases v with
          | fnv bb => exact fun hmid => hmid
          | int k => exact fun hmid => hmid
          | vnull => exact fun hmid => hmid
          | undef => exact fun hmid => hmid


/-- C3: fork isolation.  First part, for every fork body: a completed
`runFork` leaves every pre-existing stored value and the effect queue exactly
as before (speculative writes live only in the returned map), so no
subscriber can have observed the speculative values.  Second part, the S4
scenario generalized over the heap: forking a write of `v` into a plain
source leaves the source's stored value untouched; a read outside the fork
still returns the old value; a read inside `with` sees `v`; `apply()` then
stores exactly `v` and an outside read returns it. -/
theorem c3_fork_isolation :
    (∀ (n : Nat) (body : Prog) (s : St) (out : St × Except Err (List (Nat × Val))),
      runFork n body s = some out →
      (∀ i, i < s.heap.length → vOf out.1 i = vOf s i) ∧ out.1.queue = s.queue) ∧
    (∀ (n src : Nat) (v : Int) (s : St) (nd : Node),
      lookupN s src = some nd → nd.f.derivedF = false → nd.reactions = none →
      s.active_fork = none → s.reaction_stack = [] → Val.int v ≠ nd.v →
      runFork (n + 4) (.setN src (.lit v)) s = some ({ s with heap := s.heap.set src { nd with f := { nd.f with dirty := false } } }, .ok [(src, .int v)]) ∧
      get 1 src { s with heap := s.heap.set src { nd with f := { nd.f with dirty := false } } } = some ({ s with heap := s.heap.set src { nd with f := { nd.f with dirty := false } } }, .ok nd.v) ∧
      forkWith 3 [(src, .int v)] (.getN src) { s with heap := s.heap.set src { nd with f := { nd.f with dirty := false } } } = some ({ s with heap := s.heap.set src { nd with f := { nd.f with dirty := false } } }, .ok (.int v)) ∧
      forkApply (n + 3) [(src, .int v)] { s with heap := s.heap.set src { nd with f := { nd.f with dirty := false } } } = some ({ s with heap := s.heap.set src { nd with v := .int v, f := { nd.f with dirty := false } } }, .ok ()) ∧
      get 1 src { s with heap := s.heap.set src { nd with v := .int v, f := { nd.f with dirty := false } } } = some ({ s with heap := s.heap.set src { nd with v := .int v, f := { nd.f with dirty := false } } }, .ok (.int v))) := by
  constructor
  · intro n body s out h
    unfold runFork at h
    split at h
    · exact absurd h (by simp)
    · next s₁ e heq =>
      simp only [Option.some.injEq] at h
      subst h
      have hf := forkPres_all n
      have hp := hf.1 body _ _ heq
      have hsome : ({ s with active_fork := some ([] : List (Nat × Val)) }).active_fork.isSome = true := rfl
      exact ⟨fun i hi => (hp.2.2 hsome).1 i hi, (hp.2.2 hsome).2⟩
    · next s₁ m heq =>
      simp only [Option.some.injEq] at h
      subst h
      have hf := forkPres_all n
      have hp := hf.1 body _ _ heq
      have hsome : ({ s with active_fork := some ([] : List (Nat × Val)) }).active_fork.isSome = true := rfl
      exact ⟨fun i hi => (hp.2.2 hsome).1 i hi, (hp.2.2 hsome).2⟩
  · intro n src v s nd hx hdf hreac hfork hstk hne
    have hlen : src < s.heap.length := by
      by_contra hh
      unfold lookupN at hx
      rw [List.getElem?_eq_none (Nat.le_of_not_lt hh)] at hx
      exact absurd hx (by simp)
    have hx1 : ∀ (t : St), t.heap = s.heap → lookupN t src = some nd := by
      intro t ht
      unfold lookupN
      rw [ht]
      exact hx
    have hx0 : s.heap[src]? = some nd := hx
    refine ⟨?_, ?_, ?_, ?_, ?_⟩
    · unfold runFork
      simp only [evalProg, set, setCore, hstk, List.head?, lookupN, hx0, effectivePrev, assocGet, List.find?, Option.map_none]
      rw [if_neg (by simpa using fun hh => hne hh.symm)]
      simp only [mark_dirty, updN, lookupN, hx0, List.getElem?_set_self, List.length_set, hlen, Option.bind_some, hreac, Option.bind, assocSet, List.find?, List.set_set]
      rfl
    · simp [get, trackRead, hstk, List.head?, lookupN, List.getElem?_set_self hlen, hfork, hdf]
    · simp [forkWith, evalProg, get, trackRead, hstk, List.head?, lookupN, List.getElem?_set_self hlen, assocGet]
    · unfold forkApply
      simp only [applyLoop, set, setCore, hstk, List.head?, lookupN, List.getElem?_set_self, List.length_set, hlen, effectivePrev, hfork]
      rw [if_neg (by simpa using fun hh => hne hh.symm)]
      simp only [mark_dirty, updN, lookupN, List.getElem?_set_self, List.length_set, hlen, Option.bind_some, hreac, Option.bind, List.set_set]
    · simp [get, trackRead, hstk, List.head?, lookupN, List.getElem?_set_self hlen, hfork, hdf]

/-- Witness for C3: one source holding 1, forked write of 5; the fork run
leaves the stored value at 1 and applying the returned map stores 5. -/
theorem c3_fork_isolation_witness :
    runFork 4 (.setN 0 (.lit 5)) { heap := [{ v := .int 1 }] } = some ({ heap := [{ v := .int 1 }] }, .ok [(0, .int 5)]) ∧
    forkApply 3 [(0, .int 5)] { heap := [{ v := .int 1 }] } = some ({ heap := [{ v := .int 5 }] }, .ok ()) := by
  have h := c3_fork_isolation.2 0 0 5 { heap := [{ v := .int 1 }] } { v := .int 1 } rfl rfl rfl rfl rfl (by decide)
  exact ⟨h.1, h.2.2.2.1⟩

theorem edgeShrink_refl (s : St) : edgeShrink s s :=
  fun _ _ => ⟨id, id⟩

theorem edgeShrink_trans {a b c : St} (h1 : edgeShrink a b) (h2 : edgeShrink b c) :
    edgeShrink a c :=
  fun i j => ⟨fun hm => (h1 i j).1 ((h2 i j).1 hm), fun hm => (h1 i j).2 ((h2 i j).2 hm)⟩

theorem edgeShrink_of_edgesEq {s s' : St} (h : edgesEq s s') : edgeShrink s s' :=
  fun i j => ⟨fun hm => ((h i).1 ▸ hm), fun hm => ((h j).2 ▸ hm)⟩

theorem trackPres_refl (s : St) : TrackPres s s :=
  fun ht => ⟨ht, edgeShrink_refl s⟩

theorem trackPres_trans {a b c : St} (h1 : TrackPres a b) (h2 : TrackPres b c) :
    TrackPres a c := by
  intro ht
  obtain ⟨hb, e1⟩ := h1 ht
  obtain ⟨hc, e2⟩ := h2 hb
  exact ⟨hc, edgeShrink_trans e1 e2⟩

theorem trackPres_same (a b : St) (hh : b.heap = a.heap) (ht : b.tracking = a.tracking) :
    TrackPres a b := by
  intro hta
  refine ⟨ht.trans hta, fun i j => ?_⟩
  unfold reactionsOf depsOf lookupN
  rw [hh]
  exact ⟨id, id⟩

theorem edgesEq_updN (s : St) (i : Nat) (g : Node → Node)
    (hr : ∀ nd, (g nd).reactions = nd.reactions) (hd : ∀ nd, (g nd).deps = nd.deps) :
    edgesEq s (updN s i g) := by
  intro j
  unfold reactionsOf depsOf
  rw [lookupN_updN]
  by_cases hij : i = j
  · simp only [hij, if_pos rfl]
    cases lookupN s j with
    | none => exact ⟨rfl, rfl⟩
    | some nd => simp [hr nd, hd nd]
  · rw [if_neg hij]
    exact ⟨rfl, rfl⟩

theorem trackPres_updN (s : St) (i : Nat) (g : Node → Node)
    (hr : ∀ nd, (g nd).reactions = nd.reactions) (hd : ∀ nd, (g nd).deps = nd.deps) :
    TrackPres s (updN s i g) := by
  intro ht
  exact ⟨(updN_tracking s i g).trans ht,
    edgeShrink_of_edgesEq (edgesEq_updN s i g hr hd)⟩

theorem trackRead_untracked (s : St) (x : Nat) (h : s.tracking = false) :
    trackRead s x = s := by
  unfold trackRead
  rw [h]
  rfl

theorem trackPres_trackRead (s : St) (x : Nat) : TrackPres s (trackRead s x) := by
  intro ht
  rw [trackRead_untracked s x ht]
  exact ⟨ht, edgeShrink_refl s⟩

theorem mem_jsRemove {l : List Nat} {x y : Nat} (h : y ∈ jsRemove l x) : y ∈ l := by
  unfold jsRemove at h
  split at h
  · exact List.mem_of_mem_erase h
  · exact (List.dropLast_sublist l).subset h

theorem edgeShrink_unlink_fold (r : Nat) (xs : List Nat) (s : St) :
    edgeShrink s (xs.foldl
      (fun acc d => updN acc d
        (fun dn => { dn with reactions := dn.reactions.map (fun l => jsRemove l r) }))
      s) := by
  induction xs generalizing s with
  | nil => exact edgeShrink_refl s
  | cons d rest ih =>
    simp only [List.foldl_cons]
    refine edgeShrink_trans ?_ (ih _)
    intro i j
    unfold reactionsOf depsOf
    rw [lookupN_updN]
    by_cases hd : d = i
    · subst hd
      constructor
      · rw [if_pos rfl]
        cases hnd : lookupN s d with
        | none => exact id
        | some nd =>
          intro hm
          have hm2 : j ∈ (nd.reactions.map (fun l => jsRemove l r)).getD [] := hm
          show j ∈ nd.reactions.getD []
          cases hrr : nd.reactions with
          | none =>
            rw [hrr] at hm2
            exact absurd hm2 (by simp)
          | some l =>
            rw [hrr] at hm2
            exact mem_jsRemove hm2
      · rw [lookupN_updN]
        by_cases hdj : d = j
        · subst hdj
          rw [if_pos rfl]
          cases lookupN s d with
          | none => exact id
          | some nd => exact id
        · rw [if_neg hdj]
          exact id
    · constructor
      · rw [if_neg hd]
        exact id
      · rw [lookupN_updN]
        by_cases hdj : d = j
        · subst hdj
          rw [if_pos rfl]
          cases lookupN s d with
          | none => exact id
          | some nd => exact id
        · rw [if_neg hdj]
          exact id

theorem trackPres_removeDepsFrom (s : St) (r : Nat) :
    TrackPres s (removeDepsFrom s r) := by
  intro ht
  refine ⟨?_, ?_⟩
  · have := purePres_removeDepsFrom s r
    exact this.2.2.2.2.2.2.2.trans ht
  · unfold removeDepsFrom
    split
    · exact edgeShrink_refl s
    · next nd hnd =>
      split
      · exact edgeShrink_refl s
      · next xs hxs =>
        refine edgeShrink_trans (edgeShrink_unlink_fold r xs s) ?_
        intro i j
        unfold reactionsOf depsOf
        rw [lookupN_updN, lookupN_updN]
        constructor
        · by_cases hri : r = i
          · subst hri
            rw [if_pos rfl]
            cases lookupN _ r with
            | none => exact id
            | some y => exact id
          · rw [if_neg hri]
            exact id
        · by_cases hrj : r = j
          · subst hrj
            rw [if_pos rfl]
            cases lookupN _ r with
            | none => exact id
            | some y => simp
          · rw [if_neg hrj]
            exact id

theorem trackPres_depsStep (s : St) (e : Nat) : TrackPres s (depsStep s e) := by
  unfold depsStep
  split
  · exact trackPres_removeDepsFrom s e
  · exact trackPres_refl s

theorem trackPres_unlinkStep (s : St) (e : Nat) : TrackPres s (unlinkStep s e) := by
  unfold unlinkStep
  split
  · exact trackPres_refl s
  · split
    · exact trackPres_updN _ _ _ (fun _ => rfl) (fun _ => rfl)
    · split
      · exact trackPres_updN _ _ _ (fun _ => rfl) (fun _ => rfl)
      · split
        · exact trackPres_refl s
        · split
          · exact trackPres_refl s
          · split
            · exact trackPres_updN _ _ _ (fun _ => rfl) (fun _ => rfl)
            · exact trackPres_updN _ _ _ (fun _ => rfl) (fun _ => rfl)

theorem trackPres_partitionReactions (src : Nat) (rs : List Nat) (s : St)
    (qd tc : List Nat) : TrackPres s (partitionReactions src rs s qd tc).1 := by
  induction rs generalizing s qd tc with
  | nil => exact trackPres_refl s
  | cons r rest ih =>
    unfold partitionReactions
    split
    · exact ih s qd tc
    · next rn hrn =>
      split
      · split
        · exact ih s qd tc
        · split
          · exact ih s _ tc
          · exact trackPres_trans
              (trackPres_updN s r (fun x => { x with f := { x.f with maybeDirty := true } })
                (fun _ => rfl) (fun _ => rfl)) (ih _ qd tc)
      · split
        · split
          · exact ih s qd tc
          · exact ih s qd _
        · exact ih s qd tc

theorem trackPres_pushEffects (l : List Nat) (s : St) :
    TrackPres s (pushEffects l s) := by
  induction l generalizing s with
  | nil => exact trackPres_refl s
  | cons e rest ih =>
    unfold pushEffects
    split
    · exact ih s
    · split
      · exact ih s
      · refine trackPres_trans ?_ (ih _)
        refine trackPres_trans
          (trackPres_updN s e (fun x => { x with f := { x.f with dirty := true } })
            (fun _ => rfl) (fun _ => rfl)) ?_
        exact trackPres_same _ _ rfl rfl

theorem trackPres_linkReaction (dc : Bool) (id' : Nat) (s : St) :
    TrackPres s (linkReaction dc id' s) := by
  unfold linkReaction
  split
  · exact trackPres_refl s
  · split
    · exact trackPres_refl s
    · split
      · exact trackPres_refl s
      · split
        · exact trackPres_refl s
        · split
          · exact trackPres_refl s
          · split
            · exact trackPres_updN _ _ _ (fun _ => rfl) (fun _ => rfl)
            · split
              · exact trackPres_updN _ _ _ (fun _ => rfl) (fun _ => rfl)
              · dsimp only
                split
                · refine trackPres_trans ?_ (trackPres_updN _ _ _ ?_ ?_)
                  · refine trackPres_trans ?_ (trackPres_updN _ _ _ ?_ ?_)
                    · exact trackPres_updN _ _ _ (fun _ => rfl) (fun _ => rfl)
                    · intro nd; rfl
                    · intro nd; rfl
                  · intro nd; rfl
                  · intro nd; rfl
                · refine trackPres_trans ?_ (trackPres_updN _ _ _ ?_ ?_)
                  · exact trackPres_updN _ _ _ (fun _ => rfl) (fun _ => rfl)
                  · intro nd; rfl
                  · intro nd; rfl

theorem trackPres_append (s : St) (nd : Node) (ri : Nat)
    (hr : nd.reactions = none) (hd : nd.deps = none) :
    TrackPres s { s with heap := s.heap ++ [nd], root_index := ri } := by
  intro ht
  refine ⟨ht, edgeShrink_of_edgesEq fun k => ?_⟩
  unfold reactionsOf depsOf lookupN
  have hcase : (s.heap ++ [nd])[k]?.bind (·.reactions) = s.heap[k]?.bind (·.reactions) ∧
      (s.heap ++ [nd])[k]?.bind (·.deps) = s.heap[k]?.bind (·.deps) := by
    rcases Nat.lt_trichotomy k s.heap.length with hk | hk | hk
    · rw [List.getElem?_append, if_pos hk]
      exact ⟨rfl, rfl⟩
    · subst hk
      rw [List.getElem?_append, if_neg (Nat.lt_irrefl _), Nat.sub_self,
        List.getElem?_eq_none (Nat.le_refl _)]
      simp [hr, hd]
    · rw [List.getElem?_append, if_neg (by omega), List.getElem?_eq_none (by simp; omega),
        List.getElem?_eq_none (Nat.le_of_lt hk)]
      exact ⟨rfl, rfl⟩
  rw [hcase.1, hcase.2]
  exact ⟨rfl, rfl⟩
theorem trackPres_all : ∀ n : Nat,
    (∀ p s out, evalProg n p s = some out → TrackPres s out.1) ∧
    (∀ x s out, get n x s = some out → TrackPres s out.1) ∧
    (∀ x v s out, set n x v s = some out → TrackPres s out.1) ∧
    (∀ x v s out, setCore n x v s = some out → TrackPres s out.1) ∧
    (∀ x s out, mark_dirty n x s = some out → TrackPres s out.1) ∧
    (∀ l s out, runQueuedDeriveds n l s = some out → TrackPres s out.1) ∧
    (∀ d s out, update_derived n d s = some out → TrackPres s out.1) ∧
    (∀ d s out, teardownDerivedEffects n d s = some out → TrackPres s out.1) ∧
    (∀ e s out, teardown_effect n e s = some out → TrackPres s out.1) ∧
    (∀ c s out, teardownChain n c s = some out → TrackPres s out.1) ∧
    (∀ b fl s out, create_effect n b fl s = some out → TrackPres s out.1) := by
  intro n
  induction n with
  | zero =>
    refine ⟨?_, ?_, ?_, ?_, ?_, ?_, ?_, ?_, ?_, ?_, ?_⟩ <;> intros <;> rename_i h <;>
      simp [evalProg, get, set, setCore, mark_dirty,
        runQueuedDeriveds, update_derived, teardownDerivedEffects, teardown_effect,
        teardownChain, create_effect] at h
  | succ n ih =>
    obtain ⟨ihE, ihG, ihS, ihSC, ihM, ihRQ, ihU, ihTDE, ihTE, ihTC, ihCE⟩ := ih
    refine ⟨?_, ?_, ?_, ?_, ?_, ?_, ?_, ?_, ?_, ?_, ?_⟩
    · intro p s out h
      cases p with
      | lit k =>
        simp only [evalProg, Option.some.injEq] at h
        subst h
        exact trackPres_refl s
      | nullL =>
        simp only [evalProg, Option.some.injEq] at h
        subst h
        exact trackPres_refl s
      | undefL =>
        simp only [evalProg, Option.some.injEq] at h
        subst h
        exact trackPres_refl s
      | fnLit b =>
        simp only [evalProg, Option.some.injEq] at h
        subst h
        exact trackPres_refl s
      | throwP =>
        simp only [evalProg, Option.some.injEq] at h
        subst h
        exact trackPres_refl s
      | seq a b =>
        simp only [evalProg] at h
        split at h
        · exact absurd h (by simp)
        · next heq =>
          simp only [Option.some.injEq] at h
          subst h
          exact ihE a _ _ heq
        · next heq =>
          exact trackPres_trans (ihE a _ _ heq) (ihE b _ _ h)
      | ifP c t e =>
        simp only [evalProg] at h
        split at h
        · exact absurd h (by simp)
        · next heq =>
          simp only [Option.some.injEq] at h
          subst h
          exact ihE c _ _ heq
        · next heq =>
          split at h
          · exact trackPres_trans (ihE c _ _ heq) (ihE t _ _ h)
          · exact trackPres_trans (ihE c _ _ heq) (ihE e _ _ h)
      | getN x =>
        simp only [evalProg] at h
        exact ihG x s out h
      | setN x a =>
        simp only [evalProg] at h
        split at h
        · exact absurd h (by simp)
        · next heq =>
          simp only [Option.some.injEq] at h
          subst h
          exact ihE a _ _ heq
        · next heq =>
          exact trackPres_trans (ihE a _ _ heq) (ihS _ _ _ _ h)
      | untrackP b =>
        simp only [evalProg] at h
        split at h
        · exact absurd h (by simp)
        · next s₁ r heq =>
          simp only [Option.some.injEq] at h
          subst h
          intro ht
          obtain ⟨h2, h3⟩ := ihE b _ _ heq rfl
          exact ⟨ht, h3⟩
      | effectP b =>
        simp only [evalProg] at h
        split at h
        · exact absurd h (by simp)
        · next heq =>
          simp only [Option.some.injEq] at h
          subst h
          exact ihCE b _ _ _ heq
    · intro x s out h
      have hpure := trackPres_trackRead s x
      simp only [get] at h
      split at h
      · simp only [Option.some.injEq] at h
        subst h
        exact trackPres_refl s
      · split at h
        · simp only [Option.some.injEq] at h
          subst h
          exact hpure
        · split at h
          · simp only [Option.some.injEq] at h
            subst h
            exact hpure
          · split at h
            · split at h
              · split at h
                · exact absurd h (by simp)
                · next heq =>
                  simp only [Option.some.injEq] at h
                  subst h
                  exact trackPres_trans hpure (ihU _ _ _ heq)
                · next heq =>
                  simp only [Option.some.injEq] at h
                  subst h
                  refine trackPres_trans hpure
                    (trackPres_trans (ihU _ _ _ heq) (trackPres_updN _ _ _ ?_ ?_)) <;>
                    (intro nd; rfl)
              · simp only [Option.some.injEq] at h
                subst h
                refine trackPres_trans hpure (trackPres_updN _ _ _ ?_ ?_) <;>
                  (intro nd; rfl)
            · simp only [Option.some.injEq] at h
              subst h
              exact hpure
    · intro x v s out h
      simp only [set] at h
      split at h
      · split at h
        · simp only [Option.some.injEq] at h
          subst h
          exact trackPres_refl s
        · split at h
          · simp only [Option.some.injEq] at h
            subst h
            exact trackPres_refl s
          · exact ihSC _ _ _ _ h
      · exact ihSC _ _ _ _ h
    · intro x v s out h
      simp only [setCore] at h
      split at h
      · simp only [Option.some.injEq] at h
        subst h
        exact trackPres_refl s
      · next nd heq =>
        split at h
        · simp only [Option.some.injEq] at h
          subst h
          exact trackPres_refl s
        · have hstep : TrackPres s
              (match s.active_fork with
                | some m => { s with active_fork := some (assocSet m x v) }
                | none => updN s x (fun y => { y with v := v })) := by
            cases hf : s.active_fork with
            | none => exact trackPres_updN _ _ _ (fun _ => rfl) (fun _ => rfl)
            | some m => exact trackPres_same _ _ rfl rfl
          split at h
          · exact absurd h (by simp)
          · next heq2 =>
            simp only [Option.some.injEq] at h
            subst h
            refine trackPres_trans ?_ (ihM _ _ _ heq2)
            revert hstep
            cases s.active_fork <;> exact fun hstep => hstep
          · next heq2 =>
            simp only [Option.some.injEq] at h
            subst h
            refine trackPres_trans ?_ (ihM _ _ _ heq2)
            revert hstep
            cases s.active_fork <;> exact fun hstep => hstep
    · intro x s out h
      simp only [mark_dirty] at h
      split at h
      · simp only [Option.some.injEq] at h
        subst h
        exact trackPres_refl s
      · split at h
        · simp only [Option.some.injEq] at h
          subst h
          refine trackPres_trans (trackPres_updN _ _ _ ?_ ?_)
            (trackPres_updN _ _ _ ?_ ?_) <;> (intro nd; rfl)
        · rename_i xs hxs
          split at h
          · exact absurd h (by simp)
          · rename_i s₃ er heq2
            simp only [Option.some.injEq] at h
            subst h
            refine trackPres_trans (trackPres_updN _ _ _ ?_ ?_)
              (trackPres_trans
                (trackPres_partitionReactions x xs _ [] [])
                (ihRQ _ _ _ heq2)) <;> (intro nd; rfl)
          · rename_i s₃ u heq2
            simp only [Option.some.injEq] at h
            subst h
            refine trackPres_trans (trackPres_updN _ _ _ ?_ ?_)
              (trackPres_trans
                (trackPres_partitionReactions x xs _ [] [])
                (trackPres_trans (ihRQ _ _ _ heq2)
                  (trackPres_trans (trackPres_pushEffects _ _)
                    (trackPres_updN _ _ _ ?_ ?_)))) <;> (intro nd; rfl)
    · intro l s out h
      cases l with
      | nil =>
        simp only [runQueuedDeriveds, Option.some.injEq] at h
        subst h
        exact trackPres_refl s
      | cons d rest =>
        simp only [runQueuedDeriveds] at h
        split at h
        · exact absurd h (by simp)
        · next heq =>
          simp only [Option.some.injEq] at h
          subst h
          exact ihU _ _ _ heq
        · next heq =>
          split at h
          · split at h
            · exact absurd h (by simp)
            · next heq2 =>
              simp only [Option.some.injEq] at h
              subst h
              exact trackPres_trans (ihU _ _ _ heq) (ihM _ _ _ heq2)
            · next heq2 =>
              exact trackPres_trans (ihU _ _ _ heq)
                (trackPres_trans (ihM _ _ _ heq2) (ihRQ _ _ _ h))
          · exact trackPres_trans (ihU _ _ _ heq) (ihRQ _ _ _ h)
    · intro d s out h
      simp only [update_derived] at h
      split at h
      · simp only [Option.some.injEq] at h
        subst h
        exact trackPres_refl s
      · split at h
        · exact absurd h (by simp)
        · next heq =>
          simp only [Option.some.injEq] at h
          subst h
          exact ihTDE _ _ _ heq
        · next s₁ u heq =>
          have hrd : TrackPres s₁ (removeDepsFrom s₁ d) :=
            trackPres_removeDepsFrom s₁ d
          split at h
          · simp only [Option.some.injEq] at h
            subst h
            exact trackPres_trans (ihTDE _ _ _ heq) hrd
          · next p hfn =>
            split at h
            · exact absurd h (by simp)
            · next s₄ e heq2 =>
              simp only [Option.some.injEq] at h
              subst h
              refine trackPres_trans (ihTDE _ _ _ heq) (trackPres_trans hrd
                (trackPres_trans (trackPres_same _ _ ?_ ?_)
                  (trackPres_trans (ihE p _ _ heq2)
                    (trackPres_same _ _ ?_ ?_)))) <;> rfl
            · next s₄ nxt heq2 =>
              have hbase : TrackPres s { s₄ with reaction_stack := s₄.reaction_stack.drop 1 } := by
                refine trackPres_trans (ihTDE _ _ _ heq) (trackPres_trans hrd
                  (trackPres_trans (trackPres_same _ _ ?_ ?_)
                    (trackPres_trans (ihE p _ _ heq2)
                      (trackPres_same _ _ ?_ ?_)))) <;> rfl
              split at h
              · split at h
                · next m hm =>
                  simp only [Option.some.injEq] at h
                  subst h
                  exact trackPres_trans hbase (trackPres_same _ _ rfl rfl)
                · next hm =>
                  simp only [Option.some.injEq] at h
                  subst h
                  exact trackPres_trans hbase
                    (trackPres_updN _ _ _ (fun _ => rfl) (fun _ => rfl))
              · simp only [Option.some.injEq] at h
                subst h
                exact hbase
    · intro d s out h
      simp only [teardownDerivedEffects] at h
      split at h
      · simp only [Option.some.injEq] at h
        subst h
        exact trackPres_refl s
      · split at h
        · simp only [Option.some.injEq] at h
          subst h
          exact trackPres_refl s
        · simp only [Option.some.injEq] at h
          subst h
          refine trackPres_updN _ _ _ ?_ ?_ <;> (intro nd; rfl)
        · split at h
          · exact absurd h (by simp)
          · next heq =>
            simp only [Option.some.injEq] at h
            subst h
            refine trackPres_trans (trackPres_updN _ _ _ ?_ ?_) (ihTE _ _ _ heq) <;>
              (intro nd; rfl)
          · next heq =>
            refine trackPres_trans (trackPres_updN _ _ _ ?_ ?_)
              (trackPres_trans (ihTE _ _ _ heq) (ihTDE _ _ _ h)) <;>
              (intro nd; rfl)
    · intro e s out h
      simp only [teardown_effect] at h
      split at h
      · simp only [Option.some.injEq] at h
        subst h
        exact trackPres_refl s
      · split at h
        · exact absurd h (by simp)
        · next heq =>
          simp only [Option.some.injEq] at h
          subst h
          exact ihTC _ _ _ heq
        · next s₁ u heq =>
          have hsteps : TrackPres s₁ (unlinkStep (depsStep s₁ e) e) :=
            trackPres_trans (trackPres_depsStep s₁ e)
              (trackPres_unlinkStep _ e)
          split at h
          · simp only [Option.some.injEq] at h
            subst h
            exact trackPres_trans (ihTC _ _ _ heq) hsteps
          · next td htd =>
            split at h
            · exact absurd h (by simp)
            · next s₅ r heq2 =>
              simp only [Option.some.injEq] at h
              subst h
              refine trackPres_trans (ihTC _ _ _ heq) (trackPres_trans hsteps
                (trackPres_trans (trackPres_same _ _ ?_ ?_)
                  (trackPres_trans (ihE td _ _ heq2)
                    (trackPres_same _ _ ?_ ?_)))) <;> rfl
    · intro c s out h
      cases c with
      | none =>
        simp only [teardownChain, Option.some.injEq] at h
        subst h
        exact trackPres_refl s
      | some cc =>
        simp only [teardownChain] at h
        split at h
        · exact absurd h (by simp)
        · next heq =>
          simp only [Option.some.injEq] at h
          subst h
          exact ihTE _ _ _ heq
        · next heq =>
          exact trackPres_trans (ihTE _ _ _ heq) (ihTC _ _ _ h)
    · intro b fl s out h
      simp only [create_effect] at h
      split at h
      · exact absurd h (by simp)
      · next s₃ res heq =>
        simp only [Option.some.injEq] at h
        subst h
        have hpre : TrackPres s s₃ := by
          refine trackPres_trans
            (trackPres_append s
              { v := Val.undef, reactions := none, deps := none, f := fl, fn := some b,
                effects := none, teardown := none,
                parent := if fl.disconnected = true then none
                  else (s.reaction_stack.head?).getD none,
                next := none, prev := none, head := none, tail := none,
                root_index := if s.reaction_stack.length > 0 then none
                  else some s.root_index }
              (if s.reaction_stack.length > 0 then s.root_index else s.root_index + 1)
              rfl rfl)
            (trackPres_trans (trackPres_same _ _ ?_ ?_) (ihE b _ _ heq)) <;> rfl
        have hmid : TrackPres s₃ (match res with
            | .ok (.fnv bb) => updN { s₃ with reaction_stack := s₃.reaction_stack.drop 1 }
                s.heap.length (fun x => { x with teardown := some bb })
            | _ => { s₃ with reaction_stack := s₃.reaction_stack.drop 1 }) := by
          have hsame : TrackPres s₃ { s₃ with reaction_stack := s₃.reaction_stack.drop 1 } :=
            trackPres_same _ _ rfl rfl
          split
          · refine trackPres_trans hsame (trackPres_updN _ _ _ ?_ ?_) <;>
              (intro nd; rfl)
          · exact hsame
        refine trackPres_trans hpre (trackPres_trans ?_
          (trackPres_linkReaction _ _ _))
        revert hmid
        cases res with
        | error e => exact fun hmid => hmid
        | ok v =>
          cases v with
          | fnv bb => exact fun hmid => hmid
          | int k => exact fun hmid => hmid
          | vnull => exact fun hmid => hmid
          | undef => exact fun hmid => hmid



/-- C10: `untrack(fn)` runs `fn` with `tracking` off and restores the prior
flag on exit, for normal returns (returning `fn`'s result) and for thrown
exceptions alike (the exception propagates); and no dependency edges are
registered during `fn` — every `reactions` and `deps` membership of the exit
state already held on entry (edges can only shrink while tracking is off). -/
theorem c10_untrack :
    ∀ (n : Nat) (b : Prog) (s : St) (out : St × Except Err Val),
      evalProg (n + 1) (.untrackP b) s = some out →
      out.1.tracking = s.tracking ∧
      (∃ s₂, evalProg n b { s with tracking := false } = some (s₂, out.2) ∧
        out.1 = { s₂ with tracking := s.tracking }) ∧
      edgeShrink s out.1 := by
  intro n b s out h
  simp only [evalProg] at h
  split at h
  · exact absurd h (by simp)
  · next s₂ r heq =>
    simp only [Option.some.injEq] at h
    subst h
    refine ⟨rfl, ⟨s₂, heq, rfl⟩, ?_⟩
    exact ((trackPres_all n).1 b _ _ heq rfl).2

/-- Witness for C10: an untracked read of a plain source returns its value,
leaves the state (tracking flag included) exactly as before, and adds no
edge. -/
theorem c10_untrack_witness :
    evalProg 3 (.untrackP (.getN 0)) { heap := [{ v := .int 7 }] } =
      some ({ heap := [{ v := .int 7 }] }, .ok (.int 7)) ∧
    ({ heap := [{ v := .int 7 }] } : St).tracking = true ∧
    edgeShrink { heap := [{ v := .int 7 }] } { heap := [{ v := .int 7 }] } := by
  have h := c10_untrack 2 (.getN 0) { heap := [{ v := .int 7 }] }
    ({ heap := [{ v := .int 7 }] }, .ok (.int 7)) (by decide)
  exact ⟨by decide, rfl, h.2.2⟩

theorem edgesEq_refl (s : St) : edgesEq s s := fun _ => ⟨rfl, rfl⟩

theorem edgesEq_trans {a b c : St} (h1 : edgesEq a b) (h2 : edgesEq b c) : edgesEq a c :=
  fun i => ⟨(h2 i).1.trans (h1 i).1, (h2 i).2.trans (h1 i).2⟩

theorem gPres_refl (s : St) : GPres s s := id

theorem gPres_trans {a b c : St} (h1 : GPres a b) (h2 : GPres b c) : GPres a c :=
  fun h => h2 (h1 h)

theorem graphInv_same {a b : St} (hh : b.heap = a.heap) (h : GraphInv a) : GraphInv b := by
  unfold GraphInv EdgesBounded EdgeConsistent EdgeNodup reactionsOf depsOf lookupN at *
  rw [hh]
  exact h

theorem gPres_same (a b : St) (hh : b.heap = a.heap) : GPres a b :=
  fun h => graphInv_same hh h

theorem gPres_of_edgesEq {s s' : St} (he : edgesEq s s')
    (hl : s'.heap.length = s.heap.length) : GPres s s' := by
  intro h
  obtain ⟨hb, hc, hn⟩ := h
  refine ⟨?_, ?_, ?_⟩
  · intro i hi
    rw [hl] at hi
    rw [(he i).1, (he i).2, hl]
    exact hb i hi
  · intro i hi j hj
    rw [hl] at hi hj
    rw [(he j).2, (he i).1]
    exact hc i hi j hj
  · intro i hi
    rw [hl] at hi
    rw [(he i).1, (he i).2]
    exact hn i hi

theorem gPres_updN (s : St) (i : Nat) (g : Node → Node)
    (hr : ∀ nd, (g nd).reactions = nd.reactions) (hd : ∀ nd, (g nd).deps = nd.deps) :
    GPres s (updN s i g) :=
  gPres_of_edgesEq (edgesEq_updN s i g hr hd) (updN_heap_length s i g)

theorem edgesEq_partitionReactions (src : Nat) (rs : List Nat) (s : St)
    (qd tc : List Nat) : edgesEq s (partitionReactions src rs s qd tc).1 := by
  induction rs generalizing s qd tc with
  | nil => exact edgesEq_refl s
  | cons r rest ih =>
    unfold partitionReactions
    split
    · exact ih s qd tc
    · next rn hrn =>
      split
      · split
        · exact ih s qd tc
        · split
          · exact ih s _ tc
          · exact edgesEq_trans
              (edgesEq_updN s r (fun x => { x with f := { x.f with maybeDirty := true } })
                (fun _ => rfl) (fun _ => rfl)) (ih _ qd tc)
      · split
        · split
          · exact ih s qd tc
          · exact ih s qd _
        · exact ih s qd tc

theorem gPres_partitionReactions (src : Nat) (rs : List Nat) (s : St)
    (qd tc : List Nat) : GPres s (partitionReactions src rs s qd tc).1 :=
  gPres_of_edgesEq (edgesEq_partitionReactions src rs s qd tc)
    (purePres_partitionReactions src rs s qd tc).1

theorem edgesEq_pushEffects (l : List Nat) (s : St) : edgesEq s (pushEffects l s) := by
  induction l generalizing s with
  | nil => exact edgesEq_refl s
  | cons e rest ih =>
    unfold pushEffects
    split
    · exact ih s
    · split
      · exact ih s
      · refine edgesEq_trans ?_ (ih _)
        refine edgesEq_trans
          (edgesEq_updN s e (fun x => { x with f := { x.f with dirty := true } })
            (fun _ => rfl) (fun _ => rfl)) ?_
        intro i
        exact ⟨rfl, rfl⟩

theorem gPres_pushEffects (l : List Nat) (s : St) : GPres s (pushEffects l s) :=
  gPres_of_edgesEq (edgesEq_pushEffects l s) (pushEffects_basic l s).1

theorem edgesEq_linkReaction (dc : Bool) (id' : Nat) (s : St) :
    edgesEq s (linkReaction dc id' s) := by
  unfold linkReaction
  split
  · exact edgesEq_refl s
  · split
    · exact edgesEq_refl s
    · split
      · exact edgesEq_refl s
      · split
        · exact edgesEq_refl s
        · split
          · exact edgesEq_refl s
          · split
            · exact edgesEq_updN _ _ _ (fun _ => rfl) (fun _ => rfl)
            · split
              · exact edgesEq_updN _ _ _ (fun _ => rfl) (fun _ => rfl)
              · dsimp only
                split
                · refine edgesEq_trans ?_ (edgesEq_updN _ _ _ ?_ ?_)
                  · refine edgesEq_trans ?_ (edgesEq_updN _ _ _ ?_ ?_)
                    · exact edgesEq_updN _ _ _ (fun _ => rfl) (fun _ => rfl)
                    · intro nd; rfl
                    · intro nd; rfl
                  · intro nd; rfl
                  · intro nd; rfl
                · refine edgesEq_trans ?_ (edgesEq_updN _ _ _ ?_ ?_)
                  · exact edgesEq_updN _ _ _ (fun _ => rfl) (fun _ => rfl)
                  · intro nd; rfl
                  · intro nd; rfl

theorem gPres_linkReaction (dc : Bool) (id' : Nat) (s : St) :
    GPres s (linkReaction dc id' s) :=
  gPres_of_edgesEq (edgesEq_linkReaction dc id' s) (purePres_linkReaction dc id' s).1

theorem edgesEq_unlinkStep (s : St) (e : Nat) : edgesEq s (unlinkStep s e) := by
  unfold unlinkStep
  split
  · exact edgesEq_refl s
  · split
    · exact edgesEq_updN _ _ _ (fun _ => rfl) (fun _ => rfl)
    · split
      · exact edgesEq_updN _ _ _ (fun _ => rfl) (fun _ => rfl)
      · split
        · exact edgesEq_refl s
        · split
          · exact edgesEq_refl s
          · split
            · exact edgesEq_updN _ _ _ (fun _ => rfl) (fun _ => rfl)
            · exact edgesEq_updN _ _ _ (fun _ => rfl) (fun _ => rfl)

theorem gPres_unlinkStep (s : St) (e : Nat) : GPres s (unlinkStep s e) :=
  gPres_of_edgesEq (edgesEq_unlinkStep s e) (purePres_unlinkStep s e).1

theorem lookupN_lt {s : St} {i : Nat} {nd : Node} (h : lookupN s i = some nd) :
    i < s.heap.length := by
  unfold lookupN at h
  by_contra hh
  rw [List.getElem?_eq_none (Nat.le_of_not_lt hh)] at h
  exact absurd h (by simp)

theorem reactionsOf_eq {s : St} {i : Nat} {nd : Node} (h : lookupN s i = some nd) :
    reactionsOf s i = nd.reactions.getD [] := by
  unfold reactionsOf
  rw [h]
  rfl

theorem depsOf_eq {s : St} {i : Nat} {nd : Node} (h : lookupN s i = some nd) :
    depsOf s i = nd.deps.getD [] := by
  unfold depsOf
  rw [h]
  rfl

theorem gPres_trackRead (s : St) (x : Nat) : GPres s (trackRead s x) := by
  unfold trackRead
  split
  · split
    · rename_i r hhead
      split
      · rename_i nd rn hx hr
        split
        · rename_i hg
          obtain ⟨hg1, hg2, hg3⟩ := hg
          intro h
          obtain ⟨hb, hc, hn⟩ := h
          have hxl : x < s.heap.length := lookupN_lt hx
          have hrl : r < s.heap.length := lookupN_lt hr
          have hrx : r ∉ reactionsOf s x := by
            rw [reactionsOf_eq hx]
            simpa using hg1
          have hxd : x ∉ depsOf s r := by
            intro hm
            exact hrx ((hc x hxl r hrl).mp hm)
          have hre : ∀ i, reactionsOf (updN (updN s x
              (fun y => { y with reactions := some ((y.reactions.getD []) ++ [r]) })) r
              (fun y => { y with deps := some ((y.deps.getD []) ++ [x]) })) i =
              if i = x then reactionsOf s x ++ [r] else reactionsOf s i := by
            intro i
            unfold reactionsOf
            rw [lookupN_updN]
            by_cases hir : r = i
            · subst hir
              rw [if_pos rfl, lookupN_updN, if_neg hg2,
                if_neg (fun hh => hg2 hh.symm), hr]
              rfl
            · rw [if_neg hir, lookupN_updN]
              by_cases hix : x = i
              · subst hix
                rw [if_pos rfl, if_pos rfl, hx]
                rfl
              · rw [if_neg hix, if_neg (fun hh => hix hh.symm)]
          have hde : ∀ j, depsOf (updN (updN s x
              (fun y => { y with reactions := some ((y.reactions.getD []) ++ [r]) })) r
              (fun y => { y with deps := some ((y.deps.getD []) ++ [x]) })) j =
              if j = r then depsOf s r ++ [x] else depsOf s j := by
            intro j
            unfold depsOf
            rw [lookupN_updN]
            by_cases hjr : r = j
            · subst hjr
              rw [if_pos rfl, lookupN_updN, if_neg hg2, if_pos rfl, hr]
              rfl
            · rw [if_neg hjr, lookupN_updN]
              by_cases hjx : x = j
              · subst hjx
                rw [if_pos rfl, if_neg hg2, hx]
                rfl
              · rw [if_neg hjx, if_neg (fun hh => hjr hh.symm)]
          have hlen : (updN (updN s x
              (fun y => { y with reactions := some ((y.reactions.getD []) ++ [r]) })) r
              (fun y => { y with deps := some ((y.deps.getD []) ++ [x]) })).heap.length =
              s.heap.length := by
            rw [updN_heap_length, updN_heap_length]
          refine ⟨?_, ?_, ?_⟩
          · intro i hi
            rw [hlen] at hi
            rw [hre i, hde i, hlen]
            constructor
            · intro j hj
              by_cases hix : i = x
              · rw [if_pos hix] at hj
                rcases List.mem_append.mp hj with hj | hj
                · exact (hb x hxl).1 j (hix ▸ hj)
                · simp only [List.mem_singleton] at hj
                  exact hj ▸ hrl
              · rw [if_neg hix] at hj
                exact (hb i hi).1 j hj
            · intro j hj
              by_cases hir : i = r
              · rw [if_pos hir] at hj
                rcases List.mem_append.mp hj with hj | hj
                · exact (hb r hrl).2 j (hir ▸ hj)
                · simp only [List.mem_singleton] at hj
                  exact hj ▸ hxl
              · rw [if_neg hir] at hj
                exact (hb i hi).2 j hj
          · intro i hi j hj
            rw [hlen] at hi hj
            rw [hde j, hre i]
            by_cases hjr : j = r
            · subst hjr
              by_cases hix : i = x
              · subst hix
                rw [if_pos rfl, if_pos rfl]
                simp
              · rw [if_pos rfl, if_neg hix]
                constructor
                · intro hm
                  rcases List.mem_append.mp hm with hm | hm
                  · exact (hc i hi j hj).mp hm
                  · simp only [List.mem_singleton] at hm
                    exact absurd hm hix
                · intro hm
                  exact List.mem_append_left _ ((hc i hi j hj).mpr hm)
            · rw [if_neg hjr]
              by_cases hix : i = x
              · subst hix
                rw [if_pos rfl]
                constructor
                · intro hm
                  exact List.mem_append_left _ ((hc i hi j hj).mp hm)
                · intro hm
                  rcases List.mem_append.mp hm with hm | hm
                  · exact (hc i hi j hj).mpr hm
                  · simp only [List.mem_singleton] at hm
                    exact absurd hm hjr
              · rw [if_neg hix]
                exact hc i hi j hj
          · intro i hi
            rw [hlen] at hi
            rw [hre i, hde i]
            constructor
            · by_cases hix : i = x
              · rw [if_pos hix]
                refine List.Nodup.append (hix ▸ (hn x hxl).1) (List.nodup_singleton r) ?_
                intro a ha hb2
                simp only [List.mem_singleton] at hb2
                subst hb2
                exact hrx (hix ▸ ha)
              · rw [if_neg hix]
                exact (hn i hi).1
            · by_cases hir : i = r
              · rw [if_pos hir]
                refine List.Nodup.append (hir ▸ (hn r hrl).2) (List.nodup_singleton x) ?_
                intro a ha hb2
                simp only [List.mem_singleton] at hb2
                subst hb2
                exact hxd (hir ▸ ha)
              · rw [if_neg hir]
                exact (hn i hi).2
        · exact gPres_refl s
      · exact gPres_refl s
    · exact gPres_refl s
  · exact gPres_refl s

theorem unlinkFold_spec (r : Nat) (xs : List Nat) (s : St) (hnd : xs.Nodup) :
    (xs.foldl (fun acc d => updN acc d
      (fun dn => { dn with reactions := dn.reactions.map (fun l => jsRemove l r) }))
      s).heap.length = s.heap.length ∧
    (∀ j, depsOf (xs.foldl (fun acc d => updN acc d
      (fun dn => { dn with reactions := dn.reactions.map (fun l => jsRemove l r) }))
      s) j = depsOf s j) ∧
    (∀ i, reactionsOf (xs.foldl (fun acc d => updN acc d
      (fun dn => { dn with reactions := dn.reactions.map (fun l => jsRemove l r) }))
      s) i = if i ∈ xs then jsRemove (reactionsOf s i) r else reactionsOf s i) := by
  induction xs generalizing s with
  | nil =>
    refine ⟨rfl, fun j => rfl, fun i => ?_⟩
    rw [if_neg (List.not_mem_nil i)]
    rfl
  | cons d rest ih =>
    simp only [List.foldl_cons]
    obtain ⟨hd1, hd2⟩ := List.nodup_cons.mp hnd
    obtain ⟨ihl, ihd, ihr⟩ := ih (updN s d
      (fun dn => { dn with reactions := dn.reactions.map (fun l => jsRemove l r) })) hd2
    refine ⟨ihl.trans (updN_heap_length _ _ _), fun j => ?_, fun i => ?_⟩
    · rw [ihd j]
      unfold depsOf
      rw [lookupN_updN]
      by_cases hdj : d = j
      · subst hdj
        rw [if_pos rfl]
        cases lookupN s d with
        | none => rfl
        | some nd => rfl
      · rw [if_neg hdj]
    · rw [ihr i]
      have hstep : reactionsOf (updN s d
          (fun dn => { dn with reactions := dn.reactions.map (fun l => jsRemove l r) }))
          i = if i = d then jsRemove (reactionsOf s i) r else reactionsOf s i := by
        unfold reactionsOf
        rw [lookupN_updN]
        by_cases hdi : d = i
        · subst hdi
          rw [if_pos rfl, if_pos rfl]
          cases lookupN s d with
          | none =>
            show ([] : List Nat) = jsRemove [] r
            unfold jsRemove
            rw [if_neg (List.not_mem_nil r)]
            rfl
          | some nd =>
            show (nd.reactions.map (fun l => jsRemove l r)).getD [] =
              jsRemove (nd.reactions.getD []) r
            cases nd.reactions with
            | none =>
              show ([] : List Nat) = jsRemove [] r
              unfold jsRemove
              rw [if_neg (List.not_mem_nil r)]
              rfl
            | some l => rfl
        · rw [if_neg hdi, if_neg (fun hh => hdi hh.symm)]
      by_cases hmem : i ∈ rest
      · rw [if_pos hmem, if_pos (List.mem_cons_of_mem d hmem), hstep,
          if_neg (fun hh : i = d => hd1 (hh ▸ hmem))]
      · rw [if_neg hmem, hstep]
        by_cases hid : i = d
        · rw [if_pos hid, if_pos (hid ▸ List.mem_cons_self d rest)]
        · rw [if_neg hid, if_neg ?_]
          intro hh
          rcases List.mem_cons.mp hh with hh | hh
          · exact hid hh
          · exact hmem hh

theorem gPres_removeDepsFrom (s : St) (r : Nat) : GPres s (removeDepsFrom s r) := by
  unfold removeDepsFrom
  split
  · exact gPres_refl s
  · next nd hx =>
    split
    · exact gPres_refl s
    · next xs hxs =>
      intro h
      obtain ⟨hb, hc, hn⟩ := h
      have hrl : r < s.heap.length := lookupN_lt hx
      have hxs_deps : depsOf s r = xs := by
        rw [depsOf_eq hx, hxs]
        rfl
      have hxs_nodup : xs.Nodup := hxs_deps ▸ (hn r hrl).2
      obtain ⟨hl, hdeps, hreac⟩ := unlinkFold_spec r xs s hxs_nodup
      have herase : ∀ i, i < s.heap.length → i ∈ xs →
          jsRemove (reactionsOf s i) r = (reactionsOf s i).erase r := by
        intro i hi hix
        unfold jsRemove
        rw [if_pos ((hc i hi r hrl).mp (hxs_deps ▸ hix))]
      have hxsb : ∀ i ∈ xs, i < s.heap.length :=
        fun i hix => (hb r hrl).2 i (hxs_deps ▸ hix)
      have hre2 : ∀ i, reactionsOf (updN (xs.foldl (fun acc d => updN acc d
          (fun dn => { dn with reactions := dn.reactions.map (fun l => jsRemove l r) }))
          s) r (fun rn => { rn with deps := none })) i =
          if i ∈ xs then jsRemove (reactionsOf s i) r else reactionsOf s i := by
        intro i
        refine Eq.trans ?_ (hreac i)
        unfold reactionsOf
        rw [lookupN_updN]
        by_cases hri : r = i
        · subst hri
          rw [if_pos rfl]
          cases lookupN (xs.foldl (fun acc d => updN acc d
            (fun dn => { dn with reactions := dn.reactions.map (fun l => jsRemove l r) }))
            s) r with
          | none => rfl
          | some y => rfl
        · rw [if_neg hri]
      have hde2 : ∀ j, depsOf (updN (xs.foldl (fun acc d => updN acc d
          (fun dn => { dn with reactions := dn.reactions.map (fun l => jsRemove l r) }))
          s) r (fun rn => { rn with deps := none })) j =
          if j = r then [] else depsOf s j := by
        intro j
        by_cases hjr : j = r
        · rw [if_pos hjr]
          unfold depsOf
          rw [lookupN_updN, if_pos hjr.symm]
          cases lookupN (xs.foldl (fun acc d => updN acc d
            (fun dn => { dn with reactions := dn.reactions.map (fun l => jsRemove l r) }))
            s) r with
          | none => rfl
          | some y => rfl
        · rw [if_neg hjr]
          refine Eq.trans ?_ (hdeps j)
          unfold depsOf
          rw [lookupN_updN, if_neg (fun hh => hjr hh.symm)]
      have hlen2 : (updN (xs.foldl (fun acc d => updN acc d
          (fun dn => { dn with reactions := dn.reactions.map (fun l => jsRemove l r) }))
          s) r (fun rn => { rn with deps := none })).heap.length = s.heap.length :=
        (updN_heap_length _ _ _).trans hl
      refine ⟨?_, ?_, ?_⟩
      · intro i hi
        rw [hlen2] at hi
        rw [hre2 i, hde2 i, hlen2]
        constructor
        · intro j hj
          by_cases hix : i ∈ xs
          · rw [if_pos hix] at hj
            exact (hb i hi).1 j (mem_jsRemove hj)
          · rw [if_neg hix] at hj
            exact (hb i hi).1 j hj
        · intro j hj
          by_cases hir : i = r
          · rw [if_pos hir] at hj
            exact absurd hj (List.not_mem_nil j)
          · rw [if_neg hir] at hj
            exact (hb i hi).2 j hj
      · intro i hi j hj
        rw [hlen2] at hi hj
        rw [hde2 j, hre2 i]
        by_cases hjr : j = r
        · rw [if_pos hjr]
          subst hjr
          refine iff_of_false (List.not_mem_nil i) ?_
          by_cases hix : i ∈ xs
          · rw [if_pos hix, herase i hi hix]
            intro hm
            exact (((hn i hi).1.mem_erase_iff).mp hm).1 rfl
          · rw [if_neg hix]
            intro hm
            exact hix (hxs_deps ▸ (hc i hi j hj).mpr hm)
        · rw [if_neg hjr]
          by_cases hix : i ∈ xs
          · rw [if_pos hix, herase i hi hix,
              List.mem_erase_of_ne (fun hh => hjr hh)]
            exact hc i hi j hj
          · rw [if_neg hix]
            exact hc i hi j hj
      · intro i hi
        rw [hlen2] at hi
        rw [hre2 i, hde2 i]
        constructor
        · by_cases hix : i ∈ xs
          · rw [if_pos hix, herase i hi hix]
            exact (hn i hi).1.erase r
          · rw [if_neg hix]
            exact (hn i hi).1
        · by_cases hir : i = r
          · rw [if_pos hir]
            exact List.nodup_nil
          · rw [if_neg hir]
            exact (hn i hi).2

theorem gPres_depsStep (s : St) (e : Nat) : GPres s (depsStep s e) := by
  unfold depsStep
  split
  · exact gPres_removeDepsFrom s e
  · exact gPres_refl s

theorem gPres_append (s : St) (nd : Node) (ri : Nat)
    (hr : nd.reactions = none) (hd : nd.deps = none) :
    GPres s { s with heap := s.heap ++ [nd], root_index := ri } := by
  intro h
  obtain ⟨hb, hc, hn⟩ := h
  have hre : ∀ k, reactionsOf { s with heap := s.heap ++ [nd], root_index := ri } k =
      if k < s.heap.length then reactionsOf s k else [] := by
    intro k
    unfold reactionsOf lookupN
    by_cases hk : k < s.heap.length
    · rw [if_pos hk]
      show ((s.heap ++ [nd])[k]?.bind _).getD [] = _
      rw [List.getElem?_append, if_pos hk]
    · rw [if_neg hk]
      show ((s.heap ++ [nd])[k]?.bind _).getD [] = []
      rcases Nat.lt_or_ge k (s.heap.length + 1) with hk2 | hk2
      · have hke : k = s.heap.length := by omega
        subst hke
        rw [List.getElem?_append, if_neg (Nat.lt_irrefl _), Nat.sub_self]
        simp [hr]
      · rw [List.getElem?_eq_none (by simp only [List.length_append,
          List.length_cons, List.length_nil]; omega)]
        rfl
  have hde : ∀ k, depsOf { s with heap := s.heap ++ [nd], root_index := ri } k =
      if k < s.heap.length then depsOf s k else [] := by
    intro k
    unfold depsOf lookupN
    by_cases hk : k < s.heap.length
    · rw [if_pos hk]
      show ((s.heap ++ [nd])[k]?.bind _).getD [] = _
      rw [List.getElem?_append, if_pos hk]
    · rw [if_neg hk]
      show ((s.heap ++ [nd])[k]?.bind _).getD [] = []
      rcases Nat.lt_or_ge k (s.heap.length + 1) with hk2 | hk2
      · have hke : k = s.heap.length := by omega
        subst hke
        rw [List.getElem?_append, if_neg (Nat.lt_irrefl _), Nat.sub_self]
        simp [hd]
      · rw [List.getElem?_eq_none (by simp only [List.length_append,
          List.length_cons, List.length_nil]; omega)]
        rfl
  have hlen : ({ s with heap := s.heap ++ [nd], root_index := ri } : St).heap.length =
      s.heap.length + 1 := by
    simp
  refine ⟨?_, ?_, ?_⟩
  · intro i hi
    rw [hre i, hde i, hlen]
    constructor
    · intro j hj
      by_cases hk : i < s.heap.length
      · rw [if_pos hk] at hj
        exact Nat.lt_succ_of_lt ((hb i hk).1 j hj)
      · rw [if_neg hk] at hj
        exact absurd hj (List.not_mem_nil j)
    · intro j hj
      by_cases hk : i < s.heap.length
      · rw [if_pos hk] at hj
        exact Nat.lt_succ_of_lt ((hb i hk).2 j hj)
      · rw [if_neg hk] at hj
        exact absurd hj (List.not_mem_nil j)
  · intro i hi j hj
    rw [hde j, hre i]
    by_cases hik : i < s.heap.length
    · by_cases hjk : j < s.heap.length
      · rw [if_pos hik, if_pos hjk]
        exact hc i hik j hjk
      · rw [if_pos hik, if_neg hjk]
        refine iff_of_false (List.not_mem_nil i) ?_
        intro hm
        exact hjk ((hb i hik).1 j hm)
    · by_cases hjk : j < s.heap.length
      · rw [if_neg hik, if_pos hjk]
        refine iff_of_false ?_ (List.not_mem_nil j)
        intro hm
        exact hik ((hb j hjk).2 i hm)
      · rw [if_neg hik, if_neg hjk]
        exact iff_of_false (List.not_mem_nil i) (List.not_mem_nil j)
  · intro i hi
    rw [hre i, hde i]
    by_cases hk : i < s.heap.length
    · rw [if_pos hk, if_pos hk]
      exact hn i hk
    · rw [if_neg hk, if_neg hk]
      exact ⟨List.nodup_nil, List.nodup_nil⟩
theorem gPres_all : ∀ n : Nat,
    (∀ p s out, evalProg n p s = some out → GPres s out.1) ∧
    (∀ x s out, get n x s = some out → GPres s out.1) ∧
    (∀ x v s out, set n x v s = some out → GPres s out.1) ∧
    (∀ x v s out, setCore n x v s = some out → GPres s out.1) ∧
    (∀ x s out, mark_dirty n x s = some out → GPres s out.1) ∧
    (∀ l s out, runQueuedDeriveds n l s = some out → GPres s out.1) ∧
    (∀ d s out, update_derived n d s = some out → GPres s out.1) ∧
    (∀ d s out, teardownDerivedEffects n d s = some out → GPres s out.1) ∧
    (∀ e s out, teardown_effect n e s = some out → GPres s out.1) ∧
    (∀ c s out, teardownChain n c s = some out → GPres s out.1) ∧
    (∀ b fl s out, create_effect n b fl s = some out → GPres s out.1) := by
  intro n
  induction n with
  | zero =>
    refine ⟨?_, ?_, ?_, ?_, ?_, ?_, ?_, ?_, ?_, ?_, ?_⟩ <;> intros <;> rename_i h <;>
      simp [evalProg, get, set, setCore, mark_dirty,
        runQueuedDeriveds, update_derived, teardownDerivedEffects, teardown_effect,
        teardownChain, create_effect] at h
  | succ n ih =>
    obtain ⟨ihE, ihG, ihS, ihSC, ihM, ihRQ, ihU, ihTDE, ihTE, ihTC, ihCE⟩ := ih
    refine ⟨?_, ?_, ?_, ?_, ?_, ?_, ?_, ?_, ?_, ?_, ?_⟩
    · intro p s out h
      cases p with
      | lit k =>
        simp only [evalProg, Option.some.injEq] at h
        subst h
        exact gPres_refl s
      | nullL =>
        simp only [evalProg, Option.some.injEq] at h
        subst h
        exact gPres_refl s
      | undefL =>
        simp only [evalProg, Option.some.injEq] at h
        subst h
        exact gPres_refl s
      | fnLit b =>
        simp only [evalProg, Option.some.injEq] at h
        subst h
        exact gPres_refl s
      | throwP =>
        simp only [evalProg, Option.some.injEq] at h
        subst h
        exact gPres_refl s
      | seq a b =>
        simp only [evalProg] at h
        split at h
        · exact absurd h (by simp)
        · next heq =>
          simp only [Option.some.injEq] at h
          subst h
          exact ihE a _ _ heq
        · next heq =>
          exact gPres_trans (ihE a _ _ heq) (ihE b _ _ h)
      | ifP c t e =>
        simp only [evalProg] at h
        split at h
        · exact absurd h (by simp)
        · next heq =>
          simp only [Option.some.injEq] at h
          subst h
          exact ihE c _ _ heq
        · next heq =>
          split at h
          · exact gPres_trans (ihE c _ _ heq) (ihE t _ _ h)
          · exact gPres_trans (ihE c _ _ heq) (ihE e _ _ h)
      | getN x =>
        simp only [evalProg] at h
        exact ihG x s out h
      | setN x a =>
        simp only [evalProg] at h
        split at h
        · exact absurd h (by simp)
        · next heq =>
          simp only [Option.some.injEq] at h
          subst h
          exact ihE a _ _ heq
        · next heq =>
          exact gPres_trans (ihE a _ _ heq) (ihS _ _ _ _ h)
      | untrackP b =>
        simp only [evalProg] at h
        split at h
        · exact absurd h (by simp)
        · next s₁ r heq =>
          simp only [Option.some.injEq] at h
          subst h
          exact gPres_trans (gPres_trans
            (gPres_same s { s with tracking := false } rfl)
            (ihE b { s with tracking := false } _ heq))
            (gPres_same _ _ rfl)
      | effectP b =>
        simp only [evalProg] at h
        split at h
        · exact absurd h (by simp)
        · next heq =>
          simp only [Option.some.injEq] at h
          subst h
          exact ihCE b _ _ _ heq
    · intro x s out h
      have hpure := gPres_trackRead s x
      simp only [get] at h
      split at h
      · simp only [Option.some.injEq] at h
        subst h
        exact gPres_refl s
      · split at h
        · simp only [Option.some.injEq] at h
          subst h
          exact hpure
        · split at h
          · simp only [Option.some.injEq] at h
            subst h
            exact hpure
          · split at h
            · split at h
              · split at h
                · exact absurd h (by simp)
                · next heq =>
                  simp only [Option.some.injEq] at h
                  subst h
                  exact gPres_trans hpure (ihU _ _ _ heq)
                · next heq =>
                  simp only [Option.some.injEq] at h
                  subst h
                  refine gPres_trans hpure
                    (gPres_trans (ihU _ _ _ heq) (gPres_updN _ _ _ ?_ ?_)) <;>
                    (intro nd; rfl)
              · simp only [Option.some.injEq] at h
                subst h
                refine gPres_trans hpure (gPres_updN _ _ _ ?_ ?_) <;>
                  (intro nd; rfl)
            · simp only [Option.some.injEq] at h
              subst h
              exact hpure
    · intro x v s out h
      simp only [set] at h
      split at h
      · split at h
        · simp only [Option.some.injEq] at h
          subst h
          exact gPres_refl s
        · split at h
          · simp only [Option.some.injEq] at h
            subst h
            exact gPres_refl s
          · exact ihSC _ _ _ _ h
      · exact ihSC _ _ _ _ h
    · intro x v s out h
      simp only [setCore] at h
      split at h
      · simp only [Option.some.injEq] at h
        subst h
        exact gPres_refl s
      · next nd heq =>
        split at h
        · simp only [Option.some.injEq] at h
          subst h
          exact gPres_refl s
        · have hstep : GPres s
              (match s.active_fork with
                | some m => { s with active_fork := some (assocSet m x v) }
                | none => updN s x (fun y => { y with v := v })) := by
            cases hf : s.active_fork with
            | none => exact gPres_updN _ _ _ (fun _ => rfl) (fun _ => rfl)
            | some m => exact gPres_same _ _ rfl
          split at h
          · exact absurd h (by simp)
          · next heq2 =>
            simp only [Option.some.injEq] at h
            subst h
            refine gPres_trans ?_ (ihM _ _ _ heq2)
            revert hstep
            cases s.active_fork <;> exact fun hstep => hstep
          · next heq2 =>
            simp only [Option.some.injEq] at h
            subst h
            refine gPres_trans ?_ (ihM _ _ _ heq2)
            revert hstep
            cases s.active_fork <;> exact fun hstep => hstep
    · intro x s out h
      simp only [mark_dirty] at h
      split at h
      · simp only [Option.some.injEq] at h
        subst h
        exact gPres_refl s
      · split at h
        · simp only [Option.some.injEq] at h
          subst h
          refine gPres_trans (gPres_updN _ _ _ ?_ ?_)
            (gPres_updN _ _ _ ?_ ?_) <;> (intro nd; rfl)
        · rename_i xs hxs
          split at h
          · exact absurd h (by simp)
          · rename_i s₃ er heq2
            simp only [Option.some.injEq] at h
            subst h
            refine gPres_trans (gPres_updN _ _ _ ?_ ?_)
              (gPres_trans
                (gPres_partitionReactions x xs _ [] [])
                (ihRQ _ _ _ heq2)) <;> (intro nd; rfl)
          · rename_i s₃ u heq2
            simp only [Option.some.injEq] at h
            subst h
            refine gPres_trans (gPres_updN _ _ _ ?_ ?_)
              (gPres_trans
                (gPres_partitionReactions x xs _ [] [])
                (gPres_trans (ihRQ _ _ _ heq2)
                  (gPres_trans (gPres_pushEffects _ _)
                    (gPres_updN _ _ _ ?_ ?_)))) <;> (intro nd; rfl)
    · intro l s out h
      cases l with
      | nil =>
        simp only [runQueuedDeriveds, Option.some.injEq] at h
        subst h
        exact gPres_refl s
      | cons d rest =>
        simp only [runQueuedDeriveds] at h
        split at h
        · exact absurd h (by simp)
        · next heq =>
          simp only [Option.some.injEq] at h
          subst h
          exact ihU _ _ _ heq
        · next heq =>
          split at h
          · split at h
            · exact absurd h (by simp)
            · next heq2 =>
              simp only [Option.some.injEq] at h
              subst h
              exact gPres_trans (ihU _ _ _ heq) (ihM _ _ _ heq2)
            · next heq2 =>
              exact gPres_trans (ihU _ _ _ heq)
                (gPres_trans (ihM _ _ _ heq2) (ihRQ _ _ _ h))
          · exact gPres_trans (ihU _ _ _ heq) (ihRQ _ _ _ h)
    · intro d s out h
      simp only [update_derived] at h
      split at h
      · simp only [Option.some.injEq] at h
        subst h
        exact gPres_refl s
      · split at h
        · exact absurd h (by simp)
        · next heq =>
          simp only [Option.some.injEq] at h
          subst h
          exact ihTDE _ _ _ heq
        · next s₁ u heq =>
          have hrd : GPres s₁ (removeDepsFrom s₁ d) :=
            gPres_removeDepsFrom s₁ d
          split at h
          · simp only [Option.some.injEq] at h
            subst h
            exact gPres_trans (ihTDE _ _ _ heq) hrd
          · next p hfn =>
            split at h
            · exact absurd h (by simp)
            · next s₄ e heq2 =>
              simp only [Option.some.injEq] at h
              subst h
              refine gPres_trans (ihTDE _ _ _ heq) (gPres_trans hrd
                (gPres_trans (gPres_same _ _ ?_)
                  (gPres_trans (ihE p _ _ heq2)
                    (gPres_same _ _ ?_)))) <;> rfl
            · next s₄ nxt heq2 =>
              have hbase : GPres s { s₄ with reaction_stack := s₄.reaction_stack.drop 1 } := by
                refine gPres_trans (ihTDE _ _ _ heq) (gPres_trans hrd
                  (gPres_trans (gPres_same _ _ ?_)
                    (gPres_trans (ihE p _ _ heq2)
                      (gPres_same _ _ ?_)))) <;> rfl
              split at h
              · split at h
                · next m hm =>
                  simp only [Option.some.injEq] at h
                  subst h
                  exact gPres_trans hbase (gPres_same _ _ rfl)
                · next hm =>
                  simp only [Option.some.injEq] at h
                  subst h
                  exact gPres_trans hbase
                    (gPres_updN _ _ _ (fun _ => rfl) (fun _ => rfl))
              · simp only [Option.some.injEq] at h
                subst h
                exact hbase
    · intro d s out h
      simp only [teardownDerivedEffects] at h
      split at h
      · simp only [Option.some.injEq] at h
        subst h
        exact gPres_refl s
      · split at h
        · simp only [Option.some.injEq] at h
          subst h
          exact gPres_refl s
        · simp only [Option.some.injEq] at h
          subst h
          refine gPres_updN _ _ _ ?_ ?_ <;> (intro nd; rfl)
        · split at h
          · exact absurd h (by simp)
          · next heq =>
            simp only [Option.some.injEq] at h
            subst h
            refine gPres_trans (gPres_updN _ _ _ ?_ ?_) (ihTE _ _ _ heq) <;>
              (intro nd; rfl)
          · next heq =>
            refine gPres_trans (gPres_updN _ _ _ ?_ ?_)
              (gPres_trans (ihTE _ _ _ heq) (ihTDE _ _ _ h)) <;>
              (intro nd; rfl)
    · intro e s out h
      simp only [teardown_effect] at h
      split at h
      · simp only [Option.some.injEq] at h
        subst h
        exact gPres_refl s
      · split at h
        · exact absurd h (by simp)
        · next heq =>
          simp only [Option.some.injEq] at h
          subst h
          exact ihTC _ _ _ heq
        · next s₁ u heq =>
          have hsteps : GPres s₁ (unlinkStep (depsStep s₁ e) e) :=
            gPres_trans (gPres_depsStep s₁ e)
              (gPres_unlinkStep _ e)
          split at h
          · simp only [Option.some.injEq] at h
            subst h
            exact gPres_trans (ihTC _ _ _ heq) hsteps
          · next td htd =>
            split at h
            · exact absurd h (by simp)
            · next s₅ r heq2 =>
              simp only [Option.some.injEq] at h
              subst h
              refine gPres_trans (ihTC _ _ _ heq) (gPres_trans hsteps
                (gPres_trans (gPres_same _ _ ?_)
                  (gPres_trans (ihE td _ _ heq2)
                    (gPres_same _ _ ?_)))) <;> rfl
    · intro c s out h
      cases c with
      | none =>
        simp only [teardownChain, Option.some.injEq] at h
        subst h
        exact gPres_refl s
      | some cc =>
        simp only [teardownChain] at h
        split at h
        · exact absurd h (by simp)
        · next heq =>
          simp only [Option.some.injEq] at h
          subst h
          exact ihTE _ _ _ heq
        · next heq =>
          exact gPres_trans (ihTE _ _ _ heq) (ihTC _ _ _ h)
    · intro b fl s out h
      simp only [create_effect] at h
      split at h
      · exact absurd h (by simp)
      · next s₃ res heq =>
        simp only [Option.some.injEq] at h
        subst h
        have hpre : GPres s s₃ := by
          refine gPres_trans
            (gPres_append s
              { v := Val.undef, reactions := none, deps := none, f := fl, fn := some b,
                effects := none, teardown := none,
                parent := if fl.disconnected = true then none
                  else (s.reaction_stack.head?).getD none,
                next := none, prev := none, head := none, tail := none,
                root_index := if s.reaction_stack.length > 0 then none
                  else some s.root_index }
              (if s.reaction_stack.length > 0 then s.root_index else s.root_index + 1)
              rfl rfl)
            (gPres_trans (gPres_same _ _ ?_) (ihE b _ _ heq))
          rfl
        have hmid : GPres s₃ (match res with
            | .ok (.fnv bb) => updN { s₃ with reaction_stack := s₃.reaction_stack.drop 1 }
                s.heap.length (fun x => { x with teardown := some bb })
            | _ => { s₃ with reaction_stack := s₃.reaction_stack.drop 1 }) := by
          have hsame : GPres s₃ { s₃ with reaction_stack := s₃.reaction_stack.drop 1 } :=
            gPres_same _ _ rfl
          split
          · refine gPres_trans hsame (gPres_updN _ _ _ ?_ ?_) <;>
              (intro nd; rfl)
          · exact hsame
        refine gPres_trans hpre (gPres_trans ?_
          (gPres_linkReaction _ _ _))
        revert hmid
        cases res with
        | error e => exact fun hmid => hmid
        | ok v =>
          cases v with
          | fnv bb => exact fun hmid => hmid
          | int k => exact fun hmid => hmid
          | vnull => exact fun hmid => hmid
          | undef => exact fun hmid => hmid




theorem gPres_drain : ∀ (n : Nat) (s : St) (out : St × Except Err Unit),
    drain n s = some out → GPres s out.1 := by
  intro n
  induction n with
  | zero =>
    intro s out h
    simp [drain] at h
  | succ n ih =>
    obtain ⟨ihE, ihG, ihS, ihSC, ihM, ihRQ, ihU, ihTDE, ihTE, ihTC, ihCE⟩ := gPres_all n
    intro s out h
    simp only [drain] at h
    split at h
    · simp only [Option.some.injEq] at h
      subst h
      exact gPres_refl s
    · next e rest hq =>
      have hpre : GPres s (updN { s with queue := rest } e
          (fun x => { x with f := { x.f with dirty := false } })) :=
        gPres_trans (gPres_same s { s with queue := rest } rfl)
          (gPres_updN _ _ _ (fun _ => rfl) (fun _ => rfl))
      split at h
      · exact absurd h (by simp)
      · next s₂ er heq =>
        simp only [Option.some.injEq] at h
        subst h
        exact gPres_trans hpre (ihTE _ _ _ heq)
      · next s₂ u heq =>
        have hpre2 : GPres s s₂ := gPres_trans hpre (ihTE _ _ _ heq)
        split at h
        · simp only [Option.some.injEq] at h
          subst h
          exact hpre2
        · next p hfn =>
          split at h
          · exact absurd h (by simp)
          · next s₄ er heq2 =>
            simp only [Option.some.injEq] at h
            subst h
            exact gPres_trans hpre2 (gPres_trans
              (gPres_same s₂ { s₂ with
                reaction_stack := some e :: s₂.reaction_stack,
                trace := s₂.trace ++ [Evt.fnRun e] } rfl)
              (gPres_trans (ihE p _ _ heq2) (gPres_same _ _ rfl)))
          · next s₄ res heq2 =>
            have hpre3 : GPres s { s₄ with reaction_stack := s₄.reaction_stack.drop 1 } :=
              gPres_trans hpre2 (gPres_trans
                (gPres_same s₂ { s₂ with
                  reaction_stack := some e :: s₂.reaction_stack,
                  trace := s₂.trace ++ [Evt.fnRun e] } rfl)
                (gPres_trans (ihE p _ _ heq2) (gPres_same _ _ rfl)))
            have hmid : GPres { s₄ with reaction_stack := s₄.reaction_stack.drop 1 }
                (match res with
                  | .fnv b => updN { s₄ with reaction_stack := s₄.reaction_stack.drop 1 }
                      e (fun x => { x with teardown := some b })
                  | _ => { s₄ with reaction_stack := s₄.reaction_stack.drop 1 }) := by
              split
              · exact gPres_updN _ _ _ (fun _ => rfl) (fun _ => rfl)
              · exact gPres_refl _
            refine gPres_trans hpre3 (gPres_trans ?_ (ih _ _ h))
            revert hmid
            cases res with
            | fnv bb => exact fun hmid => hmid
            | int k => exact fun hmid => hmid
            | vnull => exact fun hmid => hmid
            | undef => exact fun hmid => hmid

theorem gPres_applyLoop (n : Nat) : ∀ (m : List (Nat × Val)) (s : St)
    (out : St × Except Err Unit), applyLoop n m s = some out → GPres s out.1 := by
  intro m
  induction m with
  | nil =>
    intro s out h
    simp only [applyLoop, Option.some.injEq] at h
    subst h
    exact gPres_refl s
  | cons xv rest ih =>
    obtain ⟨x, v⟩ := xv
    intro s out h
    simp only [applyLoop] at h
    split at h
    · exact absurd h (by simp)
    · next s₁ e heq =>
      simp only [Option.some.injEq] at h
      subst h
      exact (gPres_all n).2.2.1 x v s _ heq
    · next s₁ u heq =>
      exact gPres_trans ((gPres_all n).2.2.1 x v s _ heq) (ih _ _ h)

theorem gPres_runFork (n : Nat) (body : Prog) (s : St)
    (out : St × Except Err (List (Nat × Val))) (h : runFork n body s = some out) :
    GPres s out.1 := by
  unfold runFork at h
  split at h
  · exact absurd h (by simp)
  · next s₁ e heq =>
    simp only [Option.some.injEq] at h
    subst h
    exact gPres_trans (gPres_same s { s with active_fork := some [] } rfl)
      ((gPres_all n).1 body _ _ heq)
  · next s₁ m heq =>
    simp only [Option.some.injEq] at h
    subst h
    exact gPres_trans (gPres_trans (gPres_same s { s with active_fork := some [] } rfl)
      ((gPres_all n).1 body _ _ heq)) (gPres_same _ _ rfl)

theorem gPres_forkWith (n : Nat) (m : List (Nat × Val)) (g : Prog) (s : St)
    (out : St × Except Err Val) (h : forkWith n m g s = some out) : GPres s out.1 := by
  unfold forkWith at h
  split at h
  · exact absurd h (by simp)
  · next s₁ r heq =>
    simp only [Option.some.injEq] at h
    subst h
    exact gPres_trans (gPres_trans (gPres_same s { s with active_fork := some m } rfl)
      ((gPres_all n).1 g _ _ heq)) (gPres_same _ _ rfl)

theorem gPres_forkApply (n : Nat) (m : List (Nat × Val)) (s : St)
    (out : St × Except Err Unit) (h : forkApply n m s = some out) : GPres s out.1 := by
  unfold forkApply at h
  split at h
  · exact absurd h (by simp)
  · next s₁ e heq =>
    simp only [Option.some.injEq] at h
    subst h
    exact gPres_trans (gPres_same s { s with applying_fork := some m } rfl)
      (gPres_applyLoop n m _ _ heq)
  · next s₁ u heq =>
    simp only [Option.some.injEq] at h
    subst h
    exact gPres_trans (gPres_trans (gPres_same s { s with applying_fork := some m } rfl)
      (gPres_applyLoop n m _ _ heq)) (gPres_same _ _ rfl)

theorem gPres_runOp (n : Nat) (op : TopOp) (s s' : St) (h : runOp n op s = some s') :
    GPres s s' := by
  cases op with
  | run p =>
    simp only [runOp, Option.map_eq_some'] at h
    obtain ⟨out, heq, hout⟩ := h
    exact hout ▸ (gPres_all n).1 p s out heq
  | newSource v =>
    simp only [runOp, Option.some.injEq] at h
    subst h
    exact gPres_append s _ s.root_index rfl rfl
  | newDerived fnp =>
    simp only [runOp, Option.some.injEq] at h
    subst h
    exact gPres_append s _ s.root_index rfl rfl
  | drainQ =>
    simp only [runOp, Option.map_eq_some'] at h
    obtain ⟨out, heq, hout⟩ := h
    exact hout ▸ gPres_drain n s out heq
  | rootOp body =>
    simp only [runOp, root, Option.map_eq_some'] at h
    obtain ⟨out, heq, hout⟩ := h
    exact hout ▸ (gPres_all n).2.2.2.2.2.2.2.2.2.2 body _ s out heq
  | disposeOp e =>
    simp only [runOp, Option.map_eq_some'] at h
    obtain ⟨out, heq, hout⟩ := h
    exact hout ▸ (gPres_all n).2.2.2.2.2.2.2.2.1 e s out heq
  | forkOp body g applyIt =>
    simp only [runOp] at h
    split at h
    · exact absurd h (by simp)
    · next s₁ e heq =>
      simp only [Option.some.injEq] at h
      subst h
      exact gPres_runFork n body s _ heq
    · next s₁ m heq =>
      have h1 : GPres s s₁ := gPres_runFork n body s _ heq
      split at h
      · next gp =>
        split at h
        · exact absurd h (by simp)
        · next s₂ r heq2 =>
          have h2 : GPres s s₂ := gPres_trans h1 (gPres_forkWith n m gp s₁ _ heq2)
          split at h
          · simp only [Option.map_eq_some'] at h
            obtain ⟨out, heq3, hout⟩ := h
            exact hout ▸ gPres_trans h2 (gPres_forkApply n m s₂ out heq3)
          · simp only [Option.some.injEq] at h
            subst h
            exact h2
      · split at h
        · simp only [Option.map_eq_some'] at h
          obtain ⟨out, heq3, hout⟩ := h
          exact hout ▸ gPres_trans h1 (gPres_forkApply n m s₁ out heq3)
        · simp only [Option.some.injEq] at h
          subst h
          exact h1

theorem gPres_runOps (n : Nat) : ∀ (ops : List TopOp) (s s' : St),
    runOps n ops s = some s' → GPres s s' := by
  intro ops
  induction ops with
  | nil =>
    intro s s' h
    simp only [runOps, Option.some.injEq] at h
    subst h
    exact gPres_refl s
  | cons op rest ih =>
    intro s s' h
    simp only [runOps] at h
    split at h
    · exact absurd h (by simp)
    · next s₁ heq =>
      exact gPres_trans (gPres_runOp n op s s₁ heq) (ih s₁ s' h)

/-- C8: dependency-graph edge consistency.  For every sequence of top-level
runtime operations (program runs — reads, writes, effect creation, untrack,
throws —, source/derived creation, microtask drains, root creation, disposal
and fork interactions), starting from any state satisfying the graph
invariant — in particular from the empty initial heap — the resulting state
again satisfies it: `S ∈ R.deps` iff `R ∈ S.reactions` for all heap nodes,
and each edge list is duplicate-free. -/
theorem c8_edge_consistency :
    (∀ (n : Nat) (ops : List TopOp) (s s' : St), GraphInv s →
      runOps n ops s = some s' → GraphInv s') ∧
    (∀ (n : Nat) (ops : List TopOp) (s' : St),
      runOps n ops { heap := [] } = some s' →
      (∀ i < s'.heap.length, ∀ j < s'.heap.length,
        (i ∈ depsOf s' j ↔ j ∈ reactionsOf s' i)) ∧
      (∀ i < s'.heap.length, (reactionsOf s' i).Nodup ∧ (depsOf s' i).Nodup)) := by
  have hinit : GraphInv { heap := [] } :=
    ⟨fun i hi => absurd hi (by simp), fun i hi => absurd hi (by simp),
      fun i hi => absurd hi (by simp)⟩
  constructor
  · intro n ops s s' hs h
    exact gPres_runOps n ops s s' h hs
  · intro n ops s' h
    have hg := gPres_runOps n ops _ s' h hinit
    exact ⟨hg.2.1, hg.2.2⟩

/-- Witness for C8: source 0 (value 1), derived 1 (`fn = get 0`), then a
top-level read of the derived; the run registers the edge 0 ↔ 1, and the
final state exhibits the bidirectional consistency and nodup properties for
that edge. -/
theorem c8_edge_consistency_witness :
    runOps 10 [.newSource (.int 1), .newDerived (.getN 0), .run (.getN 1)]
      { heap := [] } =
      some { heap := [{ v := .int 1, reactions := some [1] }, { v := .int 1, deps := some [0], f := { derivedF := true }, fn := some (.getN 0) }], trace := [.fnRun 1] } ∧
    (0 ∈ depsOf { heap := [{ v := .int 1, reactions := some [1] }, { v := .int 1, deps := some [0], f := { derivedF := true }, fn := some (.getN 0) }], trace := [.fnRun 1] } 1 ↔
      1 ∈ reactionsOf { heap := [{ v := .int 1, reactions := some [1] }, { v := .int 1, deps := some [0], f := { derivedF := true }, fn := some (.getN 0) }], trace := [.fnRun 1] } 0) ∧
    (reactionsOf { heap := [{ v := .int 1, reactions := some [1] }, { v := .int 1, deps := some [0], f := { derivedF := true }, fn := some (.getN 0) }], trace := [.fnRun 1] } 0).Nodup := by
  have h := c8_edge_consistency.2 10
    [.newSource (.int 1), .newDerived (.getN 0), .run (.getN 1)]
    { heap := [{ v := .int 1, reactions := some [1] }, { v := .int 1, deps := some [0], f := { derivedF := true }, fn := some (.getN 0) }], trace := [.fnRun 1] }
    (by decide)
  exact ⟨by decide, h.1 0 (by decide) 1 (by decide), (h.2 0 (by decide)).1⟩

theorem countFn_append (i : Nat) (tr tr2 : List Evt) :
    countFn i (tr ++ tr2) = countFn i tr + countFn i tr2 :=
  List.count_append _ _ _

theorem countFn_fnRun_self (i : Nat) : countFn i [.fnRun i] = 1 := by
  simp [countFn]

theorem countFn_fnRun_ne {i j : Nat} (h : i ≠ j) : countFn i [.fnRun j] = 0 := by
  simp only [countFn, List.count_singleton]
  simp only [beq_iff_eq, Evt.fnRun.injEq, ite_eq_right_iff]
  exact fun hh => absurd hh.symm h

theorem countFn_td (i j : Nat) : countFn i [.teardownRun j] = 0 := by
  simp [countFn]

theorem derivedOf_eq {s : St} {i : Nat} {nd : Node} (h : lookupN s i = some nd) :
    derivedOf s i = nd.f.derivedF := by
  unfold derivedOf
  rw [h]
  rfl

theorem quietPres_refl (s : St) : QuietPres s s :=
  ⟨Nat.le_refl _, fun _ _ => rfl, fun _ _ _ => rfl⟩

theorem quietPres_trans {a b c : St} (h1 : QuietPres a b) (h2 : QuietPres b c) :
    QuietPres a c := by
  obtain ⟨l1, d1, t1⟩ := h1
  obtain ⟨l2, d2, t2⟩ := h2
  refine ⟨Nat.le_trans l1 l2, ?_, ?_⟩
  · intro i hi
    rw [d2 i (Nat.lt_of_lt_of_le hi l1), d1 i hi]
  · intro i hi hnd
    rw [t2 i (Nat.lt_of_lt_of_le hi l1) (by rw [d1 i hi]; exact hnd), t1 i hi hnd]

theorem quietPres_of_eqs {s s' : St} (hl : s'.heap.length = s.heap.length)
    (hd : ∀ i, derivedOf s' i = derivedOf s i) (ht : s'.trace = s.trace) :
    QuietPres s s' :=
  ⟨Nat.le_of_eq hl.symm, fun i _ => hd i, fun i _ _ => by rw [ht]⟩

theorem derivedOf_updN (s : St) (i : Nat) (g : Node → Node)
    (hf : ∀ nd, ((g nd).f.derivedF) = nd.f.derivedF) (j : Nat) :
    derivedOf (updN s i g) j = derivedOf s j := by
  unfold derivedOf
  rw [lookupN_updN]
  by_cases hij : i = j
  · rw [if_pos hij, hij]
    cases lookupN s j with
    | none => rfl
    | some nd => simp [hf nd]
  · rw [if_neg hij]

theorem quietPres_updN (s : St) (i : Nat) (g : Node → Node)
    (hf : ∀ nd, ((g nd).f.derivedF) = nd.f.derivedF) :
    QuietPres s (updN s i g) :=
  quietPres_of_eqs (updN_heap_length s i g) (derivedOf_updN s i g hf) (updN_trace s i g)

theorem quietPres_same (a b : St) (hh : b.heap = a.heap) (ht : b.trace = a.trace) :
    QuietPres a b := by
  refine quietPres_of_eqs (by rw [hh]) (fun i => ?_) ht
  unfold derivedOf lookupN
  rw [hh]

theorem quietPres_trackRead (s : St) (x : Nat) : QuietPres s (trackRead s x) := by
  unfold trackRead
  split
  · split
    · rename_i r hhead
      split
      · rename_i nd rn hx hr
        split
        · rename_i hg
          exact quietPres_trans
            (quietPres_updN s x (fun y =>
              { y with reactions := some ((y.reactions.getD []) ++ [r]) }) (fun _ => rfl))
            (quietPres_updN _ r (fun y =>
              { y with deps := some ((y.deps.getD []) ++ [x]) }) (fun _ => rfl))
        · exact quietPres_refl s
      · exact quietPres_refl s
    · exact quietPres_refl s
  · exact quietPres_refl s

theorem quietPres_unlinkFold (r : Nat) (xs : List Nat) (s : St) :
    QuietPres s (xs.foldl (fun acc d => updN acc d
      (fun dn => { dn with reactions := dn.reactions.map (fun l => jsRemove l r) }))
      s) := by
  induction xs generalizing s with
  | nil => exact quietPres_refl s
  | cons d rest ih =>
    simp only [List.foldl_cons]
    exact quietPres_trans (quietPres_updN s d (fun dn =>
      { dn with reactions := dn.reactions.map (fun l => jsRemove l r) })
      (fun _ => rfl)) (ih _)

theorem quietPres_removeDepsFrom (s : St) (r : Nat) :
    QuietPres s (removeDepsFrom s r) := by
  unfold removeDepsFrom
  split
  · exact quietPres_refl s
  · split
    · exact quietPres_refl s
    · next xs hxs =>
      exact quietPres_trans (quietPres_unlinkFold r xs s)
        (quietPres_updN _ _ _ (fun _ => rfl))

theorem quietPres_depsStep (s : St) (e : Nat) : QuietPres s (depsStep s e) := by
  unfold depsStep
  split
  · exact quietPres_removeDepsFrom s e
  · exact quietPres_refl s

theorem quietPres_unlinkStep (s : St) (e : Nat) : QuietPres s (unlinkStep s e) := by
  unfold unlinkStep
  split
  · exact quietPres_refl s
  · split
    · exact quietPres_updN _ _ _ (fun _ => rfl)
    · split
      · exact quietPres_updN _ _ _ (fun _ => rfl)
      · split
        · exact quietPres_refl s
        · split
          · exact quietPres_refl s
          · split
            · exact quietPres_updN _ _ _ (fun _ => rfl)
            · exact quietPres_updN _ _ _ (fun _ => rfl)

theorem quietPres_linkReaction (dc : Bool) (id' : Nat) (s : St) :
    QuietPres s (linkReaction dc id' s) := by
  unfold linkReaction
  split
  · exact quietPres_refl s
  · split
    · exact quietPres_refl s
    · split
      · exact quietPres_refl s
      · split
        · exact quietPres_refl s
        · split
          · exact quietPres_refl s
          · split
            · exact quietPres_updN _ _ _ (fun _ => rfl)
            · split
              · exact quietPres_updN _ _ _ (fun _ => rfl)
              · dsimp only
                split
                · refine quietPres_trans ?_ (quietPres_updN _ _ _ ?_)
                  · refine quietPres_trans ?_ (quietPres_updN _ _ _ ?_)
                    · exact quietPres_updN _ _ _ (fun _ => rfl)
                    · intro nd; rfl
                  · intro nd; rfl
                · refine quietPres_trans ?_ (quietPres_updN _ _ _ ?_)
                  · exact quietPres_updN _ _ _ (fun _ => rfl)
                  · intro nd; rfl

theorem quietPres_partitionReactions (src : Nat) (rs : List Nat) (s : St)
    (qd tc : List Nat) : QuietPres s (partitionReactions src rs s qd tc).1 := by
  induction rs generalizing s qd tc with
  | nil => exact quietPres_refl s
  | cons r rest ih =>
    unfold partitionReactions
    split
    · exact ih s qd tc
    · next rn hrn =>
      split
      · split
        · exact ih s qd tc
        · split
          · exact ih s _ tc
          · exact quietPres_trans
              (quietPres_updN s r (fun x => { x with f := { x.f with maybeDirty := true } })
                (fun _ => rfl)) (ih _ qd tc)
      · split
        · split
          · exact ih s qd tc
          · exact ih s qd _
        · exact ih s qd tc

theorem quietPres_pushEffects (l : List Nat) (s : St) :
    QuietPres s (pushEffects l s) := by
  induction l generalizing s with
  | nil => exact quietPres_refl s
  | cons e rest ih =>
    unfold pushEffects
    split
    · exact ih s
    · split
      · exact ih s
      · refine quietPres_trans ?_ (ih _)
        refine quietPres_trans
          (quietPres_updN s e (fun x => { x with f := { x.f with dirty := true } })
            (fun _ => rfl)) ?_
        exact quietPres_same _ _ rfl rfl

theorem partition_qd_spec (src : Nat) (rs : List Nat) : ∀ (s : St) (qd tc : List Nat),
    ∀ e ∈ (partitionReactions src rs s qd tc).2.1,
      e ∈ qd ∨ (e < s.heap.length ∧ derivedOf s e = true) := by
  induction rs with
  | nil =>
    intro s qd tc e he
    exact Or.inl he
  | cons r rest ih =>
    intro s qd tc e he
    unfold partitionReactions at he
    split at he
    · exact ih s qd tc e he
    · next rn hrn =>
      split at he
      · rename_i hdf
        split at he
        · exact ih s qd tc e he
        · split at he
          · rcases ih s _ tc e he with hi | hi
            · rcases List.mem_append.mp hi with hi | hi
              · exact Or.inl hi
              · simp only [List.mem_singleton] at hi
                subst hi
                exact Or.inr ⟨lookupN_lt hrn, by rw [derivedOf_eq hrn]; exact hdf⟩
            · exact Or.inr hi
          · rcases ih _ qd tc e he with hi | hi
            · exact Or.inl hi
            · refine Or.inr ⟨?_, ?_⟩
              · rw [← updN_heap_length s r (fun x =>
                  { x with f := { x.f with maybeDirty := true } })]
                exact hi.1
              · rw [← derivedOf_updN s r (fun x =>
                  { x with f := { x.f with maybeDirty := true } }) (fun _ => rfl) e]
                exact hi.2
      · split at he
        · split at he
          · exact ih s qd tc e he
          · exact ih s qd _ e he
        · exact ih s qd tc e he

theorem quietPres_trace_td (t : St) (st2 : List (Option Nat)) (e : Nat) :
    QuietPres t { t with reaction_stack := st2, trace := t.trace ++ [.teardownRun e] } := by
  refine ⟨Nat.le_refl _, fun i hi => rfl, fun i hi hnd => ?_⟩
  show countFn i (t.trace ++ [.teardownRun e]) = countFn i t.trace
  rw [countFn_append, countFn_td, Nat.add_zero]

theorem quietPres_effect_pre (s : St) (node : Node) (ri : Nat) :
    QuietPres s { s with heap := s.heap ++ [node], root_index := ri, reaction_stack := some s.heap.length :: s.reaction_stack, trace := s.trace ++ [.fnRun s.heap.length] } := by
  refine ⟨by simp, fun i hi => ?_, fun i hi hnd => ?_⟩
  · unfold derivedOf lookupN
    show ((s.heap ++ [node])[i]?.map _).getD false = _
    rw [List.getElem?_append, if_pos hi]
  · show countFn i (s.trace ++ [.fnRun s.heap.length]) = countFn i s.trace
    rw [countFn_append, countFn_fnRun_ne (Nat.ne_of_lt hi), Nat.add_zero]

theorem quietPres_all : ∀ n : Nat,
    (∀ p s out, evalProg n p s = some out → QuietPres s out.1) ∧
    (∀ x s out, get n x s = some out → QuietPres s out.1) ∧
    (∀ x v s out, set n x v s = some out → QuietPres s out.1) ∧
    (∀ x v s out, setCore n x v s = some out → QuietPres s out.1) ∧
    (∀ x s out, mark_dirty n x s = some out → QuietPres s out.1) ∧
    (∀ l s out, runQueuedDeriveds n l s = some out →
      (∀ e ∈ l, e < s.heap.length ∧ derivedOf s e = true) → QuietPres s out.1) ∧
    (∀ d s out, update_derived n d s = some out → derivedOf s d = true →
      QuietPres s out.1) ∧
    (∀ d s out, teardownDerivedEffects n d s = some out → QuietPres s out.1) ∧
    (∀ e s out, teardown_effect n e s = some out → QuietPres s out.1) ∧
    (∀ c s out, teardownChain n c s = some out → QuietPres s out.1) ∧
    (∀ b fl s out, create_effect n b fl s = some out → QuietPres s out.1) := by
  intro n
  induction n with
  | zero =>
    refine ⟨?_, ?_, ?_, ?_, ?_, ?_, ?_, ?_, ?_, ?_, ?_⟩
    · intro p s out h; simp [evalProg] at h
    · intro x s out h; simp [get] at h
    · intro x v s out h; simp [set] at h
    · intro x v s out h; simp [setCore] at h
    · intro x s out h; simp [mark_dirty] at h
    · intro l s out h hl; simp [runQueuedDeriveds] at h
    · intro d s out h hd; simp [update_derived] at h
    · intro d s out h; simp [teardownDerivedEffects] at h
    · intro e s out h; simp [teardown_effect] at h
    · intro c s out h; simp [teardownChain] at h
    · intro b fl s out h; simp [create_effect] at h
  | succ n ih =>
    obtain ⟨ihE, ihG, ihS, ihSC, ihM, ihRQ, ihU, ihTDE, ihTE, ihTC, ihCE⟩ := ih
    refine ⟨?_, ?_, ?_, ?_, ?_, ?_, ?_, ?_, ?_, ?_, ?_⟩
    · intro p s out h
      cases p with
      | lit k =>
        simp only [evalProg, Option.some.injEq] at h
        subst h
        exact quietPres_refl s
      | nullL =>
        simp only [evalProg, Option.some.injEq] at h
        subst h
        exact quietPres_refl s
      | undefL =>
        simp only [evalProg, Option.some.injEq] at h
        subst h
        exact quietPres_refl s
      | fnLit b =>
        simp only [evalProg, Option.some.injEq] at h
        subst h
        exact quietPres_refl s
      | throwP =>
        simp only [evalProg, Option.some.injEq] at h
        subst h
        exact quietPres_refl s
      | seq a b =>
        simp only [evalProg] at h
        split at h
        · exact absurd h (by simp)
        · next heq =>
          simp only [Option.some.injEq] at h
          subst h
          exact ihE a _ _ heq
        · next heq =>
          exact quietPres_trans (ihE a _ _ heq) (ihE b _ _ h)
      | ifP c t e =>
        simp only [evalProg] at h
        split at h
        · exact absurd h (by simp)
        · next heq =>
          simp only [Option.some.injEq] at h
          subst h
          exact ihE c _ _ heq
        · next heq =>
          split at h
          · exact quietPres_trans (ihE c _ _ heq) (ihE t _ _ h)
          · exact quietPres_trans (ihE c _ _ heq) (ihE e _ _ h)
      | getN x =>
        simp only [evalProg] at h
        exact ihG x s out h
      | setN x a =>
        simp only [evalProg] at h
        split at h
        · exact absurd h (by simp)
        · next heq =>
          simp only [Option.some.injEq] at h
          subst h
          exact ihE a _ _ heq
        · next heq =>
          exact quietPres_trans (ihE a _ _ heq) (ihS _ _ _ _ h)
      | untrackP b =>
        simp only [evalProg] at h
        split at h
        · exact absurd h (by simp)
        · next s₁ r heq =>
          simp only [Option.some.injEq] at h
          subst h
          exact quietPres_trans (quietPres_trans
            (quietPres_same s { s with tracking := false } rfl rfl)
            (ihE b { s with tracking := false } _ heq))
            (quietPres_same _ _ rfl rfl)
      | effectP b =>
        simp only [evalProg] at h
        split at h
        · exact absurd h (by simp)
        · next heq =>
          simp only [Option.some.injEq] at h
          subst h
          exact ihCE b _ _ _ heq
    · intro x s out h
      have hpure := quietPres_trackRead s x
      simp only [get] at h
      split at h
      · simp only [Option.some.injEq] at h
        subst h
        exact quietPres_refl s
      · split at h
        · simp only [Option.some.injEq] at h
          subst h
          exact hpure
        · rename_i nd heq1
          split at h
          · simp only [Option.some.injEq] at h
            subst h
            exact hpure
          · split at h
            · rename_i hdf
              split at h
              · split at h
                · exact absurd h (by simp)
                · next heq =>
                  simp only [Option.some.injEq] at h
                  subst h
                  exact quietPres_trans hpure (ihU _ _ _ heq
                    (by rw [derivedOf_eq heq1]; exact hdf))
                · next heq =>
                  simp only [Option.some.injEq] at h
                  subst h
                  refine quietPres_trans hpure
                    (quietPres_trans (ihU _ _ _ heq
                      (by rw [derivedOf_eq heq1]; exact hdf))
                      (quietPres_updN _ _ _ ?_))
                  intro y; rfl
              · simp only [Option.some.injEq] at h
                subst h
                refine quietPres_trans hpure (quietPres_updN _ _ _ ?_)
                intro y; rfl
            · simp only [Option.some.injEq] at h
              subst h
              exact hpure
    · intro x v s out h
      simp only [set] at h
      split at h
      · split at h
        · simp only [Option.some.injEq] at h
          subst h
          exact quietPres_refl s
        · split at h
          · simp only [Option.some.injEq] at h
            subst h
            exact quietPres_refl s
          · exact ihSC _ _ _ _ h
      · exact ihSC _ _ _ _ h
    · intro x v s out h
      simp only [setCore] at h
      split at h
      · simp only [Option.some.injEq] at h
        subst h
        exact quietPres_refl s
      · next nd heq =>
        split at h
        · simp only [Option.some.injEq] at h
          subst h
          exact quietPres_refl s
        · have hstep : QuietPres s
              (match s.active_fork with
                | some m => { s with active_fork := some (assocSet m x v) }
                | none => updN s x (fun y => { y with v := v })) := by
            cases hf : s.active_fork with
            | none => exact quietPres_updN _ _ _ (fun _ => rfl)
            | some m => exact quietPres_same _ _ rfl rfl
          split at h
          · exact absurd h (by simp)
          · next heq2 =>
            simp only [Option.some.injEq] at h
            subst h
            refine quietPres_trans ?_ (ihM _ _ _ heq2)
            revert hstep
            cases s.active_fork <;> exact fun hstep => hstep
          · next heq2 =>
            simp only [Option.some.injEq] at h
            subst h
            refine quietPres_trans ?_ (ihM _ _ _ heq2)
            revert hstep
            cases s.active_fork <;> exact fun hstep => hstep
    · intro x s out h
      simp only [mark_dirty] at h
      split at h
      · simp only [Option.some.injEq] at h
        subst h
        exact quietPres_refl s
      · split at h
        · simp only [Option.some.injEq] at h
          subst h
          refine quietPres_trans (quietPres_updN _ _ _ ?_)
            (quietPres_updN _ _ _ ?_) <;> (intro y; rfl)
        · rename_i xs hxs
          have hqd : ∀ e ∈ (partitionReactions x xs
              (updN s x (fun y => { y with f := { y.f with dirty := true } })) [] []).2.1,
              e < (partitionReactions x xs
                (updN s x (fun y => { y with f := { y.f with dirty := true } })) [] []).1.heap.length ∧
              derivedOf (partitionReactions x xs
                (updN s x (fun y => { y with f := { y.f with dirty := true } })) [] []).1 e = true := by
            intro e he
            rcases partition_qd_spec x xs
              (updN s x (fun y => { y with f := { y.f with dirty := true } })) [] [] e he with hi | hi
            · exact absurd hi (List.not_mem_nil e)
            · have hlen := (purePres_partitionReactions x xs
                (updN s x (fun y => { y with f := { y.f with dirty := true } })) [] []).1
              have hder := (quietPres_partitionReactions x xs
                (updN s x (fun y => { y with f := { y.f with dirty := true } })) [] []).2.1 e hi.1
              exact ⟨by rw [hlen]; exact hi.1, by rw [hder]; exact hi.2⟩
          split at h
          · exact absurd h (by simp)
          · rename_i s₃ er heq2
            simp only [Option.some.injEq] at h
            subst h
            refine quietPres_trans (quietPres_updN _ _ _ ?_)
              (quietPres_trans
                (quietPres_partitionReactions x xs _ [] [])
                (ihRQ _ _ _ heq2 hqd))
            intro y; rfl
          · rename_i s₃ u heq2
            simp only [Option.some.injEq] at h
            subst h
            refine quietPres_trans (quietPres_updN _ _ _ ?_)
              (quietPres_trans
                (quietPres_partitionReactions x xs _ [] [])
                (quietPres_trans (ihRQ _ _ _ heq2 hqd)
                  (quietPres_trans (quietPres_pushEffects _ _)
                    (quietPres_updN _ _ _ ?_)))) <;> (intro y; rfl)
    · intro l s out h hl
      cases l with
      | nil =>
        simp only [runQueuedDeriveds, Option.some.injEq] at h
        subst h
        exact quietPres_refl s
      | cons d rest =>
        simp only [runQueuedDeriveds] at h
        split at h
        · exact absurd h (by simp)
        · next heq =>
          simp only [Option.some.injEq] at h
          subst h
          exact ihU _ _ _ heq (hl d (List.mem_cons_self d rest)).2
        · next s₁ changed heq =>
          have hq1 : QuietPres s s₁ :=
            ihU _ _ _ heq (hl d (List.mem_cons_self d rest)).2
          split at h
          · split at h
            · exact absurd h (by simp)
            · next heq2 =>
              simp only [Option.some.injEq] at h
              subst h
              exact quietPres_trans hq1 (ihM _ _ _ heq2)
            · next s₂ u heq2 =>
              have hq2 : QuietPres s s₂ := quietPres_trans hq1 (ihM _ _ _ heq2)
              refine quietPres_trans hq2 (ihRQ _ _ _ h ?_)
              intro e he
              have he2 := hl e (List.mem_cons_of_mem d he)
              exact ⟨Nat.lt_of_lt_of_le he2.1 hq2.1, by rw [hq2.2.1 e he2.1]; exact he2.2⟩
          · refine quietPres_trans hq1 (ihRQ _ _ _ h ?_)
            intro e he
            have he2 := hl e (List.mem_cons_of_mem d he)
            exact ⟨Nat.lt_of_lt_of_le he2.1 hq1.1, by rw [hq1.2.1 e he2.1]; exact he2.2⟩
    · intro d s out h hdd
      simp only [update_derived] at h
      split at h
      · simp only [Option.some.injEq] at h
        subst h
        exact quietPres_refl s
      · rename_i nd0 heq0
        split at h
        · exact absurd h (by simp)
        · next heq =>
          simp only [Option.some.injEq] at h
          subst h
          exact ihTDE _ _ _ heq
        · next s₁ u heq =>
          have hq2 : QuietPres s (removeDepsFrom s₁ d) :=
            quietPres_trans (ihTDE _ _ _ heq) (quietPres_removeDepsFrom s₁ d)
          split at h
          · simp only [Option.some.injEq] at h
            subst h
            exact hq2
          · next p hfn =>
            have hq3 : QuietPres s { removeDepsFrom s₁ d with
                reaction_stack := some d :: (removeDepsFrom s₁ d).reaction_stack,
                trace := (removeDepsFrom s₁ d).trace ++ [.fnRun d] } := by
              obtain ⟨l2, d2, t2⟩ := hq2
              refine ⟨l2, fun i hi => d2 i hi, fun i hi hnd => ?_⟩
              show countFn i ((removeDepsFrom s₁ d).trace ++ [.fnRun d]) = countFn i s.trace
              rw [countFn_append, countFn_fnRun_ne ?_, Nat.add_zero]
              · exact t2 i hi hnd
              · intro hid
                rw [hid] at hnd
                rw [hnd] at hdd
                exact Bool.noConfusion hdd
            split at h
            · exact absurd h (by simp)
            · next s₄ er heq2 =>
              simp only [Option.some.injEq] at h
              subst h
              exact quietPres_trans hq3
                (quietPres_trans (ihE p _ _ heq2) (quietPres_same _ _ rfl rfl))
            · next s₄ nxt heq2 =>
              have hbase : QuietPres s { s₄ with reaction_stack := s₄.reaction_stack.drop 1 } :=
                quietPres_trans hq3
                  (quietPres_trans (ihE p _ _ heq2) (quietPres_same _ _ rfl rfl))
              split at h
              · split at h
                · next m hm =>
                  simp only [Option.some.injEq] at h
                  subst h
                  exact quietPres_trans hbase (quietPres_same _ _ rfl rfl)
                · next hm =>
                  simp only [Option.some.injEq] at h
                  subst h
                  exact quietPres_trans hbase
                    (quietPres_updN _ _ _ (fun _ => rfl))
              · simp only [Option.some.injEq] at h
                subst h
                exact hbase
    · intro d s out h
      simp only [teardownDerivedEffects] at h
      split at h
      · simp only [Option.some.injEq] at h
        subst h
        exact quietPres_refl s
      · split at h
        · simp only [Option.some.injEq] at h
          subst h
          exact quietPres_refl s
        · simp only [Option.some.injEq] at h
          subst h
          refine quietPres_updN _ _ _ ?_
          intro y; rfl
        · split at h
          · exact absurd h (by simp)
          · next heq =>
            simp only [Option.some.injEq] at h
            subst h
            refine quietPres_trans (quietPres_updN _ _ _ ?_) (ihTE _ _ _ heq)
            intro y; rfl
          · next heq =>
            refine quietPres_trans (quietPres_updN _ _ _ ?_)
              (quietPres_trans (ihTE _ _ _ heq) (ihTDE _ _ _ h))
            intro y; rfl
    · intro e s out h
      simp only [teardown_effect] at h
      split at h
      · simp only [Option.some.injEq] at h
        subst h
        exact quietPres_refl s
      · split at h
        · exact absurd h (by simp)
        · next heq =>
          simp only [Option.some.injEq] at h
          subst h
          exact ihTC _ _ _ heq
        · next s₁ u heq =>
          have hsteps : QuietPres s₁ (unlinkStep (depsStep s₁ e) e) :=
            quietPres_trans (quietPres_depsStep s₁ e) (quietPres_unlinkStep _ e)
          split at h
          · simp only [Option.some.injEq] at h
            subst h
            exact quietPres_trans (ihTC _ _ _ heq) hsteps
          · next td htd =>
            split at h
            · exact absurd h (by simp)
            · next s₅ r heq2 =>
              simp only [Option.some.injEq] at h
              subst h
              exact quietPres_trans (ihTC _ _ _ heq) (quietPres_trans hsteps
                (quietPres_trans (quietPres_trace_td _ _ e)
                  (quietPres_trans (ihE td _ _ heq2) (quietPres_same _ _ rfl rfl))))
    · intro c s out h
      cases c with
      | none =>
        simp only [teardownChain, Option.some.injEq] at h
        subst h
        exact quietPres_refl s
      | some cc =>
        simp only [teardownChain] at h
        split at h
        · exact absurd h (by simp)
        · next heq =>
          simp only [Option.some.injEq] at h
          subst h
          exact ihTE _ _ _ heq
        · next heq =>
          exact quietPres_trans (ihTE _ _ _ heq) (ihTC _ _ _ h)
    · intro b fl s out h
      simp only [create_effect] at h
      split at h
      · exact absurd h (by simp)
      · next s₃ res heq =>
        simp only [Option.some.injEq] at h
        subst h
        have hpre : QuietPres s s₃ :=
          quietPres_trans
            (quietPres_effect_pre s
              { f := fl, fn := some b,
                parent := if fl.disconnected = true then none
                  else (s.reaction_stack.head?).getD none,
                root_index := if s.reaction_stack.length > 0 then none
                  else some s.root_index }
              (if s.reaction_stack.length > 0 then s.root_index else s.root_index + 1))
            (ihE b _ _ heq)
        have hmid : QuietPres s₃ (match res with
            | .ok (.fnv bb) => updN { s₃ with reaction_stack := s₃.reaction_stack.drop 1 }
                s.heap.length (fun x => { x with teardown := some bb })
            | _ => { s₃ with reaction_stack := s₃.reaction_stack.drop 1 }) := by
          have hsame : QuietPres s₃ { s₃ with reaction_stack := s₃.reaction_stack.drop 1 } :=
            quietPres_same _ _ rfl rfl
          split
          · exact quietPres_trans hsame (quietPres_updN _ _ _ (fun _ => rfl))
          · exact hsame
        refine quietPres_trans hpre (quietPres_trans ?_
          (quietPres_linkReaction _ _ _))
        revert hmid
        cases res with
        | error e => exact fun hmid => hmid
        | ok v =>
          cases v with
          | fnv bb => exact fun hmid => hmid
          | int k => exact fun hmid => hmid
          | vnull => exact fun hmid => hmid
          | undef => exact fun hmid => hmid

theorem setFreePres_refl (s : St) : SetFreePres s s := fun h => ⟨h, rfl⟩

theorem setFreePres_trans {a b c : St} (h1 : SetFreePres a b) (h2 : SetFreePres b c) :
    SetFreePres a c := by
  intro hsf
  obtain ⟨hb, hq⟩ := h1 hsf
  obtain ⟨hc, hq2⟩ := h2 hb
  exact ⟨hc, hq2.trans hq⟩

theorem heapSetFree_same {t u : St} (hh : t.heap = u.heap)
    (hf : t.active_fork = u.active_fork) (h : HeapSetFree u) : HeapSetFree t := by
  obtain ⟨h1, h2⟩ := h
  refine ⟨?_, ?_⟩
  · rw [hh]
    exact h1
  · rw [hf]
    exact h2

theorem setFreePres_same (a b : St) (hh : b.heap = a.heap)
    (hf : b.active_fork = a.active_fork) (hq : b.queue = a.queue) :
    SetFreePres a b := by
  intro hsf
  exact ⟨heapSetFree_same hh hf hsf, hq⟩

theorem heapSetFree_updN (s : St) (i : Nat) (g : Node → Node)
    (hpres : ∀ nd, NodeSetFree nd → NodeSetFree (g nd)) (hsf : HeapSetFree s) :
    HeapSetFree (updN s i g) := by
  obtain ⟨h1, h2⟩ := hsf
  unfold updN
  split
  · exact ⟨h1, h2⟩
  · next nd hnd =>
    refine ⟨?_, h2⟩
    intro y hy
    rcases List.mem_or_eq_of_mem_set hy with hy | hy
    · exact h1 y hy
    · subst hy
      refine hpres nd (h1 nd ?_)
      rcases List.getElem?_eq_some.mp hnd with ⟨hlt, hgeq⟩
      exact hgeq ▸ List.getElem_mem hlt

theorem setFreePres_updN (s : St) (i : Nat) (g : Node → Node)
    (hpres : ∀ nd, NodeSetFree nd → NodeSetFree (g nd)) :
    SetFreePres s (updN s i g) :=
  fun hsf => ⟨heapSetFree_updN s i g hpres hsf, updN_queue s i g⟩

theorem nodeSetFree_keep {g : Node → Node}
    (hfn : ∀ nd, (g nd).fn = nd.fn) (htd : ∀ nd, (g nd).teardown = nd.teardown)
    (hv : ∀ nd, (g nd).v = nd.v) :
    ∀ nd, NodeSetFree nd → NodeSetFree (g nd) := by
  intro nd h
  obtain ⟨h1, h2, h3⟩ := h
  refine ⟨?_, ?_, ?_⟩
  · intro p hp
    rw [hfn nd] at hp
    exact h1 p hp
  · intro p hp
    rw [htd nd] at hp
    exact h2 p hp
  · rw [hv nd]
    exact h3

theorem setFreePres_trackRead (s : St) (x : Nat) : SetFreePres s (trackRead s x) := by
  unfold trackRead
  split
  · split
    · rename_i r hhead
      split
      · rename_i nd rn hx hr
        split
        · rename_i hg
          exact setFreePres_trans
            (setFreePres_updN s x (fun y =>
              { y with reactions := some ((y.reactions.getD []) ++ [r]) })
              (nodeSetFree_keep (fun _ => rfl) (fun _ => rfl) (fun _ => rfl)))
            (setFreePres_updN _ r (fun y =>
              { y with deps := some ((y.deps.getD []) ++ [x]) })
              (nodeSetFree_keep (fun _ => rfl) (fun _ => rfl) (fun _ => rfl)))
        · exact setFreePres_refl s
      · exact setFreePres_refl s
    · exact setFreePres_refl s
  · exact setFreePres_refl s

theorem setFreePres_unlinkFold (r : Nat) (xs : List Nat) (s : St) :
    SetFreePres s (xs.foldl (fun acc d => updN acc d
      (fun dn => { dn with reactions := dn.reactions.map (fun l => jsRemove l r) }))
      s) := by
  induction xs generalizing s with
  | nil => exact setFreePres_refl s
  | cons d rest ih =>
    simp only [List.foldl_cons]
    exact setFreePres_trans (setFreePres_updN s d (fun dn =>
      { dn with reactions := dn.reactions.map (fun l => jsRemove l r) })
      (nodeSetFree_keep (fun _ => rfl) (fun _ => rfl) (fun _ => rfl))) (ih _)

theorem setFreePres_removeDepsFrom (s : St) (r : Nat) :
    SetFreePres s (removeDepsFrom s r) := by
  unfold removeDepsFrom
  split
  · exact setFreePres_refl s
  · split
    · exact setFreePres_refl s
    · next xs hxs =>
      exact setFreePres_trans (setFreePres_unlinkFold r xs s) (setFreePres_updN _ _ _
        (nodeSetFree_keep (fun _ => rfl) (fun _ => rfl) (fun _ => rfl)))

theorem setFreePres_depsStep (s : St) (e : Nat) : SetFreePres s (depsStep s e) := by
  unfold depsStep
  split
  · exact setFreePres_removeDepsFrom s e
  · exact setFreePres_refl s

theorem setFreePres_unlinkStep (s : St) (e : Nat) : SetFreePres s (unlinkStep s e) := by
  unfold unlinkStep
  split
  · exact setFreePres_refl s
  · split
    · exact setFreePres_updN _ _ _
        (nodeSetFree_keep (fun _ => rfl) (fun _ => rfl) (fun _ => rfl))
    · split
      · exact setFreePres_updN _ _ _
          (nodeSetFree_keep (fun _ => rfl) (fun _ => rfl) (fun _ => rfl))
      · split
        · exact setFreePres_refl s
        · split
          · exact setFreePres_refl s
          · split
            · exact setFreePres_updN _ _ _
                (nodeSetFree_keep (fun _ => rfl) (fun _ => rfl) (fun _ => rfl))
            · exact setFreePres_updN _ _ _
                (nodeSetFree_keep (fun _ => rfl) (fun _ => rfl) (fun _ => rfl))

theorem setFreePres_linkReaction (dc : Bool) (id' : Nat) (s : St) :
    SetFreePres s (linkReaction dc id' s) := by
  unfold linkReaction
  split
  · exact setFreePres_refl s
  · split
    · exact setFreePres_refl s
    · split
      · exact setFreePres_refl s
      · split
        · exact setFreePres_refl s
        · split
          · exact setFreePres_refl s
          · split
            · exact setFreePres_updN _ _ _
                (nodeSetFree_keep (fun _ => rfl) (fun _ => rfl) (fun _ => rfl))
            · split
              · exact setFreePres_updN _ _ _
                  (nodeSetFree_keep (fun _ => rfl) (fun _ => rfl) (fun _ => rfl))
              · dsimp only
                split
                · refine setFreePres_trans ?_ (setFreePres_updN _ _ _
                    (nodeSetFree_keep (fun _ => rfl) (fun _ => rfl) (fun _ => rfl)))
                  refine setFreePres_trans ?_ (setFreePres_updN _ _ _
                    (nodeSetFree_keep (fun _ => rfl) (fun _ => rfl) (fun _ => rfl)))
                  exact setFreePres_updN _ _ _
                    (nodeSetFree_keep (fun _ => rfl) (fun _ => rfl) (fun _ => rfl))
                · refine setFreePres_trans ?_ (setFreePres_updN _ _ _
                    (nodeSetFree_keep (fun _ => rfl) (fun _ => rfl) (fun _ => rfl)))
                  exact setFreePres_updN _ _ _
                    (nodeSetFree_keep (fun _ => rfl) (fun _ => rfl) (fun _ => rfl))

theorem setFreePres_append (s : St) (node : Node) (ri : Nat)
    (hnd : NodeSetFree node) :
    SetFreePres s { s with heap := s.heap ++ [node], root_index := ri } := by
  intro hsf
  obtain ⟨h1, h2⟩ := hsf
  refine ⟨⟨?_, h2⟩, rfl⟩
  intro y hy
  rcases List.mem_append.mp hy with hy | hy
  · exact h1 y hy
  · simp only [List.mem_singleton] at hy
    subst hy
    exact hnd

theorem assocSet_setFree {m : List (Nat × Val)} {k : Nat} {v : Val}
    (hm : ∀ p ∈ m, ValSetFree p.2 = true) (hv : ValSetFree v = true) :
    ∀ p ∈ assocSet m k v, ValSetFree p.2 = true := by
  intro p hp
  unfold assocSet at hp
  split at hp
  · rcases List.mem_map.mp hp with ⟨q, hq, hqe⟩
    by_cases hk : q.1 = k
    · rw [if_pos hk] at hqe
      rw [← hqe]
      exact hv
    · rw [if_neg hk] at hqe
      rw [← hqe]
      exact hm q hq
  · rcases List.mem_append.mp hp with hp | hp
    · exact hm p hp
    · simp only [List.mem_singleton] at hp
      subst hp
      exact hv

theorem mem_of_lookupN {t : St} {i : Nat} {y : Node} (hl : lookupN t i = some y) :
    y ∈ t.heap := by
  unfold lookupN at hl
  rcases List.getElem?_eq_some.mp hl with ⟨hlt, hgeq⟩
  exact hgeq ▸ List.getElem_mem hlt

theorem heapSetFree_val {t : St} (hsf : HeapSetFree t) (i : Nat) :
    ValSetFree (((lookupN t i).map (·.v)).getD .undef) = true := by
  cases hl : lookupN t i with
  | none => rfl
  | some y => exact (hsf.1 y (mem_of_lookupN hl)).2.2

theorem setFreePres_all : ∀ n : Nat,
    (∀ p s out, evalProg n p s = some out → SetFree p = true →
      SetFreePres s out.1 ∧
      (HeapSetFree s → ∀ v, out.2 = .ok v → ValSetFree v = true)) ∧
    (∀ x s out, get n x s = some out →
      SetFreePres s out.1 ∧
      (HeapSetFree s → ∀ v, out.2 = .ok v → ValSetFree v = true)) ∧
    (∀ d s out, update_derived n d s = some out → SetFreePres s out.1) ∧
    (∀ d s out, teardownDerivedEffects n d s = some out → SetFreePres s out.1) ∧
    (∀ e s out, teardown_effect n e s = some out → SetFreePres s out.1) ∧
    (∀ c s out, teardownChain n c s = some out → SetFreePres s out.1) ∧
    (∀ b fl s out, create_effect n b fl s = some out → SetFree b = true →
      SetFreePres s out.1) := by
  intro n
  induction n with
  | zero =>
    refine ⟨?_, ?_, ?_, ?_, ?_, ?_, ?_⟩
    · intro p s out h hp; simp [evalProg] at h
    · intro x s out h; simp [get] at h
    · intro d s out h; simp [update_derived] at h
    · intro d s out h; simp [teardownDerivedEffects] at h
    · intro e s out h; simp [teardown_effect] at h
    · intro c s out h; simp [teardownChain] at h
    · intro b fl s out h hp; simp [create_effect] at h
  | succ n ih =>
    obtain ⟨ihE, ihG, ihU, ihTDE, ihTE, ihTC, ihCE⟩ := ih
    refine ⟨?_, ?_, ?_, ?_, ?_, ?_, ?_⟩
    · intro p s out h hp
      cases p with
      | lit k =>
        simp only [evalProg, Option.some.injEq] at h
        subst h
        refine ⟨setFreePres_refl s, fun hsf v hv => ?_⟩
        simp only [Except.ok.injEq] at hv
        subst hv
        rfl
      | nullL =>
        simp only [evalProg, Option.some.injEq] at h
        subst h
        refine ⟨setFreePres_refl s, fun hsf v hv => ?_⟩
        simp only [Except.ok.injEq] at hv
        subst hv
        rfl
      | undefL =>
        simp only [evalProg, Option.some.injEq] at h
        subst h
        refine ⟨setFreePres_refl s, fun hsf v hv => ?_⟩
        simp only [Except.ok.injEq] at hv
        subst hv
        rfl
      | fnLit b =>
        simp only [evalProg, Option.some.injEq] at h
        subst h
        refine ⟨setFreePres_refl s, fun hsf v hv => ?_⟩
        simp only [Except.ok.injEq] at hv
        subst hv
        exact hp
      | throwP =>
        simp only [evalProg, Option.some.injEq] at h
        subst h
        refine ⟨setFreePres_refl s, fun hsf v hv => ?_⟩
        exact absurd hv (by simp)
      | seq a b =>
        simp only [SetFree, Bool.and_eq_true] at hp
        obtain ⟨hpa, hpb⟩ := hp
        simp only [evalProg] at h
        split at h
        · exact absurd h (by simp)
        · next heq =>
          simp only [Option.some.injEq] at h
          subst h
          refine ⟨(ihE a _ _ heq hpa).1, fun hsf v hv => ?_⟩
          exact absurd hv (by simp)
        · next heq =>
          refine ⟨setFreePres_trans (ihE a _ _ heq hpa).1 (ihE b _ _ h hpb).1,
            fun hsf v hv => ?_⟩
          exact (ihE b _ _ h hpb).2 (((ihE a _ _ heq hpa).1 hsf).1) v hv
      | ifP c t e =>
        simp only [SetFree, Bool.and_eq_true] at hp
        obtain ⟨⟨hpc, hpt⟩, hpe⟩ := hp
        simp only [evalProg] at h
        split at h
        · exact absurd h (by simp)
        · next heq =>
          simp only [Option.some.injEq] at h
          subst h
          refine ⟨(ihE c _ _ heq hpc).1, fun hsf v hv => ?_⟩
          exact absurd hv (by simp)
        · next heq =>
          split at h
          · refine ⟨setFreePres_trans (ihE c _ _ heq hpc).1 (ihE t _ _ h hpt).1,
              fun hsf v hv => ?_⟩
            exact (ihE t _ _ h hpt).2 (((ihE c _ _ heq hpc).1 hsf).1) v hv
          · refine ⟨setFreePres_trans (ihE c _ _ heq hpc).1 (ihE e _ _ h hpe).1,
              fun hsf v hv => ?_⟩
            exact (ihE e _ _ h hpe).2 (((ihE c _ _ heq hpc).1 hsf).1) v hv
      | getN x =>
        simp only [evalProg] at h
        exact ihG x s out h
      | setN x a =>
        simp only [SetFree] at hp
        exact absurd hp (by simp)
      | untrackP b =>
        simp only [evalProg] at h
        split at h
        · exact absurd h (by simp)
        · next s₁ r heq =>
          simp only [Option.some.injEq] at h
          subst h
          refine ⟨setFreePres_trans (setFreePres_trans
            (setFreePres_same s { s with tracking := false } rfl rfl rfl)
            (ihE b { s with tracking := false } _ heq hp).1)
            (setFreePres_same _ _ rfl rfl rfl), fun hsf v hv => ?_⟩
          exact (ihE b { s with tracking := false } _ heq hp).2
            (heapSetFree_same rfl rfl hsf) v hv
      | effectP b =>
        simp only [evalProg] at h
        split at h
        · exact absurd h (by simp)
        · next heq =>
          simp only [Option.some.injEq] at h
          subst h
          refine ⟨ihCE b _ _ _ heq hp, fun hsf v hv => ?_⟩
          simp only [Except.ok.injEq] at hv
          subst hv
          rfl
    · intro x s out h
      have hpure := setFreePres_trackRead s x
      have hforkeq : (trackRead s x).active_fork = s.active_fork :=
        (purePres_trackRead s x).2.2.1
      simp only [get] at h
      split at h
      · simp only [Option.some.injEq] at h
        subst h
        exact ⟨setFreePres_refl s, fun hsf v hv => absurd hv (by simp)⟩
      · split at h
        · simp only [Option.some.injEq] at h
          subst h
          exact ⟨hpure, fun hsf v hv => absurd hv (by simp)⟩
        · rename_i nd heq1
          split at h
          · rename_i w heqw
            simp only [Option.some.injEq] at h
            subst h
            refine ⟨hpure, fun hsf v hv => ?_⟩
            simp only [Except.ok.injEq] at hv
            subst hv
            obtain ⟨m, hm, hw⟩ := Option.bind_eq_some.mp heqw
            rw [hforkeq] at hm
            obtain ⟨q, hq, hq2⟩ := Option.map_eq_some'.mp hw
            have hqm : q ∈ m := List.mem_of_find?_eq_some hq
            have := hsf.2 q (by rw [hm]; exact hqm)
            rw [hq2] at this
            exact this
          · split at h
            · rename_i hdf
              split at h
              · split at h
                · exact absurd h (by simp)
                · next heq =>
                  simp only [Option.some.injEq] at h
                  subst h
                  exact ⟨setFreePres_trans hpure (ihU _ _ _ heq),
                    fun hsf v hv => absurd hv (by simp)⟩
                · next s₂ u heq =>
                  simp only [Option.some.injEq] at h
                  subst h
                  have hpres : SetFreePres s (updN s₂ x (fun y =>
                      { y with f := { y.f with uninit := false, maybeDirty := false } })) :=
                    setFreePres_trans hpure (setFreePres_trans (ihU _ _ _ heq)
                      (setFreePres_updN _ _ _
                        (nodeSetFree_keep (fun _ => rfl) (fun _ => rfl) (fun _ => rfl))))
                  refine ⟨hpres, fun hsf v hv => ?_⟩
                  simp only [Except.ok.injEq] at hv
                  subst hv
                  exact heapSetFree_val (hpres hsf).1 x
              · simp only [Option.some.injEq] at h
                subst h
                refine ⟨setFreePres_trans hpure (setFreePres_updN _ _ _
                  (nodeSetFree_keep (fun _ => rfl) (fun _ => rfl) (fun _ => rfl))),
                  fun hsf v hv => ?_⟩
                simp only [Except.ok.injEq] at hv
                subst hv
                exact ((hpure hsf).1.1 nd (mem_of_lookupN heq1)).2.2
            · simp only [Option.some.injEq] at h
              subst h
              refine ⟨hpure, fun hsf v hv => ?_⟩
              simp only [Except.ok.injEq] at hv
              subst hv
              exact ((hpure hsf).1.1 nd (mem_of_lookupN heq1)).2.2
    · intro d s out h
      simp only [update_derived] at h
      split at h
      · simp only [Option.some.injEq] at h
        subst h
        exact setFreePres_refl s
      · rename_i nd0 heq0
        split at h
        · exact absurd h (by simp)
        · next heq =>
          simp only [Option.some.injEq] at h
          subst h
          exact ihTDE _ _ _ heq
        · next s₁ u heq =>
          have h2 : SetFreePres s (removeDepsFrom s₁ d) :=
            setFreePres_trans (ihTDE _ _ _ heq) (setFreePres_removeDepsFrom s₁ d)
          split at h
          · simp only [Option.some.injEq] at h
            subst h
            exact h2
          · next p hfn =>
            intro hsf
            obtain ⟨hsf2, hq2⟩ := h2 hsf
            have hpsf : SetFree p = true :=
              (hsf.1 nd0 (mem_of_lookupN heq0)).1 p hfn
            have hsf3 : HeapSetFree { removeDepsFrom s₁ d with
                reaction_stack := some d :: (removeDepsFrom s₁ d).reaction_stack,
                trace := (removeDepsFrom s₁ d).trace ++ [.fnRun d] } :=
              heapSetFree_same rfl rfl hsf2
            split at h
            · exact absurd h (by simp)
            · next s₄ er heq2 =>
              simp only [Option.some.injEq] at h
              subst h
              obtain ⟨hsf4, hq4⟩ := (ihE p _ _ heq2 hpsf).1 hsf3
              exact ⟨heapSetFree_same rfl rfl hsf4, hq4.trans hq2⟩
            · next s₄ nxt heq2 =>
              obtain ⟨hsf4, hq4⟩ := (ihE p _ _ heq2 hpsf).1 hsf3
              have hval : ValSetFree nxt = true :=
                (ihE p _ _ heq2 hpsf).2 hsf3 nxt rfl
              have hsf5 : HeapSetFree { s₄ with
                  reaction_stack := s₄.reaction_stack.drop 1 } :=
                heapSetFree_same rfl rfl hsf4
              split at h
              · split at h
                · next m hm =>
                  simp only [Option.some.injEq] at h
                  subst h
                  refine ⟨⟨hsf5.1, ?_⟩, hq4.trans hq2⟩
                  intro q hq
                  simp only [Option.getD_some] at hq
                  refine assocSet_setFree ?_ hval q hq
                  intro q2 hq2m
                  refine hsf5.2 q2 ?_
                  rw [hm]
                  exact hq2m
                · next hm =>
                  simp only [Option.some.injEq] at h
                  subst h
                  refine ⟨heapSetFree_updN _ _ _ ?_ hsf5, (updN_queue _ _ _).trans
                    (hq4.trans hq2)⟩
                  intro y hy
                  exact ⟨hy.1, hy.2.1, hval⟩
              · simp only [Option.some.injEq] at h
                subst h
                exact ⟨hsf5, hq4.trans hq2⟩
    · intro d s out h
      simp only [teardownDerivedEffects] at h
      split at h
      · simp only [Option.some.injEq] at h
        subst h
        exact setFreePres_refl s
      · split at h
        · simp only [Option.some.injEq] at h
          subst h
          exact setFreePres_refl s
        · simp only [Option.some.injEq] at h
          subst h
          exact setFreePres_updN _ _ _
            (nodeSetFree_keep (fun _ => rfl) (fun _ => rfl) (fun _ => rfl))
        · rename_i e2 rest2 heqe
          split at h
          · exact absurd h (by simp)
          · next heq =>
            simp only [Option.some.injEq] at h
            subst h
            exact setFreePres_trans (setFreePres_updN s d (fun x =>
              { x with effects := some rest2 })
              (nodeSetFree_keep (fun _ => rfl) (fun _ => rfl) (fun _ => rfl)))
              (ihTE _ _ _ heq)
          · next heq =>
            exact setFreePres_trans (setFreePres_updN s d (fun x =>
              { x with effects := some rest2 })
              (nodeSetFree_keep (fun _ => rfl) (fun _ => rfl) (fun _ => rfl)))
              (setFreePres_trans (ihTE _ _ _ heq) (ihTDE _ _ _ h))
    · intro e s out h
      simp only [teardown_effect] at h
      split at h
      · simp only [Option.some.injEq] at h
        subst h
        exact setFreePres_refl s
      · split at h
        · exact absurd h (by simp)
        · next heq =>
          simp only [Option.some.injEq] at h
          subst h
          exact ihTC _ _ _ heq
        · next s₁ u heq =>
          have hsteps : SetFreePres s₁ (unlinkStep (depsStep s₁ e) e) :=
            setFreePres_trans (setFreePres_depsStep s₁ e) (setFreePres_unlinkStep _ e)
          split at h
          · simp only [Option.some.injEq] at h
            subst h
            exact setFreePres_trans (ihTC _ _ _ heq) hsteps
          · next td htd =>
            intro hsf
            obtain ⟨hsf1, hq1⟩ := (ihTC _ _ _ heq) hsf
            obtain ⟨hsf3, hq3⟩ := hsteps hsf1
            obtain ⟨ndt, hndt, htdp⟩ := Option.bind_eq_some.mp htd
            have htsf : SetFree td = true :=
              (hsf3.1 ndt (mem_of_lookupN hndt)).2.1 td htdp
            have hsf4 : HeapSetFree { unlinkStep (depsStep s₁ e) e with
                reaction_stack := none :: (unlinkStep (depsStep s₁ e) e).reaction_stack,
                trace := (unlinkStep (depsStep s₁ e) e).trace ++ [.teardownRun e] } :=
              heapSetFree_same rfl rfl hsf3
            split at h
            · exact absurd h (by simp)
            · next s₅ r heq2 =>
              simp only [Option.some.injEq] at h
              subst h
              obtain ⟨hsf5, hq5⟩ := (ihE td _ _ heq2 htsf).1 hsf4
              exact ⟨heapSetFree_same rfl rfl hsf5, hq5.trans (hq3.trans hq1)⟩
    · intro c s out h
      cases c with
      | none =>
        simp only [teardownChain, Option.some.injEq] at h
        subst h
        exact setFreePres_refl s
      | some cc =>
        simp only [teardownChain] at h
        split at h
        · exact absurd h (by simp)
        · next heq =>
          simp only [Option.some.injEq] at h
          subst h
          exact ihTE _ _ _ heq
        · next heq =>
          exact setFreePres_trans (ihTE _ _ _ heq) (ihTC _ _ _ h)
    · intro b fl s out h hp
      simp only [create_effect] at h
      split at h
      · exact absurd h (by simp)
      · next s₃ res heq =>
        simp only [Option.some.injEq] at h
        subst h
        intro hsf
        have hnode : NodeSetFree
            { f := fl, fn := some b,
              parent := if fl.disconnected = true then none
                else (s.reaction_stack.head?).getD none,
              root_index := if s.reaction_stack.length > 0 then none
                else some s.root_index } := by
          refine ⟨?_, ?_, ?_⟩
          · intro p hp2
            simp only [Option.some.injEq] at hp2
            subst hp2
            exact hp
          · intro p hp2
            exact absurd hp2 (by simp)
          · rfl
        obtain ⟨hsfA, hqA⟩ := (setFreePres_append s _
          (if s.reaction_stack.length > 0 then s.root_index else s.root_index + 1)
          hnode) hsf
        obtain ⟨hsf3, hq3⟩ := (ihE b _ _ heq hp).1 (heapSetFree_same rfl rfl hsfA)
        have hval : ∀ bb, res = .ok (.fnv bb) → SetFree bb = true := fun bb hres =>
          (ihE b _ _ heq hp).2 (heapSetFree_same rfl rfl hsfA) (.fnv bb) (by rw [hres])
        clear heq
        have hsf4 : HeapSetFree { s₃ with reaction_stack := s₃.reaction_stack.drop 1 } :=
          heapSetFree_same rfl rfl hsf3
        split
        · next bb =>
          have h5a : HeapSetFree (updN { s₃ with reaction_stack := s₃.reaction_stack.drop 1 } s.heap.length (fun x => { x with teardown := some bb })) := by
            refine heapSetFree_updN _ _ _ ?_ hsf4
            intro y hy
            refine ⟨hy.1, ?_, hy.2.2⟩
            intro p hp2
            simp only [Option.some.injEq] at hp2
            subst hp2
            exact hval _ rfl
          obtain ⟨hsfL, hqL⟩ :=
            (setFreePres_linkReaction fl.disconnected s.heap.length _) h5a
          refine ⟨hsfL, ?_⟩
          rw [hqL, updN_queue]
          exact hq3.trans hqA
        all_goals
          obtain ⟨hsfL, hqL⟩ :=
            (setFreePres_linkReaction fl.disconnected s.heap.length _) hsf4
        all_goals refine ⟨hsfL, ?_⟩
        all_goals rw [hqL]
        all_goals exact hq3.trans hqA

theorem drain_once : ∀ (n : Nat) (s : St) (out : St × Except Err Unit),
    drain n s = some out →
    HeapSetFree s →
    s.queue.Nodup →
    (∀ e ∈ s.queue, e < s.heap.length ∧ derivedOf s e = false) →
    out.2 = .ok () →
    out.1.queue = [] ∧
    (∀ e ∈ s.queue, countFn e out.1.trace = countFn e s.trace + 1) ∧
    (∀ i, i < s.heap.length → derivedOf s i = false → i ∉ s.queue →
      countFn i out.1.trace = countFn i s.trace) := by
  intro n
  induction n with
  | zero =>
    intro s out h hsf hnd hq hok
    simp [drain] at h
  | succ n ih =>
    intro s out h hsf hnd hq hok
    simp only [drain] at h
    split at h
    · next hqe =>
      simp only [Option.some.injEq] at h
      subst h
      refine ⟨hqe, ?_, ?_⟩
      · intro e he
        rw [hqe] at he
        exact absurd he (List.not_mem_nil e)
      · intro i _ _ _
        rfl
    · next e rest hqe =>
      have hndc := List.nodup_cons.mp (hqe ▸ hnd)
      have hne : e ∉ rest := hndc.1
      have hnd2 : rest.Nodup := hndc.2
      have hstep : ∀ (t : St), drain n t = some out →
          HeapSetFree t → t.queue = rest →
          s.heap.length ≤ t.heap.length →
          (∀ i, i < s.heap.length → derivedOf t i = derivedOf s i) →
          (∀ i, i < s.heap.length → derivedOf s i = false →
            countFn i t.trace = countFn i s.trace + countFn i [.fnRun e]) →
          out.1.queue = [] ∧
          (∀ e2 ∈ s.queue, countFn e2 out.1.trace = countFn e2 s.trace + 1) ∧
          (∀ i, i < s.heap.length → derivedOf s i = false → i ∉ s.queue →
            countFn i out.1.trace = countFn i s.trace) := by
        intro t ht htsf htq htlen htder htcount
        have ihr := ih t out ht htsf (htq ▸ hnd2) ?_ hok
        · refine ⟨ihr.1, ?_, ?_⟩
          · intro e2 he2
            rw [hqe] at he2
            rcases List.mem_cons.mp he2 with he2 | he2
            · subst he2
              have hee := hq e2 (by rw [hqe]; exact List.mem_cons_self e2 rest)
              have h3 := ihr.2.2 e2 (Nat.lt_of_lt_of_le hee.1 htlen)
                (by rw [htder e2 hee.1]; exact hee.2) (by rw [htq]; exact hne)
              rw [h3, htcount e2 hee.1 hee.2, countFn_fnRun_self]
            · have he2q := hq e2 (by rw [hqe]; exact List.mem_cons_of_mem e he2)
              have h2 := ihr.2.1 e2 (by rw [htq]; exact he2)
              have hne2 : e2 ≠ e := fun hh => hne (hh ▸ he2)
              rw [h2, htcount e2 he2q.1 he2q.2, countFn_fnRun_ne hne2, Nat.add_zero]
          · intro i hi hid hiq
            have hie : i ≠ e := fun hh =>
              hiq (by rw [hqe, hh]; exact List.mem_cons_self e rest)
            have hir : i ∉ rest := fun hh =>
              hiq (by rw [hqe]; exact List.mem_cons_of_mem e hh)
            have h3 := ihr.2.2 i (Nat.lt_of_lt_of_le hi htlen)
              (by rw [htder i hi]; exact hid) (by rw [htq]; exact hir)
            rw [h3, htcount i hi hid, countFn_fnRun_ne hie, Nat.add_zero]
        · rw [htq]
          intro e2 he2
          have he2q := hq e2 (by rw [hqe]; exact List.mem_cons_of_mem e he2)
          exact ⟨Nat.lt_of_lt_of_le he2q.1 htlen,
            by rw [htder e2 he2q.1]; exact he2q.2⟩
      have hsf1 : HeapSetFree (updN { s with queue := rest } e
          (fun x => { x with f := { x.f with dirty := false } })) :=
        heapSetFree_updN _ _ _
          (nodeSetFree_keep (fun _ => rfl) (fun _ => rfl) (fun _ => rfl))
          (heapSetFree_same rfl rfl hsf)
      split at h
      · exact absurd h (by simp)
      · next s₂ er heq =>
        simp only [Option.some.injEq] at h
        subst h
        exact absurd hok (by simp)
      · next s₂ u heq =>
        have hqt2 := (quietPres_all n).2.2.2.2.2.2.2.2.1 e _ _ heq
        obtain ⟨hsf2, hq2⟩ := (setFreePres_all n).2.2.2.2.1 e _ _ heq hsf1
        have hq2r : s₂.queue = rest := hq2.trans (updN_queue _ _ _)
        have hlen2 : s.heap.length ≤ s₂.heap.length := by
          have := hqt2.1
          rw [updN_heap_length] at this
          exact this
        have hder2 : ∀ i, i < s.heap.length → derivedOf s₂ i = derivedOf s i := by
          intro i hi
          rw [hqt2.2.1 i (by rw [updN_heap_length]; exact hi),
            derivedOf_updN { s with queue := rest } e
              (fun x => { x with f := { x.f with dirty := false } }) (fun _ => rfl)]
          rfl
        have hcnt2 : ∀ i, i < s.heap.length → derivedOf s i = false →
            countFn i s₂.trace = countFn i s.trace := by
          intro i hi hid
          have hdd : derivedOf (updN { s with queue := rest } e
              (fun x => { x with f := { x.f with dirty := false } })) i = false := by
            rw [derivedOf_updN { s with queue := rest } e
              (fun x => { x with f := { x.f with dirty := false } }) (fun _ => rfl)]
            exact hid
          rw [hqt2.2.2 i (by rw [updN_heap_length]; exact hi) hdd, updN_trace]
        split at h
        · simp only [Option.some.injEq] at h
          subst h
          exact absurd hok (by simp)
        · next p hfn =>
          obtain ⟨ndp, hndp, hpf⟩ := Option.bind_eq_some.mp hfn
          have hpset : SetFree p = true := (hsf2.1 ndp (mem_of_lookupN hndp)).1 p hpf
          have hsf3 : HeapSetFree { s₂ with
              reaction_stack := some e :: s₂.reaction_stack,
              trace := s₂.trace ++ [.fnRun e] } := heapSetFree_same rfl rfl hsf2
          split at h
          · exact absurd h (by simp)
          · next s₄ er heq2 =>
            simp only [Option.some.injEq] at h
            subst h
            exact absurd hok (by simp)
          · next s₄ res heq2 =>
            have hq34 := (quietPres_all n).1 p _ _ heq2
            obtain ⟨hsf4, hq4⟩ := ((setFreePres_all n).1 p _ _ heq2 hpset).1 hsf3
            have hq4r : s₄.queue = rest := hq4.trans hq2r
            have hval := ((setFreePres_all n).1 p _ _ heq2 hpset).2 hsf3
            have hlen4 : s.heap.length ≤ s₄.heap.length :=
              Nat.le_trans hlen2 hq34.1
            have hder4 : ∀ i, i < s.heap.length → derivedOf s₄ i = derivedOf s i := by
              intro i hi
              rw [hq34.2.1 i (Nat.lt_of_lt_of_le hi hlen2)]
              exact hder2 i hi
            have hcnt4 : ∀ i, i < s.heap.length → derivedOf s i = false →
                countFn i s₄.trace = countFn i s.trace + countFn i [.fnRun e] := by
              intro i hi hid
              rw [hq34.2.2 i (Nat.lt_of_lt_of_le hi hlen2)
                (by show derivedOf s₂ i = false; rw [hder2 i hi]; exact hid)]
              show countFn i (s₂.trace ++ [.fnRun e]) = _
              rw [countFn_append, hcnt2 i hi hid]
            have hsf5 : HeapSetFree { s₄ with
                reaction_stack := s₄.reaction_stack.drop 1 } :=
              heapSetFree_same rfl rfl hsf4
            split at h
            · next bb =>
              refine hstep _ h ?_ ?_ ?_ ?_ ?_
              · refine heapSetFree_updN _ _ _ ?_ hsf5
                intro y hy
                refine ⟨hy.1, ?_, hy.2.2⟩
                intro q hq2e
                simp only [Option.some.injEq] at hq2e
                subst hq2e
                exact hval _ rfl
              · rw [updN_queue]
                exact hq4r
              · rw [updN_heap_length]
                exact hlen4
              · intro i hi
                rw [derivedOf_updN _ _ (fun x => { x with teardown := some bb })
                  (fun _ => rfl)]
                exact hder4 i hi
              · intro i hi hid
                rw [updN_trace]
                exact hcnt4 i hi hid
            all_goals
              refine hstep _ h hsf5 hq4r hlen4 (fun i hi => hder4 i hi)
                (fun i hi hid => hcnt4 i hi hid)

theorem queueInv_pushEffects (l : List Nat) (s : St) (h : QueueInv s) :
    QueueInv (pushEffects l s) := by
  induction l generalizing s with
  | nil => exact h
  | cons e rest ih =>
    unfold pushEffects
    split
    · exact ih s h
    · next nd hnd =>
      split
      · exact ih s h
      · next hndd =>
        refine ih _ ⟨?_, ?_⟩
        · refine List.Nodup.append h.1 (List.nodup_singleton e) ?_
          intro a ha hae
          simp only [List.mem_singleton] at hae
          subst hae
          have h2 := (h.2 a ha).2
          unfold dirtyOf at h2
          rw [hnd] at h2
          exact hndd h2
        · intro q hq
          show q < (updN s e _).heap.length ∧ _
          rw [updN_heap_length]
          rcases List.mem_append.mp hq with hq | hq
          · obtain ⟨hql, hqd⟩ := h.2 q hq
            refine ⟨hql, ?_⟩
            show dirtyOf (updN s e _) q = true
            unfold dirtyOf
            rw [lookupN_updN]
            by_cases heq : e = q
            · rw [if_pos heq, hnd]
              rfl
            · rw [if_neg heq]
              exact hqd
          · simp only [List.mem_singleton] at hq
            subst hq
            refine ⟨lookupN_lt hnd, ?_⟩
            show dirtyOf (updN s q _) q = true
            unfold dirtyOf
            rw [lookupN_updN, if_pos rfl, hnd]
            rfl

/-- C4: batch-then-drain runs each dirty-marked effect exactly once.  First
part: the scheduler (`pushEffects`, the only producer of queue entries)
preserves the queue invariant — no effect is ever queued twice within a
batch, because an enqueued effect is `DIRTY`-marked and a dirty effect is
skipped.  Second part: a microtask drain that returns normally from a state
whose queue satisfies the invariant, holds only (non-derived) effects, and
whose heap stores no `set`-performing closure (so the drained effect bodies
belong to the closed batch), empties the queue, runs each queued effect's fn
exactly once, and runs no other effect at all. -/
theorem c4_batch_drain_once :
    (∀ (l : List Nat) (s : St), QueueInv s → QueueInv (pushEffects l s)) ∧
    (∀ (n : Nat) (s : St) (out : St × Except Err Unit),
      drain n s = some out → HeapSetFree s → QueueInv s →
      (∀ e ∈ s.queue, derivedOf s e = false) → out.2 = .ok () →
      out.1.queue = [] ∧
      (∀ e ∈ s.queue, countFn e out.1.trace = countFn e s.trace + 1) ∧
      (∀ i, i < s.heap.length → derivedOf s i = false → i ∉ s.queue →
        countFn i out.1.trace = countFn i s.trace)) := by
  constructor
  · exact fun l s h => queueInv_pushEffects l s h
  · intro n s out h hsf hqi hder hok
    exact drain_once n s out h hsf hqi.1
      (fun e he => ⟨(hqi.2 e he).1, hder e he⟩) hok

/-- Witness for C4: two dirty queued effects; the drain returns with an empty
queue and exactly one `fnRun` event per queued effect. -/
theorem c4_batch_drain_once_witness :
    drain 5 c4St = some (c4S1, .ok ()) ∧
    c4S1.queue = [] ∧
    countFn 0 c4S1.trace = 1 ∧ countFn 1 c4S1.trace = 1 := by
  have hsf : HeapSetFree c4St := by
    constructor
    · intro nd hnd
      rcases List.mem_cons.mp hnd with hnd | hnd
      · subst hnd
        refine ⟨?_, ?_, rfl⟩
        · intro p hp
          simp only [Option.some.injEq] at hp
          subst hp
          rfl
        · intro p hp
          exact absurd hp (by simp)
      · simp only [List.mem_singleton] at hnd
        subst hnd
        refine ⟨?_, ?_, rfl⟩
        · intro p hp
          simp only [Option.some.injEq] at hp
          subst hp
          rfl
        · intro p hp
          exact absurd hp (by simp)
    · intro p hp
      exact absurd hp (by simp [c4St])
  have h := c4_batch_drain_once.2 5 c4St (c4S1, .ok ()) (by decide) hsf
    ⟨by decide, by decide⟩ (by decide) rfl
  refine ⟨by decide, rfl, ?_, ?_⟩
  · have := h.2.1 0 (by decide)
    simpa using this
  · have := h.2.1 1 (by decide)
    simpa using this

/-- When the reaction stack is empty, `trackRead` is the identity: there is
no reaction to register an edge for. -/
theorem trackRead_stack_nil (s : St) (x : Nat) (h : s.reaction_stack = []) :
    trackRead s x = s := by
  unfold trackRead
  rw [h]
  split
  · rfl
  · rfl

theorem lookupN_updN_ne (s : St) (i : Nat) (g : Node → Node) (j : Nat) (h : i ≠ j) :
    lookupN (updN s i g) j = lookupN s j := by
  rw [lookupN_updN, if_neg h]

theorem vOf_updN_ne (s : St) (i : Nat) (g : Node → Node) (j : Nat) (h : i ≠ j) :
    vOf (updN s i g) j = vOf s j := by
  unfold vOf
  rw [lookupN_updN_ne s i g j h]

/-- The partition loop of `mark_dirty` queues no derived when every derived
among the reactions has an unallocated (`none`) `reactions` list. -/
theorem partition_qd_nil (src : Nat) (rs : List Nat) (s : St) (tc : List Nat)
    (h : ∀ r ∈ rs, ∀ rn, lookupN s r = some rn → rn.f.derivedF = true →
      rn.reactions = none) :
    (partitionReactions src rs s [] tc).2.1 = [] := by
  induction rs generalizing s tc with
  | nil => rfl
  | cons r rest ih =>
    unfold partitionReactions
    split
    · exact ih s tc (fun r' hr' => h r' (List.mem_cons_of_mem r hr'))
    · next rn heq =>
      split
      · next hdf =>
        split
        · exact ih s tc (fun r' hr' => h r' (List.mem_cons_of_mem r hr'))
        · split
          · next hne => exact absurd (h r (List.mem_cons_self r rest) rn heq hdf) hne
          · refine ih _ tc ?_
            intro r' hr' rn' hl' hdf'
            rw [lookupN_updN] at hl'
            split at hl'
            · next hrr =>
              rw [heq] at hl'
              simp only [Option.map_some', Option.some.injEq] at hl'
              subst hl'
              exact h r (List.mem_cons_self r rest) rn heq hdf
            · exact h r' (List.mem_cons_of_mem r hr') rn' hl' hdf'
      · split
        · split
          · exact ih s tc (fun r' hr' => h r' (List.mem_cons_of_mem r hr'))
          · exact ih s _ (fun r' hr' => h r' (List.mem_cons_of_mem r hr'))
        · exact ih s tc (fun r' hr' => h r' (List.mem_cons_of_mem r hr'))

/-- The partition loop never clears a `MAYBE_DIRTY` flag. -/
theorem partition_maybeDirty_mono (src : Nat) (rs : List Nat) (s : St)
    (qd tc : List Nat) (D : Nat)
    (h : ((lookupN s D).map (fun y => y.f.maybeDirty)).getD false = true) :
    ((lookupN (partitionReactions src rs s qd tc).1 D).map
      (fun y => y.f.maybeDirty)).getD false = true := by
  induction rs generalizing s qd tc with
  | nil => exact h
  | cons r rest ih =>
    unfold partitionReactions
    split
    · exact ih s qd tc h
    · split
      · split
        · exact ih s qd tc h
        · split
          · exact ih s _ tc h
          · refine ih _ qd tc ?_
            rw [lookupN_updN]
            split
            · next hrD =>
              subst hrD
              cases hx : lookupN s r with
              | none => rw [hx] at h; exact absurd h (by simp)
              | some nd => simp [hx]
            · exact h
      · split
        · split
          · exact ih s qd tc h
          · exact ih s qd _ h
        · exact ih s qd tc h

/-- Without an applying-fork skip, the partition loop flags every derived
reaction whose `reactions` list is unallocated `MAYBE_DIRTY`. -/
theorem partition_maybeDirty_set (src : Nat) (rs : List Nat) (s : St)
    (qd tc : List Nat) (D : Nat) (dnd : Node)
    (hap : s.applying_fork = none) (hD : D ∈ rs)
    (hx : lookupN s D = some dnd)
    (hdf : dnd.f.derivedF = true) (hre : dnd.reactions = none) :
    ((lookupN (partitionReactions src rs s qd tc).1 D).map
      (fun y => y.f.maybeDirty)).getD false = true := by
  induction rs generalizing s qd tc dnd with
  | nil => cases hD
  | cons r rest ih =>
    rcases List.mem_cons.mp hD with hrD | hmem
    · subst hrD
      unfold partitionReactions
      split
      · next heq => rw [hx] at heq; cases heq
      · next rn heq =>
        rw [hx] at heq
        injection heq with heq'
        subst heq'
        rw [if_pos hdf, if_neg (by simp [hap]), if_neg (by simp [hre])]
        refine partition_maybeDirty_mono src rest _ qd tc D ?_
        rw [lookupN_updN, if_pos rfl, hx]
        rfl
    · unfold partitionReactions
      split
      · exact ih s qd tc dnd hap hmem hx hdf hre
      · split
        · split
          · exact ih s qd tc dnd hap hmem hx hdf hre
          · split
            · exact ih s _ tc dnd hap hmem hx hdf hre
            · by_cases hrD : r = D
              · subst hrD
                refine ih _ qd tc { dnd with f := { dnd.f with maybeDirty := true } }
                  ((updN_applying_fork s r _).trans hap) hmem ?_ hdf hre
                rw [lookupN_updN, if_pos rfl, hx]
                rfl
              · refine ih _ qd tc dnd ((updN_applying_fork s r _).trans hap) hmem ?_ hdf hre
                rw [lookupN_updN_ne s r _ D hrD]
                exact hx
        · split
          · split
            · exact ih s qd tc dnd hap hmem hx hdf hre
            · exact ih s qd _ dnd hap hmem hx hdf hre
          · exact ih s qd tc dnd hap hmem hx hdf hre

/-- The effect-queueing loop only sets `DIRTY` flags: `MAYBE_DIRTY` of any
node is untouched. -/
theorem pushEffects_maybeDirty (l : List Nat) (s : St) (D : Nat) :
    ((lookupN (pushEffects l s) D).map (fun y => y.f.maybeDirty)).getD false =
      ((lookupN s D).map (fun y => y.f.maybeDirty)).getD false := by
  induction l generalizing s with
  | nil => rfl
  | cons e rest ih =>
    unfold pushEffects
    split
    · exact ih s
    · split
      · exact ih s
      · rw [ih]
        show ((lookupN (updN s e _) D).map _).getD false = _
        rw [lookupN_updN]
        split
        · next heD =>
          subst heD
          cases hx : lookupN s e with
          | none => rfl
          | some nd => simp
        · rfl

/-- Running `update_derived` on a derived with no child effects and the stack empty:
the body runs once from the canonical entry state (one `fnRun` event pushed
first), and the final trace is exactly the body run's trace. -/
theorem update_derived_frame (n D : Nat) (s : St) (out : St × Except Err Bool)
    (nd : Node) (p : Prog)
    (h : update_derived (n + 2) D s = some out)
    (hx : lookupN s D = some nd) (heff : nd.effects = none) (hfn : nd.fn = some p)
    (hstk : s.reaction_stack = []) :
    ∃ s₄ res, evalProg (n + 1) p { removeDepsFrom s D with
        reaction_stack := [some D], trace := s.trace ++ [.fnRun D] } = some (s₄, res) ∧
      out.1.trace = s₄.trace := by
  simp only [update_derived, hx, teardownDerivedEffects, heff, hfn] at h
  have hpp := purePres_removeDepsFrom s D
  rw [show (removeDepsFrom s D).reaction_stack = [] from hpp.2.2.2.2.2.2.1.trans hstk,
      show (removeDepsFrom s D).trace = s.trace from hpp.2.2.2.2.2.1] at h
  split at h
  · cases h
  · next s₄ e heq =>
    injection h with h
    subst h
    exact ⟨s₄, .error e, heq, rfl⟩
  · next s₄ nx heq =>
    refine ⟨s₄, .ok nx, heq, ?_⟩
    split at h
    · split at h
      · injection h with h
        subst h
        rfl
      · injection h with h
        subst h
        exact updN_trace _ _ _
    · injection h with h
      subst h
      rfl

/-- Running `setCore` on a source all of whose derived subscribers have unallocated
(`none`) `reactions` lists, outside any fork: no fn of any node runs (the
trace is unchanged), every node other than the written source keeps its
stored value, and each such derived subscriber ends up flagged
`MAYBE_DIRTY`. -/
theorem setCore_quiet (n x : Nat) (v : Val) (s : St) (out : St × Except Err Val)
    (nd : Node)
    (h : setCore (n + 3) x v s = some out)
    (hx : lookupN s x = some nd)
    (hfork : s.active_fork = none) (hap : s.applying_fork = none)
    (hne : nd.v ≠ v)
    (hsub : ∀ r ∈ nd.reactions.getD [], ∀ rn, lookupN s r = some rn →
      rn.f.derivedF = true → rn.reactions = none) :
    out.1.trace = s.trace ∧ (∀ i, i ≠ x → vOf out.1 i = vOf s i) ∧
    (∀ D dnd, D ∈ nd.reactions.getD [] → D ≠ x → lookupN s D = some dnd →
      dnd.f.derivedF = true →
      ((lookupN out.1 D).map (fun y => y.f.maybeDirty)).getD false = true) := by
  simp only [setCore, hx, effectivePrev, hfork] at h
  rw [if_neg hne] at h
  have hx1 : lookupN (updN s x (fun y => { y with v := v })) x =
      some { nd with v := v } := by
    rw [lookupN_updN, if_pos rfl, hx]
    rfl
  have hx2 : lookupN (updN (updN s x (fun y => { y with v := v })) x
      (fun y => { y with f := { y.f with dirty := true } })) x =
      some { nd with v := v, f := { nd.f with dirty := true } } := by
    rw [lookupN_updN, if_pos rfl, hx1]
    rfl
  simp only [mark_dirty, hx1, hx2, Option.some_bind] at h
  cases hre : nd.reactions with
  | none =>
    rw [hre] at h
    simp only [Option.some.injEq] at h
    subst h
    refine ⟨?_, ?_, ?_⟩
    · simp only [updN_trace]
    · intro i hi
      rw [vOf_updN_ne _ _ _ _ (fun hh => hi hh.symm),
        vOf_updN_ne _ _ _ _ (fun hh => hi hh.symm),
        vOf_updN_ne _ _ _ _ (fun hh => hi hh.symm)]
    · intro D dnd hD hDx hxD hdnd
      simp at hD
  | some rs =>
    rw [hre] at h
    simp only [] at h
    set s1 : St := updN (updN s x (fun y => { y with v := v })) x
      (fun y => { y with f := { y.f with dirty := true } }) with hs1
    have hlr1 : ∀ r, lookupN s1 r =
        if x = r then some { nd with v := v, f := { nd.f with dirty := true } }
        else lookupN s r := by
      intro r
      by_cases hxr : x = r
      · rw [if_pos hxr, ← hxr, hs1, hx2]
      · rw [if_neg hxr, hs1, lookupN_updN_ne _ _ _ _ hxr, lookupN_updN_ne _ _ _ _ hxr]
    have hsub1 : ∀ r ∈ rs, ∀ rn, lookupN s1 r = some rn →
        rn.f.derivedF = true → rn.reactions = none := by
      intro r hr rn hlr hdf2
      rw [hlr1 r] at hlr
      by_cases hxr : x = r
      · rw [if_pos hxr] at hlr
        injection hlr with hlr
        subst hlr
        have hcon := hsub r (by rw [hre]; exact hr) nd (hxr ▸ hx) hdf2
        rw [hre] at hcon
        exact Option.noConfusion hcon
      · rw [if_neg hxr] at hlr
        exact hsub r (by rw [hre]; exact hr) rn hlr hdf2
    have hqd : (partitionReactions x rs s1 [] []).2.1 = [] :=
      partition_qd_nil x rs s1 [] hsub1
    rw [hqd] at h
    simp only [runQueuedDeriveds, Option.some.injEq] at h
    subst h
    have hppq := purePres_partitionReactions x rs s1 [] []
    have hs1tr : s1.trace = s.trace := by
      rw [hs1, updN_trace, updN_trace]
    have hs1v : ∀ i, i ≠ x → vOf s1 i = vOf s i := by
      intro i hi
      rw [hs1, vOf_updN_ne _ _ _ _ (fun hh => hi hh.symm),
        vOf_updN_ne _ _ _ _ (fun hh => hi hh.symm)]
    refine ⟨?_, ?_, ?_⟩
    · rw [updN_trace, (pushEffects_basic _ _).2.2.2.2.1, hppq.2.2.2.2.2.1, hs1tr]
    · intro i hi
      rw [vOf_updN_ne _ _ _ _ (fun hh => hi hh.symm), (pushEffects_basic _ _).2.1 i,
        hppq.2.1 i, hs1v i hi]
    · intro D dnd hD hDx hxD hdnd
      rw [lookupN_updN_ne _ _ _ _ (fun hh => hDx hh.symm), pushEffects_maybeDirty]
      refine partition_maybeDirty_set x rs s1 [] [] D dnd
        (by rw [hs1, updN_applying_fork, updN_applying_fork]; exact hap)
        hD ?_ hdnd (hsub D (by rw [hre]; exact hD) dnd hxD hdnd)
      rw [hlr1 D, if_neg (fun hh => hDx hh.symm)]
      exact hxD

/-- C5 (amended): laziness of a derived whose `reactions` list was never
allocated.  (1) A write to a source all of whose derived subscribers have
unallocated (`null`) `reactions` lists runs no fn at all: the trace is
unchanged, every node other than the written source keeps its stored value,
and each such derived subscriber is merely flagged `MAYBE_DIRTY`.  (2) A
read of a derived whose flags are clean invokes nothing: it returns the
stored value, with the trace and every stored value unchanged.  (3) A read
that finds the derived invalidated (`UNINITIALIZED` or `MAYBE_DIRTY`) opens
exactly one `update_derived` frame: one `fnRun` event for the derived is
recorded before its fn's body runs, the final trace is exactly the body
run's trace, and when the body's own evaluation records no further
invocation of the derived, the read increments its invocation count by
exactly one. -/
theorem c5_lazy_amended :
    (∀ (n x : Nat) (v : Val) (s : St) (out : St × Except Err Val) (nd : Node),
      set (n + 4) x v s = some out →
      lookupN s x = some nd →
      s.reaction_stack = [] → s.active_fork = none → s.applying_fork = none →
      nd.v ≠ v →
      (∀ r ∈ nd.reactions.getD [], ∀ rn, lookupN s r = some rn →
        rn.f.derivedF = true → rn.reactions = none) →
      out.1.trace = s.trace ∧ (∀ i, i ≠ x → vOf out.1 i = vOf s i) ∧
      (∀ D dnd, D ∈ nd.reactions.getD [] → D ≠ x → lookupN s D = some dnd →
        dnd.f.derivedF = true →
        ((lookupN out.1 D).map (fun y => y.f.maybeDirty)).getD false = true)) ∧
    (∀ (n D : Nat) (s : St) (out : St × Except Err Val) (nd : Node),
      get (n + 1) D s = some out →
      lookupN s D = some nd → nd.f.derivedF = true →
      nd.f.uninit = false → nd.f.maybeDirty = false →
      s.reaction_stack = [] → s.active_fork = none →
      out.2 = .ok nd.v ∧ out.1.trace = s.trace ∧ (∀ i, vOf out.1 i = vOf s i)) ∧
    (∀ (n D : Nat) (s : St) (out : St × Except Err Val) (nd : Node) (p : Prog),
      get (n + 3) D s = some out →
      lookupN s D = some nd → nd.f.derivedF = true → nd.effects = none →
      nd.fn = some p → (nd.f.uninit || nd.f.maybeDirty) = true →
      s.reaction_stack = [] → s.active_fork = none →
      ∃ s₄ res, evalProg (n + 1) p { removeDepsFrom s D with
          reaction_stack := [some D], trace := s.trace ++ [.fnRun D] } = some (s₄, res) ∧
        out.1.trace = s₄.trace ∧
        (countFn D s₄.trace = countFn D (s.trace ++ [.fnRun D]) →
          countFn D out.1.trace = countFn D s.trace + 1)) := by
  refine ⟨?_, ?_, ?_⟩
  · intro n x v s out nd h hx hstk hfork hap hne hsub
    simp only [set, hstk, List.head?] at h
    exact setCore_quiet n x v s out nd h hx hfork hap hne hsub
  · intro n D s out nd h hx hdf hui hmd hstk hfork
    simp only [get, trackRead_stack_nil s D hstk, hx, hfork, Option.bind, hdf, hui, hmd,
      Bool.or_self, Bool.false_eq_true, if_false, if_true, Option.some.injEq] at h
    subst h
    exact ⟨rfl, updN_trace _ _ _, fun i => vOf_updN s D
      (fun y => { y with f := { y.f with uninit := false, maybeDirty := false } })
      (fun _ => rfl) i⟩
  · intro n D s out nd p h hx hdf heff hfn hinv hstk hfork
    simp only [get, trackRead_stack_nil s D hstk, hx, hfork, Option.bind, hdf, hinv,
      if_true] at h
    split at h
    · cases h
    · next s₂ e heq =>
      obtain ⟨s₄, res, hev, htr⟩ :=
        update_derived_frame n D s (s₂, .error e) nd p heq hx heff hfn hstk
      injection h with h
      subst h
      refine ⟨s₄, res, hev, htr, ?_⟩
      intro hc
      rw [show ((s₂ : St), Except.error (ε := Err) (α := Val) e).1.trace = s₂.trace from rfl] at htr
      rw [htr, hc, countFn_append, countFn_fnRun_self]
    · next s₂ b heq =>
      obtain ⟨s₄, res, hev, htr⟩ :=
        update_derived_frame n D s (s₂, .ok b) nd p heq hx heff hfn hstk
      injection h with h
      subst h
      refine ⟨s₄, res, hev, (updN_trace _ _ _).trans htr, ?_⟩
      intro hc
      rw [updN_trace, htr, hc, countFn_append, countFn_fnRun_self]

/-- Witness for C5: the two-node instance (source 0 holding 1 with sole
subscriber the derived 1, whose `reactions` was never allocated).  The write
of 5 leaves the trace and the derived's stored value unchanged and flags it
maybe-dirty; the next read records exactly one more invocation of the
derived's fn; a further read changes nothing. -/
theorem c5_lazy_amended_witness :
    c5AmS1.trace = c5AmSt.trace ∧
    vOf c5AmS1 1 = vOf c5AmSt 1 ∧
    ((lookupN c5AmS1 1).map (fun y => y.f.maybeDirty)).getD false = true ∧
    countFn 1 c5AmS2.trace = countFn 1 c5AmS1.trace + 1 ∧
    get 1 1 c5AmS2 = some (c5AmS2, .ok (.int 5)) := by
  obtain ⟨hw, hcl, hrd⟩ := c5_lazy_amended
  have hset := hw 0 0 (.int 5) c5AmSt (c5AmS1, .ok (.int 5))
    { v := .int 1, reactions := some [1] } (by decide) (by decide) rfl rfl rfl
    (by decide) (by decide)
  have hclean := hcl 0 1 c5AmS2 (c5AmS2, .ok (.int 5))
    { v := .int 5, reactions := none, deps := some [0], f := { derivedF := true }, fn := some (.getN 0) }
    (by decide) (by decide) rfl rfl rfl rfl rfl
  have hget := hrd 1 1 c5AmS1 (c5AmS2, .ok (.int 5))
    { v := .int 1, reactions := none, deps := some [0], f := { maybeDirty := true, derivedF := true }, fn := some (.getN 0) }
    (.getN 0) (by decide) (by decide) rfl rfl rfl (by decide) rfl rfl
  obtain ⟨s₄, res, hev, htr, hcnt⟩ := hget
  have hdet : evalProg 2 (.getN 0) { removeDepsFrom c5AmS1 1 with reaction_stack := [some 1], trace := c5AmS1.trace ++ [.fnRun 1] } =
      some ({ heap := [{ v := .int 5, reactions := some [1] }, { v := .int 1, reactions := none, deps := some [0], f := { maybeDirty := true, derivedF := true }, fn := some (.getN 0) }], reaction_stack := [some 1], trace := [.fnRun 1] }, .ok (.int 5)) := by
    decide
  have heq2 := hdet.symm.trans hev
  simp only [Option.some.injEq, Prod.mk.injEq] at heq2
  obtain ⟨h4, -⟩ := heq2
  subst h4
  exact ⟨hset.1, hset.2.1 1 (by decide),
    hset.2.2 1 { v := .int 1, reactions := none, deps := some [0], f := { derivedF := true }, fn := some (.getN 0) }
      (by decide) (by decide) (by decide) rfl,
    hcnt (by decide), by decide⟩
